import Mathlib

/-!
# Streaming content reader (`utils/io/content/contentreader.go`)

A shallow embedding of `ContentReader` and of the locator it is built on.

* The file content is taken after lexical analysis: a file is a list of JSON
  lexemes (punctuation and scalar literals), so white space and the spelling of
  scalars are abstracted.  A number literal is an integer.
* `Decoder` follows the token state machine of Go's `encoding/json` stream
  decoder (`More`, `Token`, `Decode`), on which the source relies.  A number is
  decoded into a `float64`: it is rounded to the nearest one, and a number
  beyond the largest `float64` is an error.  An object is decoded into a map:
  of the members with the same key the last one stays.
* The background goroutine started by `NextRecord` is a `Task`: the sequence of
  channel sends `run` performs, followed by its final action.  The goroutines
  run beside the caller: `NextRecord` takes the channel operations that the
  goroutines perform between its start guard and its receive, and the records
  pass through the buffer of the channel, first in first out.  When the caller
  waits on the empty open channel only the goroutines advance.
-/

namespace Content

/-! ## JSON lexemes and values -/

/-- JSON lexemes: the six punctuation marks and the scalar literals. -/
inductive Lexeme
  | lbrace
  | rbrace
  | lbrack
  | rbrack
  | colon
  | comma
  | str (s : String)
  | num (n : Int)
  | bool (b : Bool)
  | null
deriving DecidableEq, Repr

/-- JSON values as they are written in a file: the members of an object in the
order of the text, repeated keys included. -/
inductive Json
  | null
  | bool (b : Bool)
  | num (n : Int)
  | str (s : String)
  | arr (elems : List Json)
  | obj (members : List (String × Json))
deriving Repr

/-- The Go values that `encoding/json` decodes into an `interface{}`: `nil`,
`bool`, `float64`, `string`, `[]interface{}` and `map[string]interface{}`.  The
numbers of the files are integers, so a `float64` is given by the integer it
holds.  A map is given by its entries, each key once; Go gives a map no order,
and the entries are listed in the order of the text of the members that set
them. -/
inductive Value
  | null
  | bool (b : Bool)
  | number (f : Int)
  | str (s : String)
  | slice (elems : List Value)
  | map (entries : List (String × Value))
deriving Repr

/-- Errors that the reader and the decoder produce. -/
inductive Err
  | eof
  | unexpectedEOF
  | malformed
  | unmarshalType
  | resultsNotFound
  | notExist (path : String)
deriving DecidableEq, Repr

mutual
/-- The lexemes of the text of a JSON value. -/
def render : Json → List Lexeme
  | .null => [.null]
  | .bool b => [.bool b]
  | .num n => [.num n]
  | .str s => [.str s]
  | .arr xs => .lbrack :: (renderElems xs ++ [.rbrack])
  | .obj ms => .lbrace :: (renderMembers ms ++ [.rbrace])
/-- The lexemes of the comma separated elements of an array. -/
def renderElems : List Json → List Lexeme
  | [] => []
  | [x] => render x
  | x :: y :: rest => render x ++ .comma :: renderElems (y :: rest)
/-- The lexemes of the comma separated members of an object. -/
def renderMembers : List (String × Json) → List Lexeme
  | [] => []
  | [(k, v)] => .str k :: .colon :: render v
  | (k, v) :: m :: rest => .str k :: .colon :: (render v ++ .comma :: renderMembers (m :: rest))
end

mutual
/-- Scan one complete JSON value from the front of the input (the work of the
decoder's `readValue` followed by `unmarshal` into `interface{}`).  The first
argument bounds the recursion; `readValue` supplies enough, and the result does
not depend on the bound from there on (see `parse_fuel`). -/
def parseValue : Nat → List Lexeme → Except Err (Json × List Lexeme)
  | 0, _ => .error .malformed
  | _ + 1, [] => .error .unexpectedEOF
  | _ + 1, .null :: rest => .ok (.null, rest)
  | _ + 1, .bool b :: rest => .ok (.bool b, rest)
  | _ + 1, .num n :: rest => .ok (.num n, rest)
  | _ + 1, .str s :: rest => .ok (.str s, rest)
  | fuel + 1, .lbrack :: rest =>
    match rest with
    | .rbrack :: rest1 => .ok (.arr [], rest1)
    | _ =>
      match parseElems fuel rest with
      | .ok (xs, rest1) => .ok (.arr xs, rest1)
      | .error e => .error e
  | fuel + 1, .lbrace :: rest =>
    match rest with
    | .rbrace :: rest1 => .ok (.obj [], rest1)
    | _ =>
      match parseMembers fuel rest with
      | .ok (ms, rest1) => .ok (.obj ms, rest1)
      | .error e => .error e
  | _ + 1, .rbrack :: _ => .error .malformed
  | _ + 1, .rbrace :: _ => .error .malformed
  | _ + 1, .colon :: _ => .error .malformed
  | _ + 1, .comma :: _ => .error .malformed
/-- Scan the elements of a non-empty array up to and including its closing bracket. -/
def parseElems : Nat → List Lexeme → Except Err (List Json × List Lexeme)
  | 0, _ => .error .malformed
  | fuel + 1, input =>
    match parseValue fuel input with
    | .error e => .error e
    | .ok (v, rest) =>
      match rest with
      | .comma :: rest1 =>
        match parseElems fuel rest1 with
        | .ok (vs, rest2) => .ok (v :: vs, rest2)
        | .error e => .error e
      | .rbrack :: rest1 => .ok ([v], rest1)
      | [] => .error .unexpectedEOF
      | _ :: _ => .error .malformed
/-- Scan the members of a non-empty object up to and including its closing brace. -/
def parseMembers : Nat → List Lexeme → Except Err (List (String × Json) × List Lexeme)
  | 0, _ => .error .malformed
  | fuel + 1, input =>
    match input with
    | [] => .error .unexpectedEOF
    | [.str _] => .error .unexpectedEOF
    | .str k :: .colon :: input1 =>
      match parseValue fuel input1 with
      | .error e => .error e
      | .ok (v, rest) =>
        match rest with
        | .comma :: rest1 =>
          match parseMembers fuel rest1 with
          | .ok (ms, rest2) => .ok ((k, v) :: ms, rest2)
          | .error e => .error e
        | .rbrace :: rest1 => .ok ([(k, v)], rest1)
        | [] => .error .unexpectedEOF
        | _ :: _ => .error .malformed
    | _ :: _ => .error .malformed
end

/-- Read one complete value: `io.EOF` when nothing is left, otherwise the value
and the unread rest, or the scanner's error. -/
def readValue (input : List Lexeme) : Except Err (Json × List Lexeme) :=
  match input with
  | [] => .error .eof
  | _ :: _ => parseValue (2 * input.length + 1) input

/-! ## Decoding into Go values (`encoding/json`, `decode.go`) -/

/-- The multiple of `2 ^ k` nearest to `m`; of two that are equally near, the
even multiple. -/
def roundShift (m k : Nat) : Nat :=
  let q := m / 2 ^ k
  let r := m % 2 ^ k
  if 2 ^ k < 2 * r ∨ (2 * r = 2 ^ k ∧ q % 2 = 1) then (q + 1) * 2 ^ k else q * 2 ^ k

/-- The number of low bits that a `float64` cannot hold of `m`: the least `k`,
from the given one on, with `m < 2 ^ (53 + k)`; the first argument bounds the
search, and 971 bits are dropped from a number of 1024 bits. -/
def dropBits : Nat → Nat → Nat → Nat
  | 0, k, _ => k
  | fuel + 1, k, m => if m < 2 ^ (53 + k) then k else dropBits fuel (k + 1) m

/-- The conversion of an integer literal by `strconv.ParseFloat(s, 64)`: an
integer below `2 ^ 53` is a `float64` itself; a larger one is rounded to the
nearest `float64`, which keeps 53 bits, ties going to the even one; a literal
that rounds to `2 ^ 1024` or beyond is out of range, and the decoder reports
it as an `UnmarshalTypeError` (nothing). -/
def float64 (n : Int) : Option Int :=
  let m := n.natAbs
  if m < 2 ^ 53 then some n
  else
    let v := roundShift m (dropBits 971 0 m)
    if v < 2 ^ 1024 then some (if n < 0 then -(v : Int) else (v : Int)) else none

/-- Whether a map has an entry with the key. -/
def hasKey (k : String) : List (String × Value) → Bool
  | [] => false
  | (k1, _) :: rest => k1 == k || hasKey k rest

mutual
/-- The work of `unmarshal` into an `interface{}`: a number becomes a `float64`,
an array a slice, an object a map; nothing when a number is out of range (the
error the decoder saves and returns). -/
def unmarshal : Json → Option Value
  | .null => some .null
  | .bool b => some (.bool b)
  | .num n =>
    match float64 n with
    | some f => some (.number f)
    | none => none
  | .str s => some (.str s)
  | .arr xs =>
    match unmarshalElems xs with
    | some vs => some (.slice vs)
    | none => none
  | .obj ms =>
    match unmarshalMembers ms with
    | some es => some (.map es)
    | none => none
/-- The elements of an array, decoded in order. -/
def unmarshalElems : List Json → Option (List Value)
  | [] => some []
  | x :: xs =>
    match unmarshal x, unmarshalElems xs with
    | some v, some vs => some (v :: vs)
    | _, _ => none
/-- The members of an object, decoded into the entries of a map: every value is
decoded, and a member whose key is set again by a later member is replaced by
it. -/
def unmarshalMembers : List (String × Json) → Option (List (String × Value))
  | [] => some []
  | (k, x) :: ms =>
    match unmarshal x, unmarshalMembers ms with
    | some v, some es => some (if hasKey k es then es else (k, v) :: es)
    | _, _ => none
end

/-! ## The stream decoder (`encoding/json`, `stream.go`) -/

/-- The four delimiters `Token` can return as a `json.Delim`. -/
inductive Delim
  | openArray
  | closeArray
  | openObject
  | closeObject
deriving DecidableEq, Repr

/-- A value returned by `Decoder.Token`; a number is the `float64` it was
decoded into. -/
inductive Token
  | delim (d : Delim)
  | str (s : String)
  | num (f : Int)
  | bool (b : Bool)
  | null
deriving DecidableEq, Repr

/-- The decoder's position in the token grammar. -/
inductive TokenState
  | tokenTopValue
  | tokenArrayStart
  | tokenArrayValue
  | tokenArrayComma
  | tokenObjectStart
  | tokenObjectKey
  | tokenObjectColon
  | tokenObjectValue
  | tokenObjectComma
deriving DecidableEq, Repr

/-- A `json.Decoder`: the unread input, the token state and the stack of the
states of the enclosing containers (innermost first). -/
structure Decoder where
  input : List Lexeme
  tokenState : TokenState
  tokenStack : List TokenState
deriving DecidableEq, Repr

/-- A fresh decoder on a reader, as `json.NewDecoder` gives. -/
def NewDecoder (r : List Lexeme) : Decoder :=
  { input := r, tokenState := .tokenTopValue, tokenStack := [] }

/-- Whether a value may start in this state. -/
def tokenValueAllowed : TokenState → Bool
  | .tokenTopValue => true
  | .tokenArrayStart => true
  | .tokenArrayValue => true
  | .tokenObjectValue => true
  | _ => false

/-- The state after a complete value was read in this state. -/
def tokenValueEnd : TokenState → TokenState
  | .tokenArrayStart => .tokenArrayComma
  | .tokenArrayValue => .tokenArrayComma
  | .tokenObjectValue => .tokenObjectComma
  | s => s

/-- The method `More`: the next lexeme exists and closes no container. -/
def Decoder.More (dec : Decoder) : Bool :=
  match dec.input with
  | [] => false
  | .rbrack :: _ => false
  | .rbrace :: _ => false
  | _ :: _ => true

/-- The loop of `Token`: colons and commas are skipped where the state expects
them; a delimiter, an object key or a scalar value is returned.  A scalar value
is read by `Decode` into an `interface{}`: a number out of the range of
`float64` is consumed and gives the error of `unmarshal`.  The decoder returned
is the one the call leaves behind, also on error. -/
def tokenLoop (st : TokenState) (stack : List TokenState) :
    List Lexeme → Decoder × Except Err Token
  | [] => (⟨[], st, stack⟩, .error .eof)
  | .lbrack :: rest =>
    if tokenValueAllowed st then (⟨rest, .tokenArrayStart, st :: stack⟩, .ok (.delim .openArray))
    else (⟨.lbrack :: rest, st, stack⟩, .error .malformed)
  | .rbrack :: rest =>
    if st ≠ .tokenArrayStart ∧ st ≠ .tokenArrayComma then
      (⟨.rbrack :: rest, st, stack⟩, .error .malformed)
    else
      (⟨rest, tokenValueEnd (stack.headD .tokenTopValue), stack.tail⟩, .ok (.delim .closeArray))
  | .lbrace :: rest =>
    if tokenValueAllowed st then (⟨rest, .tokenObjectStart, st :: stack⟩, .ok (.delim .openObject))
    else (⟨.lbrace :: rest, st, stack⟩, .error .malformed)
  | .rbrace :: rest =>
    if st ≠ .tokenObjectStart ∧ st ≠ .tokenObjectComma then
      (⟨.rbrace :: rest, st, stack⟩, .error .malformed)
    else
      (⟨rest, tokenValueEnd (stack.headD .tokenTopValue), stack.tail⟩, .ok (.delim .closeObject))
  | .colon :: rest =>
    if st ≠ .tokenObjectColon then (⟨.colon :: rest, st, stack⟩, .error .malformed)
    else tokenLoop .tokenObjectValue stack rest
  | .comma :: rest =>
    if st = .tokenArrayComma then tokenLoop .tokenArrayValue stack rest
    else if st = .tokenObjectComma then tokenLoop .tokenObjectKey stack rest
    else (⟨.comma :: rest, st, stack⟩, .error .malformed)
  | .str s :: rest =>
    if st = .tokenObjectStart ∨ st = .tokenObjectKey then
      (⟨rest, .tokenObjectColon, stack⟩, .ok (.str s))
    else if tokenValueAllowed st then (⟨rest, tokenValueEnd st, stack⟩, .ok (.str s))
    else (⟨.str s :: rest, st, stack⟩, .error .malformed)
  | .num n :: rest =>
    if tokenValueAllowed st then
      match float64 n with
      | some f => (⟨rest, tokenValueEnd st, stack⟩, .ok (.num f))
      | none => (⟨rest, tokenValueEnd st, stack⟩, .error .unmarshalType)
    else (⟨.num n :: rest, st, stack⟩, .error .malformed)
  | .bool b :: rest =>
    if tokenValueAllowed st then (⟨rest, tokenValueEnd st, stack⟩, .ok (.bool b))
    else (⟨.bool b :: rest, st, stack⟩, .error .malformed)
  | .null :: rest =>
    if tokenValueAllowed st then (⟨rest, tokenValueEnd st, stack⟩, .ok .null)
    else (⟨.null :: rest, st, stack⟩, .error .malformed)

/-- The method `Token`: the next token of the stream. -/
def Decoder.Token (dec : Decoder) : Decoder × Except Err Token :=
  tokenLoop dec.tokenState dec.tokenStack dec.input

/-- Before `Decode`, the separator that the token state still owes is consumed. -/
def Decoder.tokenPrepareForDecode (dec : Decoder) : Decoder × Option Err :=
  match dec.tokenState with
  | .tokenArrayComma =>
    match dec.input with
    | [] => (dec, some .eof)
    | .comma :: rest => ({ dec with input := rest, tokenState := .tokenArrayValue }, none)
    | _ :: _ => (dec, some .malformed)
  | .tokenObjectColon =>
    match dec.input with
    | [] => (dec, some .eof)
    | .colon :: rest => ({ dec with input := rest, tokenState := .tokenObjectValue }, none)
    | _ :: _ => (dec, some .malformed)
  | _ => (dec, none)

/-- The method `Decode` with a destination of type `map[string]interface{}`:
one complete value is read and consumed, then decoded; an object gives the
map, unless one of its numbers is out of range, `null` gives the nil map, any
other value is a type error. -/
def Decoder.Decode (dec : Decoder) : Decoder × Except Err Value :=
  match dec.tokenPrepareForDecode with
  | (dec1, some e) => (dec1, .error e)
  | (dec1, none) =>
    if tokenValueAllowed dec1.tokenState then
      match readValue dec1.input with
      | .error e => (dec1, .error e)
      | .ok (v, rest) =>
        let dec2 : Decoder :=
          { dec1 with input := rest, tokenState := tokenValueEnd dec1.tokenState }
        match v with
        | .obj ms =>
          match unmarshal (.obj ms) with
          | some record => (dec2, .ok record)
          | none => (dec2, .error .unmarshalType)
        | .null => (dec2, .ok .null)
        | _ => (dec2, .error .unmarshalType)
    else (dec1, .error .malformed)

/-! ## The locator -/

/-- Modelled from the spec: `errorutils.CheckError` is not among the sources;
the spec has the underlying error reported, so the error passes unchanged. -/
def CheckError (err : Option Err) : Option Err := err

/-- The loop of `findDecoderTargetPosition`; the first argument bounds the
number of iterations. -/
def findLoop (target : String) (isArray : Bool) : Nat → Decoder → Decoder × Option Err
  | 0, dec => (dec, none)
  | fuel + 1, dec =>
    if dec.More then
      match dec.Token with
      | (dec1, .error err) => (dec1, CheckError (some err))
      | (dec1, .ok t) =>
        if t = Token.str target then
          if isArray then
            match dec1.Token with
            | (dec2, .error err) => (dec2, CheckError (some err))
            | (dec2, .ok _) => (dec2, CheckError none)
          else (dec1, CheckError none)
        else findLoop target isArray fuel dec1
    else (dec, none)

/-- The function `findDecoderTargetPosition`: tokens are read while `More`
holds; at the first token equal to the target the next token is skipped when an
array is expected, and the error of that step (or none) is returned.  Every
iteration consumes a lexeme, so the bound is never reached
(see `findLoop_fuel`). -/
def findDecoderTargetPosition (dec : Decoder) (target : String) (isArray : Bool) :
    Decoder × Option Err :=
  findLoop target isArray (dec.input.length + 1) dec

/-- The function `isZeroResult`. -/
def isZeroResult (dec : Decoder) (target : String) (isArray : Bool) :
    Decoder × Except Err Bool :=
  match findDecoderTargetPosition dec target isArray with
  | (dec1, some err) => (dec1, .error err)
  | (dec1, none) =>
    match dec1.Token with
    | (dec2, .error err) => (dec2, .error err)
    | (dec2, .ok t) => (dec2, .ok (decide (t = Token.delim .openObject)))

/-! ## Channels, the error queue and the reader -/

/-- A buffered Go channel of decoded records: the records sent and not yet
received, the oldest first. -/
structure Chan where
  capacity : Nat
  buf : List Value
  closed : Bool

/-- The value of `make(chan map[string]interface{}, capacity)`. -/
def makeChan (capacity : Nat) : Chan :=
  { capacity := capacity, buf := [], closed := false }

/-- Modelled from the spec: `utils.ErrorsQueue` is not among the sources.  The
spec describes a fixed-capacity FIFO of errors, written by the producer and read
by the owner, the first error observed being retrievable first, that drops what
is added beyond its capacity. -/
structure ErrorsQueue where
  capacity : Nat
  errs : List Err
deriving DecidableEq, Repr

/-- Modelled from the spec: an empty error sink of the given capacity. -/
def NewErrorsQueue (size : Nat) : ErrorsQueue :=
  { capacity := size, errs := [] }

/-- Modelled from the spec: the error is appended unless the sink is full. -/
def ErrorsQueue.AddError (q : ErrorsQueue) (err : Err) : ErrorsQueue :=
  if q.errs.length < q.capacity then { q with errs := q.errs ++ [err] } else q

/-- Modelled from the spec: the first recorded error is retrieved and leaves
the sink; nothing is returned when no error is recorded. -/
def ErrorsQueue.GetError (q : ErrorsQueue) : ErrorsQueue × Option Err :=
  match q.errs with
  | [] => (q, none)
  | e :: rest => ({ q with errs := rest }, some e)

/-- The struct `ContentReader`.  The channel is a reference into the heap of
channels of the `World`; `once` tells whether the `sync.Once` the reader points
to has fired. -/
structure ContentReader where
  filePath : String
  arrayKey : String
  dataChannel : Nat
  buffer : List Value
  errorsQueue : ErrorsQueue
  once : Bool

/-- What one execution of `run` does: the records it sends on the data channel,
in order, then the errors it adds to the errors queue, and how it ends: with
`log.Fatal` (the process exits, deferred calls do not run) or by returning, the
deferred `close` of the data channel having been registered or not. -/
structure RunResult where
  sent : List Value
  errors : List Err
  fatal : Bool
  closed : Bool
deriving Repr

/-- The loop `for dec.More()` of `run`; the first argument bounds the number of
iterations.  Every iteration consumes a lexeme, so the bound that `run` supplies
is never reached (see `runLoop_fuel`). -/
def runLoop : Nat → Decoder → RunResult
  | 0, _ => { sent := [], errors := [], fatal := false, closed := true }
  | fuel + 1, dec =>
    if dec.More then
      match dec.Decode with
      | (_, .error _) => { sent := [], errors := [], fatal := true, closed := false }
      | (dec1, .ok ResultItem) =>
        let r := runLoop fuel dec1
        { r with sent := ResultItem :: r.sent }
    else { sent := [], errors := [], fatal := false, closed := true }

/-- The method `run` on a file system and a reader.  A file that cannot be
opened ends in `log.Fatal` before anything is recorded.  When the locator
returns `io.EOF`, "results not found" is recorded and `run` returns; on any
other locator error the error is recorded and `log.Fatal` is called.  A record
that fails to decode ends in `log.Fatal` before the error is recorded. -/
def run (fs : String → Option (List Lexeme)) (rr : ContentReader) : RunResult :=
  match fs rr.filePath with
  | none => { sent := [], errors := [], fatal := true, closed := false }
  | some content =>
    let dec := NewDecoder content
    match findDecoderTargetPosition dec rr.arrayKey true with
    | (_, some err) =>
      if err = Err.eof then
        { sent := [], errors := [Err.resultsNotFound], fatal := false, closed := true }
      else { sent := [], errors := [err], fatal := true, closed := false }
    | (dec1, none) => runLoop (dec1.input.length + 1) dec1

/-- A live goroutine executing `run`: what is left of its execution, and the
channel its deferred `close` was registered on (the reader's data channel at the
time `run` started; the sends use the reader's data channel of the moment). -/
structure Task where
  todo : RunResult
  chan : Nat

/-- The state of the program around one reader: the file system, the heap of
channels with the next free reference, the reader, the live goroutines (oldest
first), and the number of goroutines that have ended. -/
structure World where
  fs : String → Option (List Lexeme)
  chans : Nat → Chan
  nextChan : Nat
  rr : ContentReader
  tasks : List Task
  ended : Nat

/-- How a call ends: it returns a value in a new state, the process exits in
`log.Fatal`, the process panics, or the call blocks forever. -/
inductive Outcome (α : Type)
  | ret (w : World) (a : α)
  | exit
  | panic
  | block

/-- The value a call returned, if it returned. -/
def Outcome.value {α : Type} : Outcome α → Option α
  | .ret _ a => some a
  | _ => none

/-- The state a call left, if it returned. -/
def Outcome.world {α : Type} : Outcome α → Option World
  | .ret w _ => some w
  | _ => none

/-- Store a channel at a reference of the heap. -/
def setChan (chans : Nat → Chan) (i : Nat) (c : Chan) : Nat → Chan :=
  fun j => if j = i then c else chans j

/-- The function `NewContentReader`, in a program with the given file system. -/
def NewContentReader (fs : String → Option (List Lexeme)) (filePath arrayKey : String) : World :=
  { fs := fs
    chans := fun _ => makeChan 50000
    nextChan := 1
    rr :=
      { filePath := filePath
        arrayKey := arrayKey
        dataChannel := 0
        buffer := []
        errorsQueue := NewErrorsQueue 50000
        once := false }
    tasks := []
    ended := 0 }

/-- The method `ArrayKey`. -/
def ArrayKey (w : World) (arrayKey : String) : World :=
  { w with rr := { w.rr with arrayKey := arrayKey } }

/-- Add the errors of a finished task to the errors queue, in order. -/
def addErrors (q : ErrorsQueue) : List Err → ErrorsQueue
  | [] => q
  | e :: es => addErrors (q.AddError e) es

/-- The live goroutine number `i`, the oldest being number 0, performs its next
channel operation.  With a record to send it sends it on the reader's data
channel: the record joins the buffer behind the records that wait there; when
the buffer is full the send waits and the state stays as it is; a send on a
closed channel panics.  With nothing left to send the goroutine records its
errors and then either exits the process in `log.Fatal`, or returns and runs
its deferred `close`; closing a closed channel panics.  When there is no live
goroutine of that number nothing happens. -/
def advance (i : Nat) (w : World) : Outcome Unit :=
  match w.tasks[i]? with
  | none => .ret w ()
  | some t =>
    match t.todo.sent with
    | record :: more =>
      if (w.chans w.rr.dataChannel).closed then .panic
      else if (w.chans w.rr.dataChannel).buf.length < (w.chans w.rr.dataChannel).capacity then
        .ret { w with
          chans := setChan w.chans w.rr.dataChannel
            { w.chans w.rr.dataChannel with
              buf := (w.chans w.rr.dataChannel).buf ++ [record] }
          tasks := w.tasks.set i { t with todo := { t.todo with sent := more } } } ()
      else .ret w ()
    | [] =>
      let w1 : World :=
        { w with rr := { w.rr with errorsQueue := addErrors w.rr.errorsQueue t.todo.errors }
                 tasks := w.tasks.eraseIdx i
                 ended := w.ended + 1 }
      if t.todo.fatal then .exit
      else if t.todo.closed then
        if (w1.chans t.chan).closed then .panic
        else .ret { w1 with chans := setChan w1.chans t.chan
                              { w1.chans t.chan with closed := true } } ()
      else .ret w1 ()

/-- The goroutines perform channel operations while the caller does nothing:
one operation for each number of the list, by the live goroutine of that
number. -/
def background : List Nat → World → Outcome Unit
  | [], w => .ret w ()
  | i :: rest, w =>
    match advance i w with
    | .ret w1 _ => background rest w1
    | .exit => .exit
    | .panic => .panic
    | .block => .block

/-- The consumer waits on the empty open data channel, and only the goroutines
advance, the oldest first, until a record is in the buffer, which the consumer
takes, or the channel is closed, which ends the wait with `io.EOF`.  The oldest
goroutine either sends or ends at each step, so the number of live goroutines
bounds the steps without a record; when it is used up no step changes the
channel any more and the consumer waits forever (see `drive_fuel`). -/
def drive : Nat → World → Outcome (Except Err Value)
  | 0, _ => .block
  | fuel + 1, w =>
    match advance 0 w with
    | .ret w1 _ =>
      match (w1.chans w1.rr.dataChannel).buf with
      | record :: more =>
        .ret { w1 with chans := setChan w1.chans w1.rr.dataChannel
                         { w1.chans w1.rr.dataChannel with buf := more } } (.ok record)
      | [] =>
        if (w1.chans w1.rr.dataChannel).closed then .ret w1 (.error Err.eof)
        else drive fuel w1
    | .exit => .exit
    | .panic => .panic
    | .block => .block

/-- The receive `record, ok := <-rr.dataChannel` of `NextRecord` and what
follows it: the oldest buffered record is taken, a closed and drained channel
gives `io.EOF`, and on an empty open channel the consumer waits. -/
def receive (w : World) : Outcome (Except Err Value) :=
  match (w.chans w.rr.dataChannel).buf with
  | record :: more =>
    .ret { w with chans := setChan w.chans w.rr.dataChannel
                    { w.chans w.rr.dataChannel with buf := more } } (.ok record)
  | [] =>
    if (w.chans w.rr.dataChannel).closed then .ret w (.error Err.eof)
    else drive w.tasks.length w

/-- The statement `go func() { rr.run() }()`, run as the start guard fires: a
goroutine executing `run` on the reader as it is now joins the live goroutines. -/
def startTask (w : World) : World :=
  { w with rr := { w.rr with once := true }
           tasks := w.tasks ++ [{ todo := run w.fs w.rr, chan := w.rr.dataChannel }] }

/-- The method `NextRecord` with a destination that accepts every record: the
first call of a start guard starts the goroutine of `run`; the call then
receives from the data channel.  Between the two the goroutines perform the
channel operations of the list `ahead`, which names the goroutine of each
operation: every interleaving of the caller with the goroutines is a choice of
this list for each call. -/
def NextRecord (ahead : List Nat) (w : World) : Outcome (Except Err Value) :=
  match background ahead (if w.rr.once then w else startTask w) with
  | .ret w1 _ => receive w1
  | .exit => .exit
  | .panic => .panic
  | .block => .block

/-- The method `Reset`: a new channel of capacity 50000 and a new start guard. -/
def Reset (w : World) : World :=
  { w with chans := setChan w.chans w.nextChan (makeChan 50000)
           nextChan := w.nextChan + 1
           rr := { w.rr with dataChannel := w.nextChan, once := false } }

/-- The method `Close`: the file at a non-empty path is removed; removing a
file that does not exist is an error. -/
def Close (w : World) : World × Option Err :=
  if w.rr.filePath ≠ "" then
    match w.fs w.rr.filePath with
    | some _ =>
      ({ w with fs := fun p => if p = w.rr.filePath then none else w.fs p }, CheckError none)
    | none => (w, CheckError (some (Err.notExist w.rr.filePath)))
  else (w, none)

/-- The method `GetFilePath`. -/
def GetFilePath (w : World) : String := w.rr.filePath

/-- The method `SetFilePath`: the file at the old path, if any, is removed; the
new path and a new channel of capacity 2 are installed. -/
def SetFilePath (w : World) (newPath : String) : World :=
  let w1 := if w.rr.filePath ≠ "" then (Close w).1 else w
  { w1 with chans := setChan w1.chans w1.nextChan (makeChan 2)
            nextChan := w1.nextChan + 1
            rr := { w1.rr with filePath := newPath, dataChannel := w1.nextChan } }

/-- The method `IsEmpty`.  A file that cannot be opened ends in `log.Fatal`.
The error of the first locator call is overwritten; `isZeroResult` runs on the
same decoder.  On return the deferred `close(rr.dataChannel)` runs. -/
def IsEmpty (w : World) : Outcome (Except Err Bool) :=
  match w.fs w.rr.filePath with
  | none => .exit
  | some content =>
    let dec := NewDecoder content
    let dec1 := (findDecoderTargetPosition dec w.rr.arrayKey true).1
    let result := (isZeroResult dec1 w.rr.arrayKey true).2
    if (w.chans w.rr.dataChannel).closed then .panic
    else
      .ret { w with chans := setChan w.chans w.rr.dataChannel
                      { w.chans w.rr.dataChannel with closed := true } } result

/-- The method `GetError`. -/
def GetError (w : World) : World × Option Err :=
  ({ w with rr := { w.rr with errorsQueue := w.rr.errorsQueue.GetError.1 } },
    w.rr.errorsQueue.GetError.2)

/-- The records of consecutive `NextRecord` calls, one call for each entry of
the list, which holds the channel operations the goroutines perform during that
call, and the state the calls leave; nothing when one of the calls does not
deliver a record. -/
def drain : List (List Nat) → World → Option (List Value × World)
  | [], w => some ([], w)
  | ahead :: rest, w =>
    match NextRecord ahead w with
    | .ret w1 (.ok record) =>
      match drain rest w1 with
      | some (records, w2) => some (record :: records, w2)
      | none => none
    | _ => none

/-- The file content `{KEY:[o1,...,on]}` for objects with the given members. -/
def document (key : String) (objects : List (List (String × Json))) : List Lexeme :=
  render (.obj [(key, .arr (objects.map Json.obj))])

/-- The maps that the objects of a list are decoded into; nothing when one of
them holds a number out of the range of `float64`. -/
def unmarshalObjects : List (List (String × Json)) → Option (List Value)
  | [] => some []
  | o :: os =>
    match unmarshal (.obj o), unmarshalObjects os with
    | some v, some vs => some (v :: vs)
    | _, _ => none

/-- What `run` does with an array of objects: it sends the maps of the objects
in order; at the first object that holds a number out of the range of
`float64` it ends in `log.Fatal`. -/
def runObjects : List (List (String × Json)) → RunResult
  | [] => { sent := [], errors := [], fatal := false, closed := true }
  | o :: os =>
    match unmarshal (.obj o) with
    | none => { sent := [], errors := [], fatal := true, closed := false }
    | some record =>
      let r := runObjects os
      { r with sent := record :: r.sent }

/-- Another program writes the file at a path. -/
def writeFile (w : World) (path : String) (content : List Lexeme) : World :=
  { w with fs := fun p => if p = path then some content else w.fs p }

/-- A reader between sessions: the start guard has not fired, no goroutine is
alive, and the data channel is open, empty and has room for a record. -/
def Idle (w : World) : Prop :=
  w.rr.once = false ∧ w.tasks = [] ∧
    (w.chans w.rr.dataChannel).buf = [] ∧ (w.chans w.rr.dataChannel).closed = false ∧
    0 < (w.chans w.rr.dataChannel).capacity

/-- A state of the session of a reader that was idle in `w`, while its goroutine
is alive: the start guard has fired, the buffer of the data channel holds `buf`
and the goroutine has `pending` left to send. -/
def inSession (w : World) (buf pending : List Value) : World :=
  { w with
    chans := setChan w.chans w.rr.dataChannel
      { capacity := (w.chans w.rr.dataChannel).capacity, buf := buf, closed := false }
    rr := { w.rr with once := true }
    tasks := [{ todo := { run w.fs w.rr with sent := pending }, chan := w.rr.dataChannel }] }

/-- A state of the session of a reader that was idle in `w`, after its goroutine
has returned: the errors of `run` are recorded, the data channel is closed and
its buffer holds `buf`. -/
def afterRun (w : World) (buf : List Value) : World :=
  { w with
    chans := setChan w.chans w.rr.dataChannel
      { capacity := (w.chans w.rr.dataChannel).capacity, buf := buf, closed := true }
    rr := { w.rr with
      once := true
      errorsQueue := addErrors w.rr.errorsQueue (run w.fs w.rr).errors }
    tasks := []
    ended := w.ended + 1 }

/-- The state a session leaves when its goroutine has returned and the consumer
has received `io.EOF`: the errors of `run` are recorded, the data channel is
closed and empty, the start guard has fired and the goroutine is gone. -/
def finished (w : World) : World :=
  afterRun w []

/-- The records that a session still has to deliver are `rest`: they are in the
buffer of the data channel, the oldest first, or still to be sent by the
goroutine; or the goroutine has returned and they are all in the buffer. -/
def Remains (w : World) (rest : List Value) (s : World) : Prop :=
  (∃ buf pending, s = inSession w buf pending ∧ buf ++ pending = rest) ∨
    ((run w.fs w.rr).fatal = false ∧ s = afterRun w rest)

/-- The records that the calls of a session still have to deliver are `rest`:
either the session has not started and they are all that `run` sends, or the
session is under way and they remain in it. -/
def Pending (w : World) (rest : List Value) (s : World) : Prop :=
  (s = w ∧ rest = (run w.fs w.rr).sent) ∨ Remains w rest s

/-- The lexemes that follow the first element of an array: each further
element preceded by its comma. -/
def renderMore : List Json → List Lexeme
  | [] => []
  | x :: xs => .comma :: (render x ++ renderMore xs)

/-- The lexemes that follow the first member of an object: each further member
preceded by its comma. -/
def renderMoreMembers : List (String × Json) → List Lexeme
  | [] => []
  | (k, v) :: ms => .comma :: .str k :: .colon :: (render v ++ renderMoreMembers ms)

/-- Whether a value is a scalar: null, a boolean, a number or a string. -/
def Json.isScalar : Json → Bool
  | .arr _ => false
  | .obj _ => false
  | _ => true

/-! ## Concrete files -/

/-- A file system that holds exactly one file. -/
def oneFile (path : String) (content : List Lexeme) : String → Option (List Lexeme) :=
  fun p => if p = path then some content else none

/-- A file system that holds no file. -/
def noFiles : String → Option (List Lexeme) :=
  fun _ => none

/-- The objects `{"a":1}`, `{"a":2}`, `{"a":3}`. -/
def threeObjects : List (List (String × Json)) :=
  [[("a", .num 1)], [("a", .num 2)], [("a", .num 3)]]

/-- The maps that the objects `{"a":1}`, `{"a":2}`, `{"a":3}` are decoded into. -/
def threeRecords : List Value :=
  [.map [("a", .number 1)], .map [("a", .number 2)], .map [("a", .number 3)]]

/-- The file content `{"other":[]}`. -/
def otherDoc : List Lexeme :=
  render (.obj [("other", .arr [])])

/-- The file content `{"a":{"b":1},"results":[{"x":1}]}`. -/
def nestedBeforeDoc : List Lexeme :=
  render (.obj [("a", .obj [("b", .num 1)]), ("results", .arr [.obj [("x", .num 1)]])])

/-- The file content `{"a":[1],"results":[{"x":1}]}`. -/
def arrayBeforeDoc : List Lexeme :=
  render (.obj [("a", .arr [.num 1]), ("results", .arr [.obj [("x", .num 1)]])])

/-- The members `"total":2` and `"name":"x"`. -/
def scalarsBefore : List (String × Json) :=
  [("total", .num 2), ("name", .str "x")]

/-- The member `"range":{"z":[1]}`. -/
def nestedAfter : List (String × Json) :=
  [("range", .obj [("z", .arr [.num 1])])]

/-- The file content `{"name":"results","results":[{"a":1}]}`. -/
def keyAsValueDoc : List Lexeme :=
  render (.obj [("name", .str "results"), ("results", .arr [.obj [("a", .num 1)]])])

/-- The file content `"results"`: a document that is one string. -/
def keyStringDoc : List Lexeme :=
  [.str "results"]

/-- The file content `{"results":[1]}`: the array element is not an object. -/
def numberElementDoc : List Lexeme :=
  render (.obj [("results", .arr [.num 1])])

/-- The file content `{"results"}`: the key is followed by no value. -/
def keyOnlyDoc : List Lexeme :=
  [.lbrace, .str "results", .rbrace]

/-- A reader on the file `{"results":[{"a":1}]}` whose errors queue still holds
the error "results not found" of an earlier session. -/
def pendingErrorWorld : World :=
  { NewContentReader (oneFile "f" (document "results" [[("a", .num 1)]])) "f" "results" with
    rr :=
      { filePath := "f"
        arrayKey := "results"
        dataChannel := 0
        buffer := []
        errorsQueue := { capacity := 50000, errs := [Err.resultsNotFound] }
        once := true } }

/-- Two files: `f` holds `{"results":[]}` and `g` holds `{"results":[{"a":1}]}`. -/
def twoFiles : String → Option (List Lexeme) :=
  fun p =>
    if p = "f" then some (document "results" [])
    else if p = "g" then some (document "results" [[("a", .num 1)]])
    else none

/-! ## Observers for the later claims -/

/-- The number of goroutines of `run` that were started up to a state: those
alive and those that have ended. -/
def goroutines (w : World) : Nat :=
  w.tasks.length + w.ended

/-- The state that consecutive calls of `NextRecord` leave, one call for each
entry of the list, whatever the calls return; nothing when one of them does not
return. -/
def calls : List (List Nat) → World → Option World
  | [], w => some w
  | ahead :: rest, w =>
    match NextRecord ahead w with
    | .ret w1 _ => calls rest w1
    | _ => none

/-- The tokens that the first `n` calls of `Token` return, and the decoder they
leave; nothing when one of the calls fails. -/
def readTokens : Nat → Decoder → Option (List Token × Decoder)
  | 0, dec => some ([], dec)
  | n + 1, dec =>
    match dec.Token with
    | (dec1, .ok t) =>
      match readTokens n dec1 with
      | some (ts, dec2) => some (t :: ts, dec2)
      | none => none
    | (_, .error _) => none

/-- The atomic actions of a session: the start guard fires and starts the
goroutine of `run`, the live goroutine of the given number (the oldest being
number 0) advances by one channel operation, the consumer takes a record from
the buffer of the data channel. -/
inductive Action
  | start
  | produce (i : Nat)
  | consume
deriving DecidableEq, Repr

/-- One action on a state, and nothing when the process ends by it.  A send on
a channel whose buffer is full blocks and leaves the state as it is; a send on a
closed channel and the close of a closed channel panic; a consumer that finds
the buffer empty takes nothing. -/
def act (w : World) : Action → Option World
  | .start => some (if w.rr.once then w else startTask w)
  | .consume =>
    match (w.chans w.rr.dataChannel).buf with
    | _ :: more =>
      some { w with chans := setChan w.chans w.rr.dataChannel
                      { w.chans w.rr.dataChannel with buf := more } }
    | [] => some w
  | .produce i => (advance i w).world

/-- The state after the actions of a schedule, in order; nothing when the
process ends on the way. -/
def exec : List Action → World → Option World
  | [], w => some w
  | a :: rest, w =>
    match act w a with
    | some w1 => exec rest w1
    | none => none

/-- A schedule on the file `{"results":[{"a":1},{"a":2},{"a":3}]}`: the
goroutine is started and sends all it can, then the consumer takes one record. -/
def busySchedule : List Action :=
  [.start, .produce 0, .produce 0, .produce 0, .produce 0, .consume]

/-- The file content `{"total":2,"results":[{"a":1}]}`. -/
def scalarBeforeDoc : List Lexeme :=
  render (.obj [("total", .num 2), ("results", .arr [.obj [("a", .num 1)]])])

end Content

/-!
# Placeholder parentheses (`utils/parenthesesutils.go`)

A Go string is the list of its bytes.  A panic of the source is the result
`none`.
-/

namespace Utils

/-! ## Strings, the placeholder expression and `strconv.Atoi` -/

/-- The bytes of a string of ASCII characters. -/
def ascii (s : String) : List Nat :=
  s.data.map Char.toNat

/-- The conversion `string(b)` of a byte `b`: the UTF-8 encoding of the code
point `b`, which is the byte itself only below 128. -/
def stringOfByte (b : Nat) : List Nat :=
  if b < 128 then [b] else [192 + b / 64, 128 + b % 64]

/-- The matches of the expression `{([^}]*)}` in a target, as
`FindAllStringSubmatch` lists their first group: from an opening brace up to the
next closing brace, one after the other.  The second argument holds, in reverse,
the bytes read since the opening brace of the match under way. -/
def findPlaceholders : List Nat → Option (List Nat) → List (List Nat)
  | [], _ => []
  | b :: rest, none =>
    if b = 123 then findPlaceholders rest (some []) else findPlaceholders rest none
  | b :: rest, some acc =>
    if b = 125 then acc.reverse :: findPlaceholders rest none
    else findPlaceholders rest (some (b :: acc))

/-- The value of a string of decimal digits, nothing when a byte is no digit. -/
def digitsValue : List Nat → Nat → Option Nat
  | [], n => some n
  | ch :: rest, n =>
    if 48 ≤ ch ∧ ch ≤ 57 then digitsValue rest (n * 10 + (ch - 48)) else none

/-- The function `strconv.Atoi` for a 64-bit `int`: an optional sign and at
least one decimal digit, the value within the range of `int`; nothing stands
for an error. -/
def Atoi (s : List Nat) : Option Int :=
  let body := match s with
    | 43 :: r => r
    | 45 :: r => r
    | _ => s
  match body with
  | [] => none
  | _ :: _ =>
    match digitsValue body 0 with
    | none => none
    | some n =>
      let v : Int := if s.head? = some 45 then -(n : Int) else (n : Int)
      if -9223372036854775808 ≤ v ∧ v ≤ 9223372036854775807 then some v else none

/-! ## `inPlaceRemoveDuplicate` and `getPlaceHoldersValue` -/

/-- The function `sort.Ints`: the slice in ascending order. -/
def sortInts (arg : List Int) : List Int :=
  arg.insertionSort (fun a b => a ≤ b)

/-- The loop of `inPlaceRemoveDuplicate`, with the number of iterations left,
the running index `i`, the index `j` of the last value kept and the slice. -/
def dedupLoop : Nat → Nat → Nat → List Int → Nat × List Int
  | 0, _, j, arg => (j, arg)
  | n + 1, i, j, arg =>
    if arg.getD j 0 = arg.getD i 0 then dedupLoop n (i + 1) j arg
    else dedupLoop n (i + 1) (j + 1) (arg.set (j + 1) (arg.getD i 0))

/-- The function `inPlaceRemoveDuplicate`: the slice is sorted, each value that
differs from the last one kept is moved behind it, and the slice is cut after
the last value kept; on an empty slice the cut `[:1]` panics (nothing). -/
def inPlaceRemoveDuplicate (arg : List Int) : Option (List Int) :=
  let sorted := sortInts arg
  let r := dedupLoop (sorted.length - 1) 1 0 sorted
  if r.1 + 1 ≤ r.2.length then some (r.2.take (r.1 + 1)) else none

/-- The numbers among the matches, in the order of the matches. -/
def placeholderNumbers : List (List Nat) → List Int
  | [] => []
  | m :: rest =>
    match Atoi m with
    | some number => number :: placeholderNumbers rest
    | none => placeholderNumbers rest

/-- The function `getPlaceHoldersValue`: the numbers of the placeholders of the
target, sorted and without duplicates when there is one at least. -/
def getPlaceHoldersValue (target : List Nat) : Option (List Int) :=
  match placeholderNumbers (findPlaceholders target none) with
  | [] => some []
  | v :: vs => inPlaceRemoveDuplicate (v :: vs)

/-! ## The parentheses of a pattern -/

/-- The struct `Parentheses`. -/
structure Parentheses where
  OpenIndex : Nat
  CloseIndex : Nat
deriving DecidableEq, Repr

/-- The struct `ParenthesesSlice`. -/
structure ParenthesesSlice where
  Parentheses : List Parentheses
deriving DecidableEq, Repr

/-- The method `IsPresent`. -/
def ParenthesesSlice.IsPresent (p : ParenthesesSlice) (index : Nat) : Bool :=
  p.Parentheses.any (fun v => v.OpenIndex == index || v.CloseIndex == index)

/-- The first entry without a closing index gets the index `i`. -/
def closeFirst : List Parentheses → Nat → List Parentheses
  | [], _ => []
  | p :: ps, i =>
    if p.CloseIndex = 0 then { p with CloseIndex := i } :: ps else p :: closeFirst ps i

/-- The loop from the last entry down to the first that gives the index `i` to
the first entry it meets without a closing index, and stops. -/
def closeLast (parentheses : List Parentheses) (i : Nat) : List Parentheses :=
  (closeFirst parentheses.reverse i).reverse

/-- The first loop of `getParenthesesIndex` from byte index `i` on.  The bytes
40 and 41 are the parentheses; they never lie inside the encoding of another
character, so the loop over the characters sees them at their byte index. -/
def scanPattern : List Nat → Nat → List Parentheses → List Parentheses
  | [], _, parentheses => parentheses
  | v :: rest, i, parentheses =>
    let opened := if v = 40 then parentheses ++ [{ OpenIndex := i, CloseIndex := 0 }]
      else parentheses
    let closed := if v = 41 then closeLast opened i else opened
    scanPattern rest (i + 1) closed

/-- The value of an expression of type `int`, 64 bits wide: the result wraps
around. -/
def wrapInt (x : Int) : Int :=
  (x + 9223372036854775808) % 18446744073709551616 - 9223372036854775808

/-- The third loop of `getParenthesesIndex`: for each placeholder number `v`
with `len(temp) > v-1` the entry `temp[v-1]` is taken; an index below zero
panics (nothing). -/
def pickPlaceholders (temp : List Parentheses) : List Int → Option (List Parentheses)
  | [] => some []
  | v :: vs =>
    if (temp.length : Int) > wrapInt (v - 1) then
      if wrapInt (v - 1) < 0 then none
      else
        match pickPlaceholders temp vs with
        | some result =>
          some (temp.getD (wrapInt (v - 1)).toNat { OpenIndex := 0, CloseIndex := 0 } :: result)
        | none => none
    else pickPlaceholders temp vs

/-- The function `getParenthesesIndex`. -/
def getParenthesesIndex (pattern target : List Nat) : Option (List Parentheses) :=
  let parentheses := scanPattern pattern 0 []
  let temp := parentheses.filter (fun p => p.CloseIndex ≠ 0)
  match getPlaceHoldersValue target with
  | none => none
  | some values => pickPlaceholders temp values

/-- The loop of `RemovePlaceholderParentheses` from byte index `i` on. -/
def removeLoop (parentheses : ParenthesesSlice) : List Nat → Nat → List Nat
  | [], _ => []
  | b :: rest, i =>
    if (b = 40 ∨ b = 41) ∧ parentheses.IsPresent i = true then removeLoop parentheses rest (i + 1)
    else stringOfByte b ++ removeLoop parentheses rest (i + 1)

/-- The function `RemovePlaceholderParentheses`; nothing stands for a panic. -/
def RemovePlaceholderParentheses (pattern target : List Nat) : Option (List Nat) :=
  match getParenthesesIndex pattern target with
  | none => none
  | some result => some (removeLoop { Parentheses := result } pattern 0)

/-- The loop of `AddEscapingParentheses` from byte index `i` on; 92 is the
backslash. -/
def escapeLoop (parentheses : ParenthesesSlice) : List Nat → Nat → List Nat
  | [], _ => []
  | b :: rest, i =>
    if (b = 40 ∨ b = 41) ∧ parentheses.IsPresent i = false then
      92 :: (stringOfByte b ++ escapeLoop parentheses rest (i + 1))
    else stringOfByte b ++ escapeLoop parentheses rest (i + 1)

/-- The function `AddEscapingParentheses`; nothing stands for a panic. -/
def AddEscapingParentheses (pattern target : List Nat) : Option (List Nat) :=
  match getParenthesesIndex pattern target with
  | none => none
  | some result => some (escapeLoop { Parentheses := result } pattern 0)

/-- Whether the parentheses of a string are balanced, `depth` of them being
open at its start: no closing parenthesis lacks an opening one before it, and
none is open at the end. -/
def balancedFrom : Nat → List Nat → Bool
  | depth, [] => depth == 0
  | depth, b :: rest =>
    if b = 40 then balancedFrom (depth + 1) rest
    else if b = 41 then
      match depth with
      | 0 => false
      | d + 1 => balancedFrom d rest
    else balancedFrom depth rest

/-- Balanced parentheses. -/
def Balanced (s : List Nat) : Prop :=
  balancedFrom 0 s = true

instance (s : List Nat) : Decidable (Balanced s) :=
  inferInstanceAs (Decidable (balancedFrom 0 s = true))

/-! ## The scan of a pattern seen as a stack -/

/-- The first loop of `getParenthesesIndex` on the entries in reverse order:
the newest entry first. -/
def scanStack : List Nat → Nat → List Parentheses → List Parentheses
  | [], _, stack => stack
  | v :: rest, i, stack =>
    let opened := if v = 40 then { OpenIndex := i, CloseIndex := 0 } :: stack else stack
    let closed := if v = 41 then closeFirst opened i else opened
    scanStack rest (i + 1) closed

/-- Whether an index is the opening or the closing index of a selected entry of
a stack; an entry is selected by its number, the number of entries below it. -/
def presentStack (sel : Nat → Bool) : List Parentheses → Nat → Bool
  | [], _ => false
  | e :: below, i =>
    (sel below.length && (e.OpenIndex == i || e.CloseIndex == i)) || presentStack sel below i

/-- The number of entries of a stack without a closing index. -/
def unclosed : List Parentheses → Nat
  | [] => 0
  | e :: below => (if e.CloseIndex = 0 then 1 else 0) + unclosed below

/-- The number of entries of a stack without a closing index that are not selected. -/
def unclosedKept (sel : Nat → Bool) : List Parentheses → Nat
  | [] => 0
  | e :: below =>
    (if e.CloseIndex = 0 ∧ sel below.length = false then 1 else 0) + unclosedKept sel below

/-- The loop of `RemovePlaceholderParentheses` with the test of presence as a
function of the index. -/
def removeWith (present : Nat → Bool) : List Nat → Nat → List Nat
  | [], _ => []
  | b :: rest, i =>
    if (b = 40 ∨ b = 41) ∧ present i = true then removeWith present rest (i + 1)
    else stringOfByte b ++ removeWith present rest (i + 1)

/-- An entry of the final stack stands for an entry of the stack at index `i`:
the opening index is the same, a closing index that was set is the same, one
that was not set is set at `i` or later, behind the opening index. -/
def fillsEntry (i : Nat) (e f : Parentheses) : Prop :=
  f.OpenIndex = e.OpenIndex ∧ (e.CloseIndex ≠ 0 → f.CloseIndex = e.CloseIndex) ∧
    (e.CloseIndex = 0 → i ≤ f.CloseIndex ∧ f.OpenIndex < f.CloseIndex)

/-- The entries of the final stack stand, one by one, for those of the stack at
index `i`. -/
def Fills (i : Nat) : List Parentheses → List Parentheses → Prop
  | [], [] => True
  | e :: stack, f :: filled => fillsEntry i e f ∧ Fills i stack filled
  | _, _ => False

/-! ## The removed parentheses in the words of the specification -/

/-- The index of the closing parenthesis that matches by nesting an opening
parenthesis: the bytes behind the opening parenthesis are read from index `i`
on, `depth` parentheses opened behind it being open. -/
def matchingClose : List Nat → Nat → Nat → Option Nat
  | [], _, _ => none
  | b :: rest, depth, i =>
    if b = 40 then matchingClose rest (depth + 1) (i + 1)
    else if b = 41 then
      match depth with
      | 0 => some i
      | d + 1 => matchingClose rest d (i + 1)
    else matchingClose rest depth (i + 1)

/-- The closed pairs of parentheses of a pattern read from index `i` on, in the
order of their opening parentheses; an opening parenthesis that is never closed
is skipped. -/
def closedPairs : List Nat → Nat → List (Nat × Nat)
  | [], _ => []
  | b :: rest, i =>
    if b = 40 then
      match matchingClose rest 0 (i + 1) with
      | some c => (i, c) :: closedPairs rest (i + 1)
      | none => closedPairs rest (i + 1)
    else closedPairs rest (i + 1)

/-- The indices of the two parentheses of the `k`-th pair, for each placeholder
number `k` from 1 to the number of pairs. -/
def pairPositions (pairs : List (Nat × Nat)) : List Int → List Nat
  | [] => []
  | k :: ks =>
    if 1 ≤ k ∧ k ≤ (pairs.length : Int) then
      match pairs[(k - 1).toNat]? with
      | some p => p.1 :: p.2 :: pairPositions pairs ks
      | none => pairPositions pairs ks
    else pairPositions pairs ks

/-- The pattern from index `i` on without the bytes at the given indices. -/
def deletePositions (removed : List Nat) : List Nat → Nat → List Nat
  | [], _ => []
  | b :: rest, i =>
    if i ∈ removed then deletePositions removed rest (i + 1)
    else b :: deletePositions removed rest (i + 1)

/-- The pattern from index `i` on with a backslash before each parenthesis that
is not at one of the given indices. -/
def escapeRemaining (removed : List Nat) : List Nat → Nat → List Nat
  | [], _ => []
  | b :: rest, i =>
    if (b = 40 ∨ b = 41) ∧ i ∉ removed then 92 :: b :: escapeRemaining removed rest (i + 1)
    else b :: escapeRemaining removed rest (i + 1)

/-- The entry of each opening parenthesis of a pattern read from index `i` on,
with the index of its matching closing parenthesis, 0 when there is none. -/
def allPairs : List Nat → Nat → List Parentheses
  | [], _ => []
  | b :: rest, i =>
    if b = 40 then
      { OpenIndex := i, CloseIndex := (matchingClose rest 0 (i + 1)).getD 0 } ::
        allPairs rest (i + 1)
    else allPairs rest (i + 1)

/-- The entries of a stack after the rest of the pattern, read from index `i`
on: the entry without a closing index that has `depth` such entries above it
gets the closing parenthesis that is left over at that depth. -/
def fillStack (rest : List Nat) (i : Nat) : List Parentheses → Nat → List Parentheses
  | [], _ => []
  | e :: below, depth =>
    if e.CloseIndex = 0 then
      { OpenIndex := e.OpenIndex, CloseIndex := (matchingClose rest depth i).getD 0 } ::
        fillStack rest i below (depth + 1)
    else e :: fillStack rest i below depth

end Utils

namespace Content


/-! ## Reading back rendered values -/

theorem render_head (v : Json) : ∃ l tl, render v = l :: tl ∧ l ≠ .rbrack ∧ l ≠ .rbrace := by
  cases v <;> simp [render]

theorem render_length_pos (v : Json) : 1 ≤ (render v).length := by
  obtain ⟨l, tl, h, -⟩ := render_head v
  simp [h]

theorem renderElems_head (x : Json) (xs : List Json) :
    ∃ l tl, renderElems (x :: xs) = l :: tl ∧ l ≠ .rbrack := by
  obtain ⟨l, tl, hx, g1, -⟩ := render_head x
  cases xs with
  | nil => exact ⟨l, tl, by simp [renderElems, hx], g1⟩
  | cons y ys => exact ⟨l, tl ++ .comma :: renderElems (y :: ys), by simp [renderElems, hx], g1⟩

theorem renderMembers_head (k : String) (v : Json) (ms : List (String × Json)) :
    ∃ tl, renderMembers ((k, v) :: ms) = .str k :: tl := by
  cases ms with
  | nil => exact ⟨_, by rw [renderMembers]⟩
  | cons y ys => exact ⟨_, by rw [renderMembers]⟩

theorem parse_render (fuel : Nat) :
    (∀ (v : Json) (rest : List Lexeme), 2 * (render v).length ≤ fuel →
      parseValue fuel (render v ++ rest) = .ok (v, rest)) ∧
    (∀ (x : Json) (xs : List Json) (rest : List Lexeme),
      2 * (renderElems (x :: xs)).length + 1 ≤ fuel →
      parseElems fuel (renderElems (x :: xs) ++ .rbrack :: rest) = .ok (x :: xs, rest)) ∧
    (∀ (k : String) (v : Json) (ms : List (String × Json)) (rest : List Lexeme),
      2 * (renderMembers ((k, v) :: ms)).length + 1 ≤ fuel →
      parseMembers fuel (renderMembers ((k, v) :: ms) ++ .rbrace :: rest) =
        .ok ((k, v) :: ms, rest)) := by
  induction fuel with
  | zero =>
    refine ⟨fun v rest h => ?_, fun x xs rest h => ?_, fun k v ms rest h => ?_⟩
    · have := render_length_pos v
      omega
    · omega
    · omega
  | succ f ih =>
    obtain ⟨ihV, ihE, ihM⟩ := ih
    refine ⟨fun v rest h => ?_, fun x xs rest h => ?_, fun k v ms rest h => ?_⟩
    · match v with
      | .null => simp [render, parseValue]
      | .bool b => simp [render, parseValue]
      | .num n => simp [render, parseValue]
      | .str s => simp [render, parseValue]
      | .arr [] => simp [render, renderElems, parseValue]
      | .arr (x :: xs) =>
        have h1 := ihE x xs rest (by simp [render] at h; omega)
        obtain ⟨l, tl, hl, hne⟩ := renderElems_head x xs
        simp only [render, List.cons_append, List.append_assoc, List.singleton_append,
          List.nil_append, parseValue]
        rw [hl] at h1 ⊢
        rw [List.cons_append] at h1 ⊢
        split
        · next heq => exact absurd (List.cons.inj heq).1 hne
        · rw [h1]
      | .obj [] => simp [render, renderMembers, parseValue]
      | .obj ((k, v) :: ms) =>
        have h1 := ihM k v ms rest (by simp [render] at h; omega)
        obtain ⟨tl, hl⟩ := renderMembers_head k v ms
        simp only [render, List.cons_append, List.append_assoc, List.singleton_append,
          List.nil_append, parseValue]
        rw [hl] at h1 ⊢
        rw [List.cons_append] at h1 ⊢
        rw [h1]
    · match xs with
      | [] =>
        have h1 := ihV x (.rbrack :: rest) (by simp [renderElems] at h; omega)
        simp only [renderElems, parseElems, h1]
      | y :: ys =>
        have h1 := ihV x (.comma :: (renderElems (y :: ys) ++ .rbrack :: rest))
          (by simp [renderElems] at h; omega)
        have h2 := ihE y ys rest (by simp [renderElems] at h; omega)
        simp only [renderElems, parseElems, List.append_assoc, List.cons_append, h1, h2]
    · match ms with
      | [] =>
        have h1 := ihV v (.rbrace :: rest) (by simp [renderMembers] at h; omega)
        simp only [renderMembers, parseMembers, List.cons_append, List.append_eq, h1]
      | (k2, v2) :: ms =>
        have h1 := ihV v (.comma :: (renderMembers ((k2, v2) :: ms) ++ .rbrace :: rest))
          (by simp [renderMembers] at h; omega)
        have h2 := ihM k2 v2 ms rest (by simp [renderMembers] at h; omega)
        simp only [renderMembers, parseMembers, List.append_assoc, List.cons_append,
          List.append_eq, h1, h2]

theorem readValue_render (v : Json) (rest : List Lexeme) :
    readValue (render v ++ rest) = .ok (v, rest) := by
  obtain ⟨l, tl, hl, -⟩ := render_head v
  have h := (parse_render (2 * (render v ++ rest).length + 1)).1 v rest (by simp; omega)
  rw [hl] at h ⊢
  exact h

/-! ## Progress of the decoder and adequacy of the iteration bounds -/

theorem tokenLoop_progress (input : List Lexeme) :
    ∀ (st : TokenState) (stack : List TokenState) (dec1 : Decoder) (t : Token),
      tokenLoop st stack input = (dec1, .ok t) → dec1.input.length < input.length := by
  induction input with
  | nil => intro st stack dec1 t h; simp [tokenLoop] at h
  | cons l rest ih =>
    intro st stack dec1 t h
    by_cases hnum : ∃ n, l = Lexeme.num n
    · obtain ⟨n, rfl⟩ := hnum
      simp only [tokenLoop] at h
      split_ifs at h
      · cases hf : float64 n with
        | none => rw [hf] at h; simp at h
        | some f => rw [hf] at h; obtain ⟨rfl, -⟩ := Prod.mk.inj h; simp
      · simp at h
    · cases l <;> simp only [tokenLoop] at h <;> split_ifs at h <;>
        first
        | (have h2 := ih _ _ _ _ h; simp only [List.length_cons]; omega)
        | (simp only [Prod.mk.injEq, reduceCtorEq, and_false] at h; done)
        | (obtain ⟨rfl, -⟩ := Prod.mk.inj h; simp; done)
        | (exact absurd (⟨_, rfl⟩ : ∃ n, Lexeme.num _ = Lexeme.num n) hnum)

theorem Token_progress (dec dec1 : Decoder) (t : Token) (h : dec.Token = (dec1, .ok t)) :
    dec1.input.length < dec.input.length :=
  tokenLoop_progress dec.input dec.tokenState dec.tokenStack dec1 t h

theorem findLoop_fuel (target : String) (isArray : Bool) (fuel : Nat) :
    ∀ (fuel2 : Nat) (dec : Decoder), dec.input.length < fuel → dec.input.length < fuel2 →
      findLoop target isArray fuel dec = findLoop target isArray fuel2 dec := by
  induction fuel with
  | zero => intro fuel2 dec h; omega
  | succ f ih =>
    intro fuel2 dec h1 h2
    obtain ⟨f2, rfl⟩ : ∃ f2, fuel2 = f2 + 1 := ⟨fuel2 - 1, by omega⟩
    simp only [findLoop]
    by_cases hm : dec.More = true
    · simp only [hm, if_true]
      rcases hT : dec.Token with ⟨dec1, r⟩
      cases r with
      | error e => rfl
      | ok t =>
        have hp := Token_progress dec dec1 t hT
        by_cases ht : t = Token.str target
        · simp only [ht, if_true]
        · simp only [ht, if_false]
          exact ih f2 dec1 (by omega) (by omega)
    · simp [hm]

theorem findDecoderTargetPosition_fuel (dec : Decoder) (target : String) (isArray : Bool)
    (fuel : Nat) (h : dec.input.length < fuel) :
    findLoop target isArray fuel dec = findDecoderTargetPosition dec target isArray :=
  findLoop_fuel target isArray fuel _ dec h (Nat.lt_succ_self _)

theorem parse_progress (fuel : Nat) :
    (∀ (input : List Lexeme) (v : Json) (rest : List Lexeme),
      parseValue fuel input = .ok (v, rest) → rest.length < input.length) ∧
    (∀ (input : List Lexeme) (vs : List Json) (rest : List Lexeme),
      parseElems fuel input = .ok (vs, rest) → rest.length < input.length) ∧
    (∀ (input : List Lexeme) (ms : List (String × Json)) (rest : List Lexeme),
      parseMembers fuel input = .ok (ms, rest) → rest.length < input.length) := by
  induction fuel with
  | zero =>
    refine ⟨fun input v rest h => ?_, fun input vs rest h => ?_, fun input ms rest h => ?_⟩
    · simp [parseValue] at h
    · simp [parseElems] at h
    · simp [parseMembers] at h
  | succ f ih =>
    obtain ⟨ihV, ihE, ihM⟩ := ih
    refine ⟨fun input v rest h => ?_, fun input vs rest h => ?_, fun input ms rest h => ?_⟩
    · cases input with
      | nil => simp [parseValue] at h
      | cons l tl =>
        cases l with
        | lbrack =>
          simp only [parseValue] at h
          split at h
          · simp only [Except.ok.injEq, Prod.mk.injEq] at h
            obtain ⟨-, rfl⟩ := h
            simp only [List.length_cons]; omega
          · split at h
            · next xs rest1 hE =>
              simp only [Except.ok.injEq, Prod.mk.injEq] at h
              obtain ⟨-, rfl⟩ := h
              have := ihE _ _ _ hE
              simp only [List.length_cons]; omega
            · simp only [reduceCtorEq] at h
        | lbrace =>
          simp only [parseValue] at h
          split at h
          · simp only [Except.ok.injEq, Prod.mk.injEq] at h
            obtain ⟨-, rfl⟩ := h
            simp only [List.length_cons]; omega
          · split at h
            · next xs rest1 hE =>
              simp only [Except.ok.injEq, Prod.mk.injEq] at h
              obtain ⟨-, rfl⟩ := h
              have := ihM _ _ _ hE
              simp only [List.length_cons]; omega
            · simp only [reduceCtorEq] at h
        | rbrack => simp [parseValue] at h
        | rbrace => simp [parseValue] at h
        | colon => simp [parseValue] at h
        | comma => simp [parseValue] at h
        | str s => simp only [parseValue, Except.ok.injEq, Prod.mk.injEq] at h; simp [← h.2]
        | num s => simp only [parseValue, Except.ok.injEq, Prod.mk.injEq] at h; simp [← h.2]
        | bool s => simp only [parseValue, Except.ok.injEq, Prod.mk.injEq] at h; simp [← h.2]
        | null => simp only [parseValue, Except.ok.injEq, Prod.mk.injEq] at h; simp [← h.2]
    · simp only [parseElems] at h
      split at h
      · simp only [reduceCtorEq] at h
      · next v rest0 hV =>
        have h0 := ihV _ _ _ hV
        split at h
        · split at h
          · next vs rest1 hE =>
            simp only [Except.ok.injEq, Prod.mk.injEq] at h
            obtain ⟨-, rfl⟩ := h
            have := ihE _ _ _ hE
            simp only [List.length_cons] at h0; omega
          · simp only [reduceCtorEq] at h
        · simp only [Except.ok.injEq, Prod.mk.injEq] at h
          obtain ⟨-, rfl⟩ := h
          simp only [List.length_cons] at h0; omega
        · simp only [reduceCtorEq] at h
        · simp only [reduceCtorEq] at h
    · simp only [parseMembers] at h
      split at h
      · simp only [reduceCtorEq] at h
      · simp only [reduceCtorEq] at h
      · split at h
        · simp only [reduceCtorEq] at h
        · next v rest0 hV =>
          have h0 := ihV _ _ _ hV
          split at h
          · split at h
            · next vs rest1 hE =>
              simp only [Except.ok.injEq, Prod.mk.injEq] at h
              obtain ⟨-, rfl⟩ := h
              have := ihM _ _ _ hE
              simp only [List.length_cons] at h0 ⊢; omega
            · simp only [reduceCtorEq] at h
          · simp only [Except.ok.injEq, Prod.mk.injEq] at h
            obtain ⟨-, rfl⟩ := h
            simp only [List.length_cons] at h0 ⊢; omega
          · simp only [reduceCtorEq] at h
          · simp only [reduceCtorEq] at h
      · simp only [reduceCtorEq] at h

theorem parse_fuel (fuel : Nat) :
    (∀ (fuel2 : Nat) (input : List Lexeme), 2 * input.length + 1 ≤ fuel →
      2 * input.length + 1 ≤ fuel2 → parseValue fuel input = parseValue fuel2 input) ∧
    (∀ (fuel2 : Nat) (input : List Lexeme), 2 * input.length + 2 ≤ fuel →
      2 * input.length + 2 ≤ fuel2 → parseElems fuel input = parseElems fuel2 input) ∧
    (∀ (fuel2 : Nat) (input : List Lexeme), 2 * input.length + 2 ≤ fuel →
      2 * input.length + 2 ≤ fuel2 → parseMembers fuel input = parseMembers fuel2 input) := by
  induction fuel with
  | zero =>
    refine ⟨fun fuel2 input h => ?_, fun fuel2 input h => ?_, fun fuel2 input h => ?_⟩ <;> omega
  | succ f ih =>
    obtain ⟨ihV, ihE, ihM⟩ := ih
    refine ⟨fun fuel2 input h1 h2 => ?_, fun fuel2 input h1 h2 => ?_,
      fun fuel2 input h1 h2 => ?_⟩
    all_goals obtain ⟨f2, rfl⟩ : ∃ f2, fuel2 = f2 + 1 := ⟨fuel2 - 1, by omega⟩
    · cases input with
      | nil => simp [parseValue]
      | cons l tl =>
        simp only [List.length_cons] at h1 h2
        cases l with
        | lbrack =>
          simp only [parseValue]
          split
          · rfl
          · rw [ihE f2 tl (by omega) (by omega)]
        | lbrace =>
          simp only [parseValue]
          split
          · rfl
          · rw [ihM f2 tl (by omega) (by omega)]
        | rbrack => simp [parseValue]
        | rbrace => simp [parseValue]
        | colon => simp [parseValue]
        | comma => simp [parseValue]
        | str s => simp [parseValue]
        | num s => simp [parseValue]
        | bool s => simp [parseValue]
        | null => simp [parseValue]
    · simp only [parseElems]
      rw [ihV f2 input (by omega) (by omega)]
      rcases hV : parseValue f2 input with e | ⟨v, rest⟩
      · rfl
      · have hp := (parse_progress f2).1 input v rest hV
        simp only
        split
        · next rest1 =>
          simp only [List.length_cons] at hp
          rw [ihE f2 rest1 (by omega) (by omega)]
        · rfl
        · rfl
        · rfl
    · simp only [parseMembers]
      split
      · rfl
      · rfl
      · next k input1 =>
        simp only [List.length_cons] at h1 h2
        rw [ihV f2 input1 (by omega) (by omega)]
        rcases hV : parseValue f2 input1 with e | ⟨v, rest⟩
        · rfl
        · have hp := (parse_progress f2).1 input1 v rest hV
          simp only
          split
          · next rest1 =>
            simp only [List.length_cons] at hp
            rw [ihM f2 rest1 (by omega) (by omega)]
          · rfl
          · rfl
          · rfl
      · rfl

theorem readValue_fuel (l : Lexeme) (input : List Lexeme) (fuel : Nat)
    (h : 2 * (l :: input).length + 1 ≤ fuel) :
    parseValue fuel (l :: input) = readValue (l :: input) :=
  (parse_fuel fuel).1 _ _ h (Nat.le_refl _)

theorem readValue_progress (input : List Lexeme) (v : Json) (rest : List Lexeme)
    (h : readValue input = .ok (v, rest)) : rest.length < input.length := by
  cases input with
  | nil => simp [readValue] at h
  | cons l tl => exact (parse_progress _).1 _ v rest h

theorem Decode_progress (dec dec1 : Decoder) (v : Value) (h : dec.Decode = (dec1, .ok v)) :
    dec1.input.length < dec.input.length := by
  unfold Decoder.Decode at h
  have hprep : (dec.tokenPrepareForDecode).1.input.length ≤ dec.input.length := by
    unfold Decoder.tokenPrepareForDecode
    split
    · split <;> simp_all
    · split <;> simp_all
    · simp
  rcases hP : dec.tokenPrepareForDecode with ⟨dec0, e⟩
  rw [hP] at h hprep
  cases e with
  | some e => simp at h
  | none =>
    simp only at h hprep
    split_ifs at h
    · rcases hR : readValue dec0.input with e | ⟨v0, rest⟩
      · rw [hR] at h; simp at h
      · rw [hR] at h
        have hr := readValue_progress _ _ _ hR
        simp only at h
        split at h
        · split at h
          · obtain ⟨rfl, -⟩ := Prod.mk.inj h; simp only; omega
          · simp at h
        · obtain ⟨rfl, -⟩ := Prod.mk.inj h; simp only; omega
        · simp at h
    · simp at h

theorem runLoop_fuel (fuel : Nat) :
    ∀ (fuel2 : Nat) (dec : Decoder), dec.input.length < fuel → dec.input.length < fuel2 →
      runLoop fuel dec = runLoop fuel2 dec := by
  induction fuel with
  | zero => intro fuel2 dec h; omega
  | succ f ih =>
    intro fuel2 dec h1 h2
    obtain ⟨f2, rfl⟩ : ∃ f2, fuel2 = f2 + 1 := ⟨fuel2 - 1, by omega⟩
    simp only [runLoop]
    by_cases hm : dec.More = true
    · simp only [hm, if_true]
      rcases hD : dec.Decode with ⟨dec1, r⟩
      cases r with
      | error e => rfl
      | ok item =>
        have hp := Decode_progress dec dec1 item hD
        simp only
        rw [ih f2 dec1 (by omega) (by omega)]
    · simp [hm]

/-! ## The range of `float64` -/

/-- The largest `float64` is `2 ^ 1024 - 2 ^ 971`: the integers below
`2 ^ 1024 - 2 ^ 970` are rounded to it or to a smaller one, and from there on
an integer is out of range, whatever its sign.  Where two of them are equally
near, an integer goes to the even `float64`. -/
theorem float64_boundary :
    float64 (Int.ofNat (2 ^ 1024 - 2 ^ 970 - 1)) = some (Int.ofNat (2 ^ 1024 - 2 ^ 971)) ∧
    float64 (Int.ofNat (2 ^ 1024 - 2 ^ 970)) = none ∧
    float64 (Int.negSucc (2 ^ 1024 - 2 ^ 970 - 1)) = none ∧
    float64 (Int.negSucc (2 ^ 1024 - 2 ^ 970 - 2)) = some (Int.negSucc (2 ^ 1024 - 2 ^ 971 - 1)) ∧
    float64 9007199254740993 = some 9007199254740992 ∧
    float64 9007199254740995 = some 9007199254740996 ∧
    float64 (-9007199254740993) = some (-9007199254740992) := by
  decide!

/-! ## The locator and `run` on a document `{KEY:[o1,...,on]}` -/

theorem renderElems_cons (x : Json) (xs : List Json) :
    renderElems (x :: xs) = render x ++ renderMore xs := by
  induction xs generalizing x with
  | nil => simp [renderElems, renderMore]
  | cons y ys ih => simp [renderElems, renderMore, ih y]

theorem document_eq (key : String) (objects : List (List (String × Json))) :
    document key objects =
      .lbrace :: .str key :: .colon :: .lbrack ::
        (renderElems (objects.map Json.obj) ++ [.rbrack, .rbrace]) := by
  simp [document, render, renderMembers]

theorem findDecoderTargetPosition_document (key : String)
    (objects : List (List (String × Json))) :
    findDecoderTargetPosition (NewDecoder (document key objects)) key true =
      (⟨renderElems (objects.map Json.obj) ++ [.rbrack, .rbrace], .tokenArrayStart,
          [.tokenObjectValue, .tokenTopValue]⟩, none) := by
  rw [document_eq]
  simp [findDecoderTargetPosition, NewDecoder, findLoop, Decoder.More, Decoder.Token, tokenLoop,
    tokenValueAllowed, CheckError]

theorem runLoop_more (objects : List (List (String × Json))) :
    ∀ (fuel : Nat) (rest : List Lexeme) (stack : List TokenState), objects.length < fuel →
      runLoop fuel ⟨renderMore (objects.map Json.obj) ++ .rbrack :: rest, .tokenArrayComma, stack⟩ =
        runObjects objects := by
  induction objects with
  | nil =>
    intro fuel rest stack h
    obtain ⟨f, rfl⟩ : ∃ f, fuel = f + 1 := ⟨fuel - 1, by simp at h; omega⟩
    simp [runLoop, renderMore, Decoder.More, runObjects]
  | cons o os ih =>
    intro fuel rest stack h
    obtain ⟨f, rfl⟩ : ∃ f, fuel = f + 1 := ⟨fuel - 1, by omega⟩
    have hr := readValue_render (.obj o) (renderMore (os.map Json.obj) ++ .rbrack :: rest)
    have ih2 := ih f rest stack (by simp at h; omega)
    simp only [List.map_cons, renderMore, List.cons_append, List.append_assoc, runLoop,
      Decoder.More, Decoder.Decode, Decoder.tokenPrepareForDecode, tokenValueAllowed, hr,
      tokenValueEnd, if_true, runObjects]
    cases hu : unmarshal (.obj o) with
    | none => rfl
    | some record => simp only [ih2]

theorem runLoop_array (objects : List (List (String × Json))) (fuel : Nat)
    (rest : List Lexeme) (stack : List TokenState) (h : objects.length < fuel) :
    runLoop fuel ⟨renderElems (objects.map Json.obj) ++ .rbrack :: rest, .tokenArrayStart, stack⟩ =
      runObjects objects := by
  obtain ⟨f, rfl⟩ : ∃ f, fuel = f + 1 := ⟨fuel - 1, by omega⟩
  cases objects with
  | nil => simp [runLoop, renderElems, Decoder.More, runObjects]
  | cons o os =>
    have hr := readValue_render (.obj o) (renderMore (os.map Json.obj) ++ .rbrack :: rest)
    have h2 := runLoop_more os f rest stack (by simp at h; omega)
    obtain ⟨tl, htl⟩ : ∃ tl, render (.obj o) ++ (renderMore (os.map Json.obj) ++ .rbrack :: rest)
        = .lbrace :: tl := ⟨_, by simp [render]; rfl⟩
    have hm : Decoder.More ⟨render (.obj o) ++ (renderMore (os.map Json.obj) ++ .rbrack :: rest),
        .tokenArrayStart, stack⟩ = true := by
      simp only [Decoder.More, htl]
    simp only [List.map_cons, renderElems_cons, List.append_assoc, runLoop, hm,
      Decoder.Decode, Decoder.tokenPrepareForDecode, tokenValueAllowed, hr,
      tokenValueEnd, if_true, runObjects]
    cases hu : unmarshal (.obj o) with
    | none => rfl
    | some record => simp only [h2]

theorem renderMore_length (xs : List Json) : xs.length ≤ (renderMore xs).length := by
  induction xs with
  | nil => simp
  | cons x xs ih => simp only [renderMore, List.length_cons, List.length_append]; omega

theorem renderElems_length (xs : List Json) : xs.length ≤ (renderElems xs).length := by
  cases xs with
  | nil => simp
  | cons x xs =>
    have h1 := renderMore_length xs
    have h2 := render_length_pos x
    simp only [renderElems_cons, List.length_cons, List.length_append]
    omega

theorem run_document (fs : String → Option (List Lexeme)) (rr : ContentReader)
    (objects : List (List (String × Json)))
    (h : fs rr.filePath = some (document rr.arrayKey objects)) :
    run fs rr = runObjects objects := by
  simp only [run, h, findDecoderTargetPosition_document]
  have := runLoop_array objects
    ((renderElems (objects.map Json.obj) ++ [Lexeme.rbrack, Lexeme.rbrace]).length + 1)
    [Lexeme.rbrace]
    [TokenState.tokenObjectValue, TokenState.tokenTopValue] (by
      have := renderElems_length (objects.map Json.obj)
      simp only [List.length_map, List.length_append] at this ⊢
      omega)
  simpa using this

theorem runObjects_of_unmarshalObjects (objects : List (List (String × Json))) :
    ∀ records, unmarshalObjects objects = some records →
      runObjects objects = { sent := records, errors := [], fatal := false, closed := true } := by
  induction objects with
  | nil =>
    intro records h
    simp only [unmarshalObjects, Option.some.injEq] at h
    subst h
    rfl
  | cons o os ih =>
    intro records h
    simp only [unmarshalObjects] at h
    cases hu : unmarshal (.obj o) with
    | none => rw [hu] at h; simp at h
    | some record =>
      cases hr : unmarshalObjects os with
      | none => rw [hu, hr] at h; simp at h
      | some rs =>
        rw [hu, hr] at h
        simp only [Option.some.injEq] at h
        subst h
        simp only [runObjects, hu, ih rs hr]

theorem runObjects_fatal (objects : List (List (String × Json))) :
    unmarshalObjects objects = none → (runObjects objects).fatal = true := by
  induction objects with
  | nil => intro h; simp [unmarshalObjects] at h
  | cons o os ih =>
    intro h
    simp only [unmarshalObjects] at h
    cases hu : unmarshal (.obj o) with
    | none => simp only [runObjects, hu]
    | some record =>
      cases hr : unmarshalObjects os with
      | none => simp only [runObjects, hu, ih hr]
      | some rs => rw [hu, hr] at h; simp at h

theorem unmarshalObjects_length (objects : List (List (String × Json))) :
    ∀ records, unmarshalObjects objects = some records → records.length = objects.length := by
  induction objects with
  | nil =>
    intro records h
    simp only [unmarshalObjects, Option.some.injEq] at h
    subst h
    rfl
  | cons o os ih =>
    intro records h
    simp only [unmarshalObjects] at h
    cases hu : unmarshal (.obj o) with
    | none => rw [hu] at h; simp at h
    | some record =>
      cases hr : unmarshalObjects os with
      | none => rw [hu, hr] at h; simp at h
      | some rs =>
        rw [hu, hr] at h
        simp only [Option.some.injEq] at h
        subst h
        simp [ih rs hr]

/-! ## One session of the reader under every interleaving -/

theorem setChan_same (chans : Nat → Chan) (i : Nat) (c : Chan) : setChan chans i c i = c := by
  simp [setChan]

theorem setChan_other (chans : Nat → Chan) (i j : Nat) (c : Chan) (h : j ≠ i) :
    setChan chans i c j = chans j := by
  simp [setChan, h]

theorem setChan_setChan (chans : Nat → Chan) (i : Nat) (c d : Chan) :
    setChan (setChan chans i c) i d = setChan chans i d := by
  funext j
  simp only [setChan]
  split_ifs <;> rfl

theorem setChan_self (chans : Nat → Chan) (i : Nat) : setChan chans i (chans i) = chans := by
  funext j
  simp only [setChan]
  split_ifs with h
  · rw [h]
  · rfl

theorem runLoop_closed (fuel : Nat) :
    ∀ dec : Decoder, (runLoop fuel dec).closed = !(runLoop fuel dec).fatal := by
  induction fuel with
  | zero => intro dec; rfl
  | succ f ih =>
    intro dec
    simp only [runLoop]
    split_ifs
    · split
      · rfl
      · exact ih _
    · rfl

theorem run_closed (fs : String → Option (List Lexeme)) (rr : ContentReader) :
    (run fs rr).closed = !(run fs rr).fatal := by
  unfold run
  split
  · rfl
  · simp only
    split
    · split_ifs <;> rfl
    · exact runLoop_closed _ _

theorem run_congr (fs : String → Option (List Lexeme)) (rr rr2 : ContentReader)
    (h1 : rr2.filePath = rr.filePath) (h2 : rr2.arrayKey = rr.arrayKey) :
    run fs rr2 = run fs rr := by
  simp only [run, h1, h2]

theorem advance_inSession_send (w : World) (buf pending : List Value) (r : Value) :
    advance 0 (inSession w buf (r :: pending)) =
      .ret (if buf.length < (w.chans w.rr.dataChannel).capacity
        then inSession w (buf ++ [r]) pending else inSession w buf (r :: pending)) () := by
  simp only [advance, inSession, setChan_same, setChan_setChan, Bool.false_eq_true, if_false]
  split_ifs <;> rfl

theorem advance_inSession_end (w : World) (buf : List Value) :
    advance 0 (inSession w buf []) =
      if (run w.fs w.rr).fatal then .exit else .ret (afterRun w buf) () := by
  have hc := run_closed w.fs w.rr
  cases hf : (run w.fs w.rr).fatal with
  | true => simp [advance, inSession, hf]
  | false =>
    rw [hf] at hc
    simp [advance, inSession, afterRun, hf, hc, setChan_same, setChan_setChan]

theorem advance_inSession_other (w : World) (buf pending : List Value) (i : Nat) :
    advance (i + 1) (inSession w buf pending) = .ret (inSession w buf pending) () := by
  simp [advance, inSession]

theorem advance_afterRun (w : World) (buf : List Value) (i : Nat) :
    advance i (afterRun w buf) = .ret (afterRun w buf) () := by
  simp [advance, afterRun]

theorem receive_inSession_buf (w : World) (b : Value) (buf pending : List Value) :
    receive (inSession w (b :: buf) pending) = .ret (inSession w buf pending) (.ok b) := by
  simp [receive, inSession, setChan_same, setChan_setChan]

theorem receive_inSession_send (w : World) (r : Value) (pending : List Value)
    (hcap : 0 < (w.chans w.rr.dataChannel).capacity) :
    receive (inSession w [] (r :: pending)) = .ret (inSession w [] pending) (.ok r) := by
  have h1 : receive (inSession w [] (r :: pending)) = drive 1 (inSession w [] (r :: pending)) := by
    simp [receive, inSession, setChan_same]
  rw [h1, drive, advance_inSession_send]
  simp [hcap, inSession, setChan_same, setChan_setChan]

theorem receive_inSession_end (w : World) :
    receive (inSession w [] []) =
      if (run w.fs w.rr).fatal then .exit else .ret (afterRun w []) (.error Err.eof) := by
  have h1 : receive (inSession w [] []) = drive 1 (inSession w [] []) := by
    simp [receive, inSession, setChan_same]
  rw [h1, drive, advance_inSession_end]
  split_ifs
  · rfl
  · simp [afterRun, setChan_same]

theorem receive_afterRun_buf (w : World) (b : Value) (buf : List Value) :
    receive (afterRun w (b :: buf)) = .ret (afterRun w buf) (.ok b) := by
  simp [receive, afterRun, setChan_same, setChan_setChan]

theorem receive_afterRun_end (w : World) :
    receive (afterRun w []) = .ret (afterRun w []) (.error Err.eof) := by
  simp [receive, afterRun, setChan_same]

theorem advance_Remains (w : World) (rest : List Value) (s : World) (i : Nat)
    (h : Remains w rest s) :
    (advance i s = .exit ∧ (run w.fs w.rr).fatal = true) ∨
      ∃ s1, advance i s = .ret s1 () ∧ Remains w rest s1 := by
  cases i with
  | succ i =>
    rcases h with ⟨buf, pending, rfl, hrest⟩ | ⟨hf, rfl⟩
    · exact Or.inr ⟨_, advance_inSession_other w buf pending i, Or.inl ⟨buf, pending, rfl, hrest⟩⟩
    · exact Or.inr ⟨_, advance_afterRun w rest _, Or.inr ⟨hf, rfl⟩⟩
  | zero =>
  rcases h with ⟨buf, pending, rfl, hrest⟩ | ⟨hf, rfl⟩
  · cases pending with
    | nil =>
      rw [advance_inSession_end]
      cases hf : (run w.fs w.rr).fatal with
      | true => exact Or.inl ⟨by simp, rfl⟩
      | false =>
        refine Or.inr ⟨afterRun w buf, by simp, Or.inr ⟨hf, ?_⟩⟩
        rw [← hrest, List.append_nil]
    | cons r p =>
      rw [advance_inSession_send]
      refine Or.inr ⟨_, rfl, Or.inl ?_⟩
      split_ifs
      · exact ⟨buf ++ [r], p, rfl, by simpa using hrest⟩
      · exact ⟨buf, r :: p, rfl, hrest⟩
  · exact Or.inr ⟨_, advance_afterRun w rest 0, Or.inr ⟨hf, rfl⟩⟩

theorem background_Remains (w : World) (rest : List Value) (ahead : List Nat) :
    ∀ s, Remains w rest s →
      (background ahead s = .exit ∧ (run w.fs w.rr).fatal = true) ∨
        ∃ s1, background ahead s = .ret s1 () ∧ Remains w rest s1 := by
  induction ahead with
  | nil => intro s h; exact Or.inr ⟨s, rfl, h⟩
  | cons i ahead ih =>
    intro s h
    rcases advance_Remains w rest s i h with ⟨he, hf⟩ | ⟨s1, hs1, hr1⟩
    · exact Or.inl ⟨by simp only [background, he], hf⟩
    · rcases ih s1 hr1 with ⟨he, hf⟩ | ⟨s2, hs2, hr2⟩
      · exact Or.inl ⟨by simp only [background, hs1, he], hf⟩
      · exact Or.inr ⟨s2, by simp only [background, hs1, hs2], hr2⟩

theorem Remains_once (w : World) (rest : List Value) (s : World) (h : Remains w rest s) :
    s.rr.once = true := by
  rcases h with ⟨buf, pending, rfl, -⟩ | ⟨-, rfl⟩ <;> rfl

theorem receive_Remains_cons (w : World) (r : Value) (rest : List Value) (s : World)
    (hcap : 0 < (w.chans w.rr.dataChannel).capacity) (h : Remains w (r :: rest) s) :
    ∃ s1, receive s = .ret s1 (.ok r) ∧ Remains w rest s1 := by
  rcases h with ⟨buf, pending, rfl, hrest⟩ | ⟨hf, rfl⟩
  · cases buf with
    | nil =>
      simp only [List.nil_append] at hrest
      subst hrest
      exact ⟨_, receive_inSession_send w r rest hcap, Or.inl ⟨[], rest, rfl, rfl⟩⟩
    | cons b buf =>
      simp only [List.cons_append, List.cons.injEq] at hrest
      obtain ⟨rfl, hrest⟩ := hrest
      exact ⟨_, receive_inSession_buf w b buf pending, Or.inl ⟨buf, pending, rfl, hrest⟩⟩
  · exact ⟨_, receive_afterRun_buf w r rest, Or.inr ⟨hf, rfl⟩⟩

theorem receive_Remains_nil (w : World) (s : World) (h : Remains w [] s) :
    receive s =
      if (run w.fs w.rr).fatal then .exit else .ret (finished w) (.error Err.eof) := by
  rcases h with ⟨buf, pending, rfl, hrest⟩ | ⟨hf, rfl⟩
  · simp only [List.append_eq_nil] at hrest
    obtain ⟨rfl, rfl⟩ := hrest
    exact receive_inSession_end w
  · rw [receive_afterRun_end, hf]
    rfl

theorem NextRecord_fired_ret (ahead : List Nat) (s s1 : World) (h : s.rr.once = true)
    (hb : background ahead s = .ret s1 ()) : NextRecord ahead s = receive s1 := by
  simp only [NextRecord, h, if_true, hb]

theorem NextRecord_fired_exit (ahead : List Nat) (s : World) (h : s.rr.once = true)
    (hb : background ahead s = .exit) : NextRecord ahead s = .exit := by
  simp only [NextRecord, h, if_true, hb]

theorem NextRecord_Remains_cons (w : World) (r : Value) (rest : List Value) (s : World)
    (ahead : List Nat) (hcap : 0 < (w.chans w.rr.dataChannel).capacity)
    (h : Remains w (r :: rest) s) :
    (NextRecord ahead s = .exit ∧ (run w.fs w.rr).fatal = true) ∨
      ∃ s1, NextRecord ahead s = .ret s1 (.ok r) ∧ Remains w rest s1 := by
  rcases background_Remains w (r :: rest) ahead s h with ⟨he, hf⟩ | ⟨s1, hs1, hr1⟩
  · exact Or.inl ⟨NextRecord_fired_exit ahead s (Remains_once w _ s h) he, hf⟩
  · obtain ⟨s2, hs2, hr2⟩ := receive_Remains_cons w r rest s1 hcap hr1
    exact Or.inr ⟨s2, by rw [NextRecord_fired_ret ahead s s1 (Remains_once w _ s h) hs1, hs2],
      hr2⟩

theorem NextRecord_Remains_nil (w : World) (s : World) (ahead : List Nat) (h : Remains w [] s) :
    NextRecord ahead s =
      if (run w.fs w.rr).fatal then .exit else .ret (finished w) (.error Err.eof) := by
  rcases background_Remains w [] ahead s h with ⟨he, hf⟩ | ⟨s1, hs1, hr1⟩
  · rw [NextRecord_fired_exit ahead s (Remains_once w _ s h) he, hf]
    rfl
  · rw [NextRecord_fired_ret ahead s s1 (Remains_once w _ s h) hs1]
    exact receive_Remains_nil w s1 hr1

theorem startTask_Idle (w : World) (hw : Idle w) :
    startTask w = inSession w [] (run w.fs w.rr).sent := by
  obtain ⟨-, h2, h3, h4, -⟩ := hw
  have hch : ({ capacity := (w.chans w.rr.dataChannel).capacity, buf := [], closed := false }
      : Chan) = w.chans w.rr.dataChannel := by
    rcases hc : w.chans w.rr.dataChannel with ⟨c, b, cl⟩
    rw [hc] at h3 h4
    simp only at h3 h4
    subst h3; subst h4
    rfl
  simp only [startTask, inSession, h2, List.nil_append, hch, setChan_self]

theorem NextRecord_Idle (w : World) (hw : Idle w) (ahead : List Nat) :
    NextRecord ahead w = NextRecord ahead (inSession w [] (run w.fs w.rr).sent) := by
  rw [← startTask_Idle w hw]
  simp only [NextRecord, hw.1, Bool.false_eq_true, if_false, startTask, if_true]

theorem Remains_of_Pending (w : World) (hw : Idle w) (rest : List Value) (s : World)
    (h : Pending w rest s) (ahead : List Nat) :
    ∃ s0, NextRecord ahead s = NextRecord ahead s0 ∧ Remains w rest s0 := by
  rcases h with ⟨rfl, rfl⟩ | h
  · exact ⟨_, NextRecord_Idle s hw ahead, Or.inl ⟨[], _, rfl, rfl⟩⟩
  · exact ⟨s, rfl, h⟩

theorem NextRecord_Pending_cons (w : World) (hw : Idle w) (r : Value) (rest : List Value)
    (s : World) (ahead : List Nat) (h : Pending w (r :: rest) s) :
    (NextRecord ahead s = .exit ∧ (run w.fs w.rr).fatal = true) ∨
      ∃ s1, NextRecord ahead s = .ret s1 (.ok r) ∧ Pending w rest s1 := by
  obtain ⟨s0, he, hr⟩ := Remains_of_Pending w hw _ s h ahead
  rw [he]
  rcases NextRecord_Remains_cons w r rest s0 ahead hw.2.2.2.2 hr with h1 | ⟨s1, h1, h2⟩
  · exact Or.inl h1
  · exact Or.inr ⟨s1, h1, Or.inr h2⟩

theorem NextRecord_Pending_nil (w : World) (hw : Idle w) (s : World) (ahead : List Nat)
    (h : Pending w [] s) :
    NextRecord ahead s =
      if (run w.fs w.rr).fatal then .exit else .ret (finished w) (.error Err.eof) := by
  obtain ⟨s0, he, hr⟩ := Remains_of_Pending w hw _ s h ahead
  rw [he]
  exact NextRecord_Remains_nil w s0 ahead hr

theorem drain_Pending (w : World) (hw : Idle w) (hf : (run w.fs w.rr).fatal = false)
    (schedule : List (List Nat)) :
    ∀ (rest : List Value) (s : World), Pending w rest s → schedule.length = rest.length →
      ∃ s1, drain schedule s = some (rest, s1) ∧ Pending w [] s1 := by
  induction schedule with
  | nil =>
    intro rest s h hlen
    cases rest with
    | nil => exact ⟨s, rfl, h⟩
    | cons r rest => simp at hlen
  | cons a schedule ih =>
    intro rest s h hlen
    cases rest with
    | nil => simp at hlen
    | cons r rest =>
      rcases NextRecord_Pending_cons w hw r rest s a h with ⟨-, hfa⟩ | ⟨s1, hs1, hp1⟩
      · rw [hf] at hfa; cases hfa
      · obtain ⟨s2, hs2, hp2⟩ := ih rest s1 hp1 (by simpa using hlen)
        exact ⟨s2, by simp only [drain, hs1, hs2], hp2⟩

theorem drain_Pending_prefix (w : World) (hw : Idle w) (schedule : List (List Nat)) :
    ∀ (rest : List Value) (s : World) (records : List Value) (s1 : World),
      Pending w rest s → drain schedule s = some (records, s1) →
      ∃ rest1, rest = records ++ rest1 ∧ Pending w rest1 s1 ∧
        records.length = schedule.length := by
  induction schedule with
  | nil =>
    intro rest s records s1 h hd
    simp only [drain, Option.some.injEq, Prod.mk.injEq] at hd
    obtain ⟨rfl, rfl⟩ := hd
    exact ⟨rest, rfl, h, rfl⟩
  | cons a schedule ih =>
    intro rest s records s1 h hd
    cases rest with
    | nil =>
      rw [drain, NextRecord_Pending_nil w hw s a h] at hd
      split_ifs at hd
    | cons r rest =>
      rcases NextRecord_Pending_cons w hw r rest s a h with ⟨he, -⟩ | ⟨s2, hs2, hp2⟩
      · rw [drain, he] at hd
        simp at hd
      · rw [drain, hs2] at hd
        simp only at hd
        cases hd2 : drain schedule s2 with
        | none => rw [hd2] at hd; simp at hd
        | some p =>
          obtain ⟨recs, s3⟩ := p
          rw [hd2] at hd
          simp only [Option.some.injEq, Prod.mk.injEq] at hd
          obtain ⟨rfl, rfl⟩ := hd
          obtain ⟨rest1, hrest, hp3, hlen⟩ := ih rest s2 recs s3 hp2 hd2
          exact ⟨rest1, by rw [hrest]; rfl, hp3, by simp [hlen]⟩

/-- A session whose goroutine returns: for every interleaving the calls deliver
what `run` sends, in order, and every later call returns `io.EOF` in the
state `finished`. -/
theorem session_returns (w : World) (hw : Idle w) (hf : (run w.fs w.rr).fatal = false)
    (schedule : List (List Nat)) (hlen : schedule.length = (run w.fs w.rr).sent.length) :
    ∃ w1, drain schedule w = some ((run w.fs w.rr).sent, w1) ∧
      ∀ ahead, NextRecord ahead w1 = .ret (finished w) (.error Err.eof) := by
  obtain ⟨w1, hd, hp⟩ := drain_Pending w hw hf schedule _ w (Or.inl ⟨rfl, rfl⟩) hlen
  refine ⟨w1, hd, fun ahead => ?_⟩
  rw [NextRecord_Pending_nil w hw w1 ahead hp, hf]
  rfl

/-- A session whose goroutine ends in `log.Fatal`: whatever the interleaving,
no call returns `io.EOF`. -/
theorem session_never_ends (w : World) (hw : Idle w) (hf : (run w.fs w.rr).fatal = true)
    (schedule : List (List Nat)) (ahead : List Nat) (records : List Value) (w1 w2 : World)
    (hd : drain schedule w = some (records, w1)) :
    NextRecord ahead w1 ≠ .ret w2 (.error Err.eof) := by
  obtain ⟨rest1, -, hp, -⟩ := drain_Pending_prefix w hw schedule _ w records w1
    (Or.inl ⟨rfl, rfl⟩) hd
  cases rest1 with
  | nil =>
    rw [NextRecord_Pending_nil w hw w1 ahead hp, hf]
    simp
  | cons r rest =>
    rcases NextRecord_Pending_cons w hw r rest w1 ahead hp with ⟨he, -⟩ | ⟨s1, hs1, -⟩
    · rw [he]; simp
    · rw [hs1]; simp

/-- A session whose goroutine ends in `log.Fatal` before it sends a record: the
first call ends with the exit of the process, whatever the interleaving. -/
theorem session_exits (w : World) (hw : Idle w) (hf : (run w.fs w.rr).fatal = true)
    (hs : (run w.fs w.rr).sent = []) (ahead : List Nat) : NextRecord ahead w = .exit := by
  have hp : Pending w [] w := Or.inl ⟨rfl, hs.symm⟩
  rw [NextRecord_Pending_nil w hw w ahead hp, hf]
  rfl

/-- When the calls of a session have delivered records and the next call has
returned `io.EOF`, the goroutine has returned, the records are all that `run`
sends, and the state is `finished`. -/
theorem session_ended (w : World) (hw : Idle w) (schedule : List (List Nat)) (ahead : List Nat)
    (records : List Value) (w1 w2 : World) (hd : drain schedule w = some (records, w1))
    (hn : NextRecord ahead w1 = .ret w2 (.error Err.eof)) :
    (run w.fs w.rr).fatal = false ∧ records = (run w.fs w.rr).sent ∧ w2 = finished w := by
  obtain ⟨rest1, hrest, hp, -⟩ := drain_Pending_prefix w hw schedule _ w records w1
    (Or.inl ⟨rfl, rfl⟩) hd
  cases rest1 with
  | nil =>
    rw [NextRecord_Pending_nil w hw w1 ahead hp] at hn
    cases hf : (run w.fs w.rr).fatal with
    | true => rw [hf] at hn; simp at hn
    | false =>
      rw [hf] at hn
      simp only [Bool.false_eq_true, if_false, Outcome.ret.injEq] at hn
      exact ⟨rfl, by rw [hrest, List.append_nil], hn.1.symm⟩
  | cons r rest =>
    rcases NextRecord_Pending_cons w hw r rest w1 ahead hp with ⟨he, -⟩ | ⟨s1, hs1, -⟩
    · rw [he] at hn; simp at hn
    · rw [hs1] at hn; simp at hn

theorem Idle_Reset (w : World) (h : w.tasks = []) : Idle (Reset w) :=
  ⟨rfl, h, by simp [Reset, setChan, makeChan], by simp [Reset, setChan, makeChan],
    by simp [Reset, setChan, makeChan]⟩

theorem Idle_NewContentReader (fs : String → Option (List Lexeme)) (filePath arrayKey : String) :
    Idle (NewContentReader fs filePath arrayKey) :=
  ⟨rfl, rfl, rfl, rfl, by simp [NewContentReader, makeChan]⟩

theorem session_clean (w : World) (records : List Value) (hw : Idle w)
    (hr : run w.fs w.rr = { sent := records, errors := [], fatal := false, closed := true })
    (schedule : List (List Nat)) (hlen : schedule.length = records.length) :
    (∃ w1, drain schedule w = some (records, w1) ∧
      ∀ ahead, NextRecord ahead w1 = .ret (finished w) (.error Err.eof)) ∧
    (finished w).rr.errorsQueue = w.rr.errorsQueue := by
  obtain ⟨w1, hd, hn⟩ := session_returns w hw (by rw [hr]) schedule (by rw [hr]; exact hlen)
  rw [hr] at hd
  exact ⟨⟨w1, hd, hn⟩, by simp only [finished, afterRun, hr, addErrors]⟩

theorem session_document (w : World) (objects : List (List (String × Json)))
    (records : List Value) (hw : Idle w)
    (h : w.fs w.rr.filePath = some (document w.rr.arrayKey objects))
    (hu : unmarshalObjects objects = some records)
    (schedule : List (List Nat)) (hlen : schedule.length = objects.length) :
    (∃ w1, drain schedule w = some (records, w1) ∧
      ∀ ahead, NextRecord ahead w1 = .ret (finished w) (.error Err.eof)) ∧
    (finished w).rr.errorsQueue = w.rr.errorsQueue := by
  have hr : run w.fs w.rr = { sent := records, errors := [], fatal := false, closed := true } := by
    rw [run_document w.fs w.rr objects h]
    exact runObjects_of_unmarshalObjects objects records hu
  exact session_clean w records hw hr schedule
    (by rw [hlen, unmarshalObjects_length objects records hu])

/-! ## The wait of the consumer, the goroutines started and the buffer -/

theorem drive_stuck (fuel : Nat) (w : World) (ha : advance 0 w = .ret w ())
    (hb : (w.chans w.rr.dataChannel).buf = []) (hc : (w.chans w.rr.dataChannel).closed = false) :
    drive fuel w = .block := by
  induction fuel with
  | zero => rfl
  | succ f ih => simp only [drive, ha, hb, hc, Bool.false_eq_true, if_false, ih]

/-- The bound of `drive` is adequate: while the consumer waits on the empty
open channel, every bound from the number of live goroutines on gives the same
result. -/
theorem drive_fuel (fuel : Nat) :
    ∀ (fuel2 : Nat) (w : World), (w.chans w.rr.dataChannel).buf = [] →
      (w.chans w.rr.dataChannel).closed = false → w.tasks.length ≤ fuel →
      w.tasks.length ≤ fuel2 → drive fuel w = drive fuel2 w := by
  induction fuel with
  | zero =>
    intro fuel2 w hb hc h1 h2
    have ht : w.tasks = [] := List.length_eq_zero.mp (by omega)
    have ha : advance 0 w = .ret w () := by simp [advance, ht]
    rw [drive_stuck 0 w ha hb hc, drive_stuck fuel2 w ha hb hc]
  | succ f ih =>
    intro fuel2 w hb hc h1 h2
    cases fuel2 with
    | zero =>
      have ht : w.tasks = [] := List.length_eq_zero.mp (by omega)
      have ha : advance 0 w = .ret w () := by simp [advance, ht]
      rw [drive_stuck (f + 1) w ha hb hc, drive_stuck 0 w ha hb hc]
    | succ f2 =>
      cases ht : w.tasks with
      | nil =>
        have ha : advance 0 w = .ret w () := by simp [advance, ht]
        rw [drive_stuck (f + 1) w ha hb hc, drive_stuck (f2 + 1) w ha hb hc]
      | cons t ts =>
        rw [ht] at h1 h2
        simp only [List.length_cons] at h1 h2
        cases hs : t.todo.sent with
        | cons record more =>
          by_cases hcap : 0 < (w.chans w.rr.dataChannel).capacity
          · simp [drive, advance, ht, hs, hb, hc, hcap, setChan_same]
          · have ha : advance 0 w = .ret w () := by
              simp [advance, ht, hs, hb, hc, hcap]
            rw [drive_stuck (f + 1) w ha hb hc, drive_stuck (f2 + 1) w ha hb hc]
        | nil =>
          by_cases hf : t.todo.fatal = true
          · simp [drive, advance, ht, hs, hf]
          · by_cases hcl : t.todo.closed = true
            · by_cases hcc : (w.chans t.chan).closed = true
              · simp [drive, advance, ht, hs, hf, hcl, hcc]
              · by_cases hsame : t.chan = w.rr.dataChannel
                · simp [drive, advance, ht, hs, hf, hcl, hsame, setChan_same, hb, hc]
                · have hne : w.rr.dataChannel ≠ t.chan := fun h => hsame h.symm
                  simp only [drive, advance, ht, hs, hf, hcl, hcc, Bool.false_eq_true, if_false,
                    if_true, setChan_other _ _ _ _ hne, hb, hc, List.getElem?_cons_zero,
                    List.eraseIdx_cons_zero]
                  exact ih f2 _ (by simp only [setChan_other _ _ _ _ hne]; exact hb)
                    (by simp only [setChan_other _ _ _ _ hne]; exact hc)
                    (by simp only; omega) (by simp only; omega)
            · simp only [drive, advance, ht, hs, hf, hcl, Bool.false_eq_true, if_false, hb, hc,
                List.getElem?_cons_zero, List.eraseIdx_cons_zero]
              exact ih f2 _ hb hc (by simp only; omega) (by simp only; omega)

theorem advance_goroutines (i : Nat) (w w1 : World) (h : advance i w = .ret w1 ()) :
    goroutines w1 = goroutines w ∧ w1.rr.once = w.rr.once := by
  simp only [advance] at h
  cases ht : w.tasks[i]? with
  | none =>
    rw [ht] at h
    simp only [Outcome.ret.injEq, and_true] at h
    subst h
    exact ⟨rfl, rfl⟩
  | some t =>
    rw [ht] at h
    have hi : i < w.tasks.length := by
      by_contra hge
      rw [List.getElem?_eq_none (by omega)] at ht
      cases ht
    have hlen : (w.tasks.eraseIdx i).length + 1 = w.tasks.length := by
      rw [List.length_eraseIdx]
      simp only [hi, if_true]
      omega
    simp only at h
    split at h
    · split_ifs at h <;> simp only [Outcome.ret.injEq, and_true] at h <;> subst h
      · simp [goroutines]
      · exact ⟨rfl, rfl⟩
    · split_ifs at h <;> simp only [Outcome.ret.injEq, and_true] at h <;> subst h
      · simp only [goroutines]
        exact ⟨by omega, trivial⟩
      · simp only [goroutines]
        exact ⟨by omega, trivial⟩

theorem background_goroutines (ahead : List Nat) :
    ∀ (w w1 : World), background ahead w = .ret w1 () →
      goroutines w1 = goroutines w ∧ w1.rr.once = w.rr.once := by
  induction ahead with
  | nil =>
    intro w w1 h
    simp only [background, Outcome.ret.injEq, and_true] at h
    subst h
    exact ⟨rfl, rfl⟩
  | cons i ahead ih =>
    intro w w1 h
    simp only [background] at h
    split at h
    · next w2 u ha =>
      obtain ⟨h1, h2⟩ := advance_goroutines i w w2 ha
      obtain ⟨h3, h4⟩ := ih w2 w1 h
      exact ⟨h3.trans h1, h4.trans h2⟩
    · cases h
    · cases h
    · cases h

theorem drive_goroutines (fuel : Nat) :
    ∀ (w w1 : World) (a : Except Err Value), drive fuel w = .ret w1 a →
      goroutines w1 = goroutines w ∧ w1.rr.once = w.rr.once := by
  induction fuel with
  | zero => intro w w1 a h; cases h
  | succ f ih =>
    intro w w1 a h
    simp only [drive] at h
    split at h
    · next w2 u ha =>
      obtain ⟨h1, h2⟩ := advance_goroutines 0 w w2 ha
      split at h
      · simp only [Outcome.ret.injEq] at h
        rw [← h.1]
        exact ⟨h1, h2⟩
      · split_ifs at h
        · simp only [Outcome.ret.injEq] at h
          rw [← h.1]
          exact ⟨h1, h2⟩
        · obtain ⟨h3, h4⟩ := ih w2 w1 a h
          exact ⟨h3.trans h1, h4.trans h2⟩
    · cases h
    · cases h
    · cases h

theorem receive_goroutines (w w1 : World) (a : Except Err Value) (h : receive w = .ret w1 a) :
    goroutines w1 = goroutines w ∧ w1.rr.once = w.rr.once := by
  simp only [receive] at h
  split at h
  · simp only [Outcome.ret.injEq] at h
    rw [← h.1]
    exact ⟨rfl, rfl⟩
  · split_ifs at h
    · simp only [Outcome.ret.injEq] at h
      rw [← h.1]
      exact ⟨rfl, rfl⟩
    · exact drive_goroutines _ _ _ _ h

theorem startTask_goroutines (w : World) :
    goroutines (startTask w) = goroutines w + 1 ∧ (startTask w).rr.once = true := by
  simp only [goroutines, startTask, List.length_append, List.length_singleton]
  exact ⟨by omega, trivial⟩

theorem NextRecord_goroutines (ahead : List Nat) (w w1 : World) (a : Except Err Value)
    (h : NextRecord ahead w = .ret w1 a) :
    goroutines w1 = goroutines w + (if w.rr.once then 0 else 1) ∧ w1.rr.once = true := by
  simp only [NextRecord] at h
  split at h
  · next w2 u hb =>
    obtain ⟨h1, h2⟩ := background_goroutines ahead _ w2 hb
    obtain ⟨h3, h4⟩ := receive_goroutines w2 w1 a h
    cases ho : w.rr.once with
    | true =>
      rw [ho] at h1 h2
      simp only [if_true] at h1 h2
      exact ⟨by rw [h3, h1]; rfl, by rw [h4, h2, ho]⟩
    | false =>
      rw [ho] at h1 h2
      simp only [Bool.false_eq_true, if_false] at h1 h2
      obtain ⟨h5, h6⟩ := startTask_goroutines w
      exact ⟨by rw [h3, h1, h5]; rfl, by rw [h4, h2, h6]⟩
  · cases h
  · cases h
  · cases h

theorem calls_goroutines (schedule : List (List Nat)) :
    ∀ (w w1 : World), calls schedule w = some w1 →
      goroutines w1 = goroutines w + (if schedule ≠ [] ∧ w.rr.once = false then 1 else 0) := by
  induction schedule with
  | nil =>
    intro w w1 h
    simp only [calls, Option.some.injEq] at h
    subst h
    simp
  | cons a schedule ih =>
    intro w w1 h
    simp only [calls] at h
    split at h
    · next w2 r hn =>
      obtain ⟨h1, h2⟩ := NextRecord_goroutines a w w2 r hn
      have h3 := ih w2 w1 h
      rw [h2] at h3
      simp only [Bool.true_eq_false, and_false, if_false, Nat.add_zero] at h3
      rw [h3, h1]
      cases w.rr.once <;> simp
    · cases h

theorem act_goroutines (w w1 : World) (a : Action) (h : act w a = some w1) :
    goroutines w1 = goroutines w + (if w1.rr.once = true ∧ w.rr.once = false then 1 else 0) ∧
      (w.rr.once = true → w1.rr.once = true) ∧
      (a = Action.start → w1.rr.once = true) := by
  cases a with
  | start =>
    simp only [act, Option.some.injEq] at h
    subst h
    cases ho : w.rr.once with
    | true => simp [ho]
    | false =>
      obtain ⟨h5, h6⟩ := startTask_goroutines w
      simp [ho, h5, h6]
  | consume =>
    simp only [act] at h
    split at h <;> simp only [Option.some.injEq] at h <;> subst h
    · cases ho : w.rr.once <;> simp [goroutines, ho]
    · cases ho : w.rr.once <;> simp [ho]
  | produce i =>
    simp only [act] at h
    cases ha : advance i w with
    | ret w2 u =>
      rw [ha] at h
      simp only [Outcome.world, Option.some.injEq] at h
      subst h
      obtain ⟨h1, h2⟩ := advance_goroutines i w w2 ha
      rw [h1, h2]
      cases ho : w.rr.once <;> simp
    | exit => rw [ha] at h; cases h
    | panic => rw [ha] at h; cases h
    | block => rw [ha] at h; cases h

theorem exec_goroutines (schedule : List Action) :
    ∀ (w w1 : World), exec schedule w = some w1 →
      goroutines w1 = goroutines w + (if w1.rr.once = true ∧ w.rr.once = false then 1 else 0) ∧
        (w.rr.once = true → w1.rr.once = true) ∧
        (Action.start ∈ schedule → w1.rr.once = true) := by
  induction schedule with
  | nil =>
    intro w w1 h
    simp only [exec, Option.some.injEq] at h
    subst h
    cases ho : w.rr.once <;> simp
  | cons a schedule ih =>
    intro w w1 h
    simp only [exec] at h
    split at h
    · next w2 ha =>
      obtain ⟨h1, h2, h3⟩ := act_goroutines w w2 a ha
      obtain ⟨h4, h5, h6⟩ := ih w2 w1 h
      refine ⟨?_, fun ho => h5 (h2 ho), fun hm => ?_⟩
      · rw [h4, h1]
        cases ho : w.rr.once with
        | true =>
          have := h2 ho
          simp [this]
        | false =>
          cases ho2 : w2.rr.once with
          | true =>
            have := h5 ho2
            simp [this]
          | false => simp
      · rcases List.mem_cons.mp hm with hm | hm
        · exact h5 (h3 hm.symm)
        · exact h6 hm
    · cases h

theorem act_bounded (w w1 : World) (a : Action) (h : act w a = some w1)
    (h0 : (w.chans w.rr.dataChannel).buf.length ≤ (w.chans w.rr.dataChannel).capacity) :
    (w1.chans w1.rr.dataChannel).buf.length ≤ (w1.chans w1.rr.dataChannel).capacity ∧
    (w1.chans w1.rr.dataChannel).capacity = (w.chans w.rr.dataChannel).capacity := by
  cases a with
  | start =>
    simp only [act, Option.some.injEq] at h
    subst h
    split_ifs
    · exact ⟨h0, rfl⟩
    · exact ⟨h0, rfl⟩
  | consume =>
    simp only [act] at h
    split at h
    · next r more hb =>
      simp only [Option.some.injEq] at h
      subst h
      rw [hb] at h0
      simp only [List.length_cons] at h0
      refine ⟨?_, ?_⟩
      · simp only [setChan_same]; omega
      · simp only [setChan_same]
    · simp only [Option.some.injEq] at h
      subst h
      exact ⟨h0, rfl⟩
  | produce i =>
    simp only [act, advance] at h
    split at h
    · simp only [Outcome.world, Option.some.injEq] at h
      subst h
      exact ⟨h0, rfl⟩
    · next t ht =>
      split at h
      · split_ifs at h with hc hl
        · cases h
        · simp only [Outcome.world, Option.some.injEq] at h
          subst h
          refine ⟨?_, ?_⟩
          · simp only [setChan_same, List.length_append, List.length_singleton]; omega
          · simp only [setChan_same]
        · simp only [Outcome.world, Option.some.injEq] at h
          subst h
          exact ⟨h0, rfl⟩
      · split_ifs at h with hf hcl hcc
        · cases h
        · cases h
        · simp only [Outcome.world, Option.some.injEq] at h
          subst h
          by_cases hch : w.rr.dataChannel = t.chan
          · rw [hch] at h0
            refine ⟨?_, ?_⟩
            · simp only [hch, setChan_same]; exact h0
            · simp only [hch, setChan_same]
          · refine ⟨?_, ?_⟩
            · simp only [setChan_other _ _ _ _ hch]; exact h0
            · simp only [setChan_other _ _ _ _ hch]
        · simp only [Outcome.world, Option.some.injEq] at h
          subst h
          exact ⟨h0, rfl⟩

theorem exec_bounded (schedule : List Action) :
    ∀ (w w1 : World), exec schedule w = some w1 →
      (w.chans w.rr.dataChannel).buf.length ≤ (w.chans w.rr.dataChannel).capacity →
      (w1.chans w1.rr.dataChannel).buf.length ≤ (w1.chans w1.rr.dataChannel).capacity ∧
      (w1.chans w1.rr.dataChannel).capacity = (w.chans w.rr.dataChannel).capacity := by
  induction schedule with
  | nil =>
    intro w w1 h h0
    simp only [exec, Option.some.injEq] at h
    subst h
    exact ⟨h0, rfl⟩
  | cons a rest ih =>
    intro w w1 h h0
    simp only [exec] at h
    split at h
    · next w2 ha =>
      obtain ⟨hb, hc⟩ := act_bounded w w2 a ha h0
      obtain ⟨hb1, hc1⟩ := ih w2 w1 h hb
      exact ⟨hb1, hc1.trans hc⟩
    · simp at h

/-! ## The locator on an object with scalar members before the array key -/

theorem renderMembers_cons (k : String) (v : Json) (ms : List (String × Json)) :
    renderMembers ((k, v) :: ms) = .str k :: .colon :: (render v ++ renderMoreMembers ms) := by
  induction ms generalizing k v with
  | nil => simp [renderMembers, renderMoreMembers]
  | cons m ms ih =>
    obtain ⟨k2, v2⟩ := m
    simp [renderMembers, renderMoreMembers, ih k2 v2]

theorem renderMoreMembers_append (xs ys : List (String × Json)) :
    renderMoreMembers (xs ++ ys) = renderMoreMembers xs ++ renderMoreMembers ys := by
  induction xs with
  | nil => rfl
  | cons m ms ih =>
    obtain ⟨k, v⟩ := m
    simp [renderMoreMembers, ih]

theorem findDecoderTargetPosition_step (dec dec1 : Decoder) (target : String) (isArray : Bool)
    (t : Token) (hm : dec.More = true) (hT : dec.Token = (dec1, .ok t))
    (ht : t ≠ Token.str target) :
    findDecoderTargetPosition dec target isArray =
      findDecoderTargetPosition dec1 target isArray := by
  have hp := Token_progress dec dec1 t hT
  rw [← findDecoderTargetPosition_fuel dec1 target isArray dec.input.length hp]
  simp only [findDecoderTargetPosition, findLoop, hm, hT, ht, if_true, if_false]

theorem findDecoderTargetPosition_found (dec dec1 dec2 : Decoder) (target : String) (t : Token)
    (hm : dec.More = true) (hT : dec.Token = (dec1, .ok (Token.str target)))
    (hT2 : dec1.Token = (dec2, .ok t)) :
    findDecoderTargetPosition dec target true = (dec2, none) := by
  simp only [findDecoderTargetPosition, findLoop, hm, hT, hT2, if_true, CheckError]

theorem tokenLoop_scalar (v : Json) (hv : v.isScalar = true) (key : String)
    (hk : v ≠ Json.str key) (hu : unmarshal v ≠ none) (stack : List TokenState)
    (rest : List Lexeme) :
    ∃ t, tokenLoop .tokenObjectValue stack (render v ++ rest) =
        (⟨rest, .tokenObjectComma, stack⟩, .ok t) ∧ t ≠ Token.str key := by
  cases v with
  | null => exact ⟨.null, by simp [render, tokenLoop, tokenValueAllowed, tokenValueEnd], by simp⟩
  | bool b =>
    exact ⟨.bool b, by simp [render, tokenLoop, tokenValueAllowed, tokenValueEnd], by simp⟩
  | num n =>
    cases hf : float64 n with
    | none => simp [unmarshal, hf] at hu
    | some f =>
      exact ⟨.num f, by simp [render, tokenLoop, tokenValueAllowed, tokenValueEnd, hf], by simp⟩
  | str s =>
    refine ⟨.str s, by simp [render, tokenLoop, tokenValueAllowed, tokenValueEnd], ?_⟩
    intro h
    exact hk (by rw [Token.str.inj h])
  | arr xs => simp [Json.isScalar] at hv
  | obj ms => simp [Json.isScalar] at hv

/-- From the comma after a member on, the locator passes the scalar members that
precede the array key and stops behind the bracket that opens its array. -/
theorem findDecoderTargetPosition_members (key : String) (before : List (String × Json))
    (hb : ∀ m ∈ before,
      m.1 ≠ key ∧ m.2.isScalar = true ∧ m.2 ≠ Json.str key ∧ unmarshal m.2 ≠ none)
    (tail : List Lexeme) (stack : List TokenState) :
    findDecoderTargetPosition
        ⟨renderMoreMembers before ++ .comma :: .str key :: .colon :: .lbrack :: tail,
          .tokenObjectComma, stack⟩ key true =
      (⟨tail, .tokenArrayStart, .tokenObjectValue :: stack⟩, none) := by
  induction before with
  | nil =>
    exact findDecoderTargetPosition_found _ ⟨.colon :: .lbrack :: tail, .tokenObjectColon, stack⟩
      _ key (.delim .openArray) rfl (by simp [Decoder.Token, renderMoreMembers, tokenLoop])
      (by simp [Decoder.Token, tokenLoop, tokenValueAllowed])
  | cons m ms ih =>
    obtain ⟨k, v⟩ := m
    obtain ⟨hk, hv, hne, hu⟩ := hb (k, v) (List.mem_cons_self _ _)
    obtain ⟨t, ht, htne⟩ := tokenLoop_scalar v hv key hne hu stack
      (renderMoreMembers ms ++ .comma :: .str key :: .colon :: .lbrack :: tail)
    have h1 := findDecoderTargetPosition_step
      ⟨renderMoreMembers ((k, v) :: ms) ++ .comma :: .str key :: .colon :: .lbrack :: tail,
        .tokenObjectComma, stack⟩
      ⟨.colon :: (render v ++
          (renderMoreMembers ms ++ .comma :: .str key :: .colon :: .lbrack :: tail)),
        .tokenObjectColon, stack⟩ key true (.str k) rfl
      (by simp [Decoder.Token, renderMoreMembers, tokenLoop])
      (by intro h; exact hk (Token.str.inj h))
    have h2 := findDecoderTargetPosition_step
      ⟨.colon :: (render v ++
          (renderMoreMembers ms ++ .comma :: .str key :: .colon :: .lbrack :: tail)),
        .tokenObjectColon, stack⟩
      ⟨renderMoreMembers ms ++ .comma :: .str key :: .colon :: .lbrack :: tail,
        .tokenObjectComma, stack⟩ key true t rfl
      (by simp only [Decoder.Token, tokenLoop]; simpa using ht) htne
    rw [h1, h2]
    exact ih (fun m hm => hb m (List.mem_cons_of_mem _ hm))

theorem render_object_with_array (key : String) (before after : List (String × Json))
    (xs : List Json) :
    ∃ pre, render (.obj (before ++ (key, .arr xs) :: after)) =
        .lbrace :: (pre ++ .str key :: .colon :: .lbrack ::
          (renderElems xs ++ .rbrack :: (renderMoreMembers after ++ [.rbrace]))) ∧
      (before = [] → pre = []) ∧
      (∀ k v bs, before = (k, v) :: bs →
        pre = .str k :: .colon :: (render v ++ (renderMoreMembers bs ++ [.comma]))) := by
  cases before with
  | nil =>
    refine ⟨[], ?_, fun _ => rfl, fun k v bs h => by simp at h⟩
    simp [render, renderMembers_cons]
  | cons m bs =>
    obtain ⟨k, v⟩ := m
    refine ⟨.str k :: .colon :: (render v ++ (renderMoreMembers bs ++ [.comma])), ?_,
      fun h => by simp at h, fun k2 v2 bs2 h => ?_⟩
    · simp [render, renderMembers_cons, renderMoreMembers_append, renderMoreMembers]
    · simp only [List.cons.injEq, Prod.mk.injEq] at h
      obtain ⟨⟨rfl, rfl⟩, rfl⟩ := h
      rfl

theorem findDecoderTargetPosition_object (key : String) (before after : List (String × Json))
    (hb : ∀ m ∈ before,
      m.1 ≠ key ∧ m.2.isScalar = true ∧ m.2 ≠ Json.str key ∧ unmarshal m.2 ≠ none)
    (xs : List Json) :
    findDecoderTargetPosition
        (NewDecoder (render (.obj (before ++ (key, .arr xs) :: after)))) key true =
      (⟨renderElems xs ++ .rbrack :: (renderMoreMembers after ++ [.rbrace]), .tokenArrayStart,
          [.tokenObjectValue, .tokenTopValue]⟩, none) := by
  obtain ⟨pre, hdoc, hnil, hcons⟩ := render_object_with_array key before after xs
  rw [hdoc]
  have h0 := findDecoderTargetPosition_step
    (NewDecoder (.lbrace :: (pre ++ .str key :: .colon :: .lbrack ::
      (renderElems xs ++ .rbrack :: (renderMoreMembers after ++ [.rbrace])))))
    ⟨pre ++ .str key :: .colon :: .lbrack ::
      (renderElems xs ++ .rbrack :: (renderMoreMembers after ++ [.rbrace])),
      .tokenObjectStart, [.tokenTopValue]⟩ key true (.delim .openObject) rfl
    (by simp [Decoder.Token, NewDecoder, tokenLoop, tokenValueAllowed]) (by simp)
  rw [h0]
  cases before with
  | nil =>
    rw [hnil rfl]
    exact findDecoderTargetPosition_found _
      ⟨.colon :: .lbrack :: (renderElems xs ++ .rbrack :: (renderMoreMembers after ++ [.rbrace])),
        .tokenObjectColon, [.tokenTopValue]⟩ _ key (.delim .openArray) rfl
      (by simp [Decoder.Token, tokenLoop])
      (by simp [Decoder.Token, tokenLoop, tokenValueAllowed])
  | cons m bs =>
    obtain ⟨k, v⟩ := m
    rw [hcons k v bs rfl]
    obtain ⟨hk, hv, hne, hu⟩ := hb (k, v) (List.mem_cons_self _ _)
    obtain ⟨t, ht, htne⟩ := tokenLoop_scalar v hv key hne hu [.tokenTopValue]
      (renderMoreMembers bs ++ .comma :: .str key :: .colon :: .lbrack ::
        (renderElems xs ++ .rbrack :: (renderMoreMembers after ++ [.rbrace])))
    have h1 := findDecoderTargetPosition_step
      ⟨(Lexeme.str k :: Lexeme.colon :: (render v ++ (renderMoreMembers bs ++ [Lexeme.comma]))) ++
          Lexeme.str key :: Lexeme.colon :: Lexeme.lbrack ::
            (renderElems xs ++ Lexeme.rbrack :: (renderMoreMembers after ++ [Lexeme.rbrace])),
        .tokenObjectStart, [.tokenTopValue]⟩
      ⟨.colon :: (render v ++ (renderMoreMembers bs ++ .comma :: .str key :: .colon :: .lbrack ::
          (renderElems xs ++ .rbrack :: (renderMoreMembers after ++ [.rbrace])))),
        .tokenObjectColon, [.tokenTopValue]⟩ key true (.str k) rfl
      (by simp [Decoder.Token, tokenLoop])
      (by intro h; exact hk (Token.str.inj h))
    have h2 := findDecoderTargetPosition_step
      ⟨.colon :: (render v ++ (renderMoreMembers bs ++ .comma :: .str key :: .colon :: .lbrack ::
          (renderElems xs ++ .rbrack :: (renderMoreMembers after ++ [.rbrace])))),
        .tokenObjectColon, [.tokenTopValue]⟩
      ⟨renderMoreMembers bs ++ .comma :: .str key :: .colon :: .lbrack ::
          (renderElems xs ++ .rbrack :: (renderMoreMembers after ++ [.rbrace])),
        .tokenObjectComma, [.tokenTopValue]⟩ key true t rfl
      (by simp only [Decoder.Token, tokenLoop]; simpa using ht) htne
    rw [h1, h2]
    exact findDecoderTargetPosition_members key bs
      (fun m hm => hb m (List.mem_cons_of_mem _ hm)) _ _

theorem run_object (fs : String → Option (List Lexeme)) (rr : ContentReader)
    (before after : List (String × Json)) (objects : List (List (String × Json)))
    (hb : ∀ m ∈ before, m.1 ≠ rr.arrayKey ∧ m.2.isScalar = true ∧
      m.2 ≠ Json.str rr.arrayKey ∧ unmarshal m.2 ≠ none)
    (h : fs rr.filePath =
      some (render (.obj (before ++ (rr.arrayKey, .arr (objects.map Json.obj)) :: after)))) :
    run fs rr = runObjects objects := by
  simp only [run, h, findDecoderTargetPosition_object rr.arrayKey before after hb]
  exact runLoop_array objects _ _ _ (by
    have := renderElems_length (objects.map Json.obj)
    simp only [List.length_map, List.length_append, List.length_cons] at this ⊢
    omega)


theorem More_of_Token (dec dec1 : Decoder) (t : Token) (h : dec.Token = (dec1, .ok t))
    (h1 : t ≠ Token.delim .closeArray) (h2 : t ≠ Token.delim .closeObject) :
    dec.More = true := by
  obtain ⟨input, st, stack⟩ := dec
  cases input with
  | nil => simp [Decoder.Token, tokenLoop] at h
  | cons l rest =>
    cases l <;> simp only [Decoder.More] <;> simp only [Decoder.Token, tokenLoop] at h <;>
      split_ifs at h <;> simp_all

theorem findDecoderTargetPosition_readTokens (target : String) (i : Nat) :
    ∀ (dec dec1 : Decoder) (ts : List Token),
      readTokens (i + 2) dec = some (ts, dec1) →
      ts[i]? = some (Token.str target) →
      (∀ j, j < i → ts[j]? ≠ some (Token.str target)) →
      (∀ j, j < i → ts[j]? ≠ some (Token.delim .closeArray) ∧
        ts[j]? ≠ some (Token.delim .closeObject)) →
      findDecoderTargetPosition dec target true = (dec1, none) := by
  induction i with
  | zero =>
    intro dec dec1 ts h hkey _ _
    simp only [readTokens] at h
    rcases hT : dec.Token with ⟨d1, r⟩
    rw [hT] at h
    cases r with
    | error e => simp at h
    | ok t0 =>
      simp only at h
      rcases hT1 : d1.Token with ⟨d2, r1⟩
      rw [hT1] at h
      cases r1 with
      | error e => simp at h
      | ok t1 =>
        simp only [Option.some.injEq, Prod.mk.injEq] at h
        obtain ⟨rfl, rfl⟩ := h
        simp only [List.getElem?_cons_zero, Option.some.injEq] at hkey
        subst hkey
        exact findDecoderTargetPosition_found dec d1 d2 target t1
          (More_of_Token dec d1 _ hT (by simp) (by simp)) hT hT1
  | succ i ih =>
    intro dec dec1 ts h hkey hfirst hflat
    rw [readTokens] at h
    rcases hT : dec.Token with ⟨d1, r⟩
    rw [hT] at h
    cases r with
    | error e => simp at h
    | ok t0 =>
      simp only at h
      rcases hR : readTokens (i + 2) d1 with _ | ⟨ts1, d2⟩
      · rw [hR] at h; simp at h
      · rw [hR] at h
        simp only [Option.some.injEq, Prod.mk.injEq] at h
        obtain ⟨rfl, rfl⟩ := h
        have h0 := hfirst 0 (Nat.succ_pos i)
        have h1 := hflat 0 (Nat.succ_pos i)
        simp only [List.getElem?_cons_zero, ne_eq, Option.some.injEq] at h0 h1
        rw [findDecoderTargetPosition_step dec d1 target true t0
          (More_of_Token dec d1 t0 hT h1.1 h1.2) hT h0]
        refine ih d1 d2 ts1 hR ?_ ?_ ?_
        · simpa using hkey
        · intro j hj
          have := hfirst (j + 1) (by omega)
          simpa using this
        · intro j hj
          have := hflat (j + 1) (by omega)
          simpa using this

/-! ## Sessions that end at once, and readers without a goroutine -/

theorem session_empty (w : World) (hw : Idle w) (hf : (run w.fs w.rr).fatal = false)
    (hs : (run w.fs w.rr).sent = []) (ahead : List Nat) :
    NextRecord ahead w = .ret (finished w) (.error Err.eof) := by
  have hp : Pending w [] w := Or.inl ⟨rfl, hs.symm⟩
  rw [NextRecord_Pending_nil w hw w ahead hp, hf]
  rfl

theorem session_first (w : World) (hw : Idle w) (hf : (run w.fs w.rr).fatal = false)
    (r : Value) (rest : List Value) (hs : (run w.fs w.rr).sent = r :: rest) (ahead : List Nat) :
    ∃ w1, NextRecord ahead w = .ret w1 (.ok r) := by
  have hp : Pending w (r :: rest) w := Or.inl ⟨rfl, hs.symm⟩
  rcases NextRecord_Pending_cons w hw r rest w ahead hp with ⟨-, hfa⟩ | ⟨w1, h1, -⟩
  · rw [hf] at hfa; cases hfa
  · exact ⟨w1, h1⟩

theorem background_no_task (ahead : List Nat) (w : World) (ht : w.tasks = []) :
    background ahead w = .ret w () := by
  induction ahead with
  | nil => rfl
  | cons i ahead ih => simp [background, advance, ht, ih]

theorem NextRecord_no_task (ahead : List Nat) (w : World) (ho : w.rr.once = true)
    (ht : w.tasks = []) (hb : (w.chans w.rr.dataChannel).buf = [])
    (hc : (w.chans w.rr.dataChannel).closed = false) : NextRecord ahead w = .block := by
  rw [NextRecord_fired_ret ahead w w ho (background_no_task ahead w ht)]
  simp only [receive, hb, hc, ht, List.length_nil, drive, Bool.false_eq_true, if_false]

theorem NewContentReader_exits (fs : String → Option (List Lexeme)) (filePath key : String)
    (errors : List Err) (closed : Bool)
    (hr : run fs (NewContentReader fs filePath key).rr =
      { sent := [], errors := errors, fatal := true, closed := closed })
    (ahead : List Nat) : NextRecord ahead (NewContentReader fs filePath key) = .exit :=
  session_exits _ (Idle_NewContentReader fs filePath key)
    (by show (run fs _).fatal = true; rw [hr]) (by show (run fs _).sent = []; rw [hr]) ahead

theorem NewContentReader_empty (fs : String → Option (List Lexeme)) (filePath key : String)
    (errors : List Err)
    (hr : run fs (NewContentReader fs filePath key).rr =
      { sent := [], errors := errors, fatal := false, closed := true })
    (ahead : List Nat) :
    NextRecord ahead (NewContentReader fs filePath key) =
      .ret (finished (NewContentReader fs filePath key)) (.error Err.eof) :=
  session_empty _ (Idle_NewContentReader fs filePath key)
    (by show (run fs _).fatal = false; rw [hr]) (by show (run fs _).sent = []; rw [hr]) ahead

/-! ## The claims -/

/-- C2: on the file `{"other":[]}` with array key `results` the locator ends
without an error although the key never appears, so the first `NextRecord`
returns `io.EOF`, whatever the interleaving, and `GetError` returns no error:
the key is not reported as not found. -/
theorem absent_key_is_not_reported :
    (findDecoderTargetPosition (NewDecoder otherDoc) "results" true).2 = none ∧
    ∀ ahead, ∃ w1, NextRecord ahead (NewContentReader (oneFile "f" otherDoc) "f" "results") =
        Outcome.ret w1 (.error Err.eof) ∧ (GetError w1).2 = none :=
  ⟨rfl, fun ahead =>
    ⟨_, NewContentReader_empty (oneFile "f" otherDoc) "f" "results" [] rfl ahead, rfl⟩⟩

/-- C3: on the file `{"results":[]}` with array key `results`, `IsEmpty`
returns false without an error, as it does on `{"results":[{"a":1}]}`. -/
theorem IsEmpty_false_on_empty_array :
    (IsEmpty (NewContentReader (oneFile "f" (document "results" [])) "f" "results")).value =
      some (.ok false) ∧
    (IsEmpty (NewContentReader (oneFile "f" (document "results" [[("a", .num 1)]])) "f"
      "results")).value = some (.ok false) :=
  ⟨rfl, rfl⟩

/-- C4: on the files `{"a":{"b":1},"results":[{"x":1}]}` and
`{"a":[1],"results":[{"x":1}]}` the reader with array key `results` sends no
record: the first `NextRecord` returns `io.EOF`, whatever the interleaving, and
`GetError` returns no error, although the array holds the object `{"x":1}`.  On
the file `{"name":"results","results":[{"a":1}]}` the first `NextRecord` ends
with the exit of the process. -/
theorem other_key_before_hides_array :
    run (oneFile "f" nestedBeforeDoc)
        (NewContentReader (oneFile "f" nestedBeforeDoc) "f" "results").rr =
      { sent := [], errors := [], fatal := false, closed := true } ∧
    (∀ ahead, ∃ w1, NextRecord ahead (NewContentReader (oneFile "f" nestedBeforeDoc) "f"
        "results") = Outcome.ret w1 (.error Err.eof) ∧ (GetError w1).2 = none) ∧
    (∀ ahead, ∃ w1, NextRecord ahead (NewContentReader (oneFile "f" arrayBeforeDoc) "f"
        "results") = Outcome.ret w1 (.error Err.eof) ∧ (GetError w1).2 = none) ∧
    ∀ ahead, NextRecord ahead (NewContentReader (oneFile "f" keyAsValueDoc) "f" "results") =
      Outcome.exit :=
  ⟨rfl,
    fun ahead =>
      ⟨_, NewContentReader_empty (oneFile "f" nestedBeforeDoc) "f" "results" [] rfl ahead, rfl⟩,
    fun ahead =>
      ⟨_, NewContentReader_empty (oneFile "f" arrayBeforeDoc) "f" "results" [] rfl ahead, rfl⟩,
    fun ahead =>
      NewContentReader_exits (oneFile "f" keyAsValueDoc) "f" "results" [] false rfl ahead⟩

/-- For every document whose top-level object maps the array key to an array of
objects `o1,...,on` with numbers within the range of `float64`, the reader
yields the maps of `o1,...,on` and then `io.EOF`, without an error, under every
interleaving, whatever members follow the array key, and whatever members
precede it provided each of them has a key other than the array key and a
scalar value that decodes and is not the string of the array key. -/
theorem other_keys_are_ignored (fs : String → Option (List Lexeme)) (filePath key : String)
    (before after : List (String × Json)) (objects : List (List (String × Json)))
    (records : List Value) (schedule : List (List Nat)) (ahead : List Nat)
    (hb : ∀ m ∈ before,
      m.1 ≠ key ∧ m.2.isScalar = true ∧ m.2 ≠ Json.str key ∧ unmarshal m.2 ≠ none)
    (h : fs filePath =
      some (render (.obj (before ++ (key, .arr (objects.map Json.obj)) :: after))))
    (hu : unmarshalObjects objects = some records) (hlen : schedule.length = objects.length) :
    ∃ w1 w2, drain schedule (NewContentReader fs filePath key) = some (records, w1) ∧
      NextRecord ahead w1 = Outcome.ret w2 (.error Err.eof) ∧ (GetError w2).2 = none := by
  have hr : run fs (NewContentReader fs filePath key).rr =
      { sent := records, errors := [], fatal := false, closed := true } := by
    rw [run_object fs (NewContentReader fs filePath key).rr before after objects hb h]
    exact runObjects_of_unmarshalObjects objects records hu
  obtain ⟨⟨w1, hd, hn⟩, he⟩ := session_clean (NewContentReader fs filePath key)
    records (Idle_NewContentReader fs filePath key) hr schedule
    (by rw [hlen, unmarshalObjects_length objects records hu])
  refine ⟨w1, _, hd, hn ahead, ?_⟩
  simp only [GetError, he]
  rfl

/-- The file
`{"total":2,"name":"x","results":[{"a":1},{"a":2},{"a":3}],"range":{"z":[1]}}`
is streamed to the end. -/
theorem other_keys_are_ignored_witness :
    ∃ w1 w2, drain [[0, 0], [], []]
        (NewContentReader (oneFile "f" (render (.obj (scalarsBefore ++
          ("results", .arr (threeObjects.map Json.obj)) :: nestedAfter)))) "f" "results") =
        some (threeRecords, w1) ∧
      NextRecord [] w1 = Outcome.ret w2 (.error Err.eof) ∧ (GetError w2).2 = none :=
  other_keys_are_ignored _ "f" "results" scalarsBefore nestedAfter threeObjects threeRecords
    [[0, 0], [], []] [] (by simp [scalarsBefore, Json.isScalar, unmarshal, float64]) rfl rfl rfl

/-- C5: when the file cannot be opened, when the locator fails on
`{"results"}`, and when the element of `{"results":[1]}` fails to decode, the
first `NextRecord` ends with the exit of the process in `log.Fatal`, whatever the
interleaving; it does not return `io.EOF` with the failure left in the errors
queue. -/
theorem failing_session_exits_process :
    (∀ ahead, NextRecord ahead (NewContentReader noFiles "f" "results") = Outcome.exit) ∧
    (∀ ahead, NextRecord ahead (NewContentReader (oneFile "f" keyOnlyDoc) "f" "results") =
      Outcome.exit) ∧
    (∀ ahead, NextRecord ahead (NewContentReader (oneFile "f" numberElementDoc) "f" "results") =
      Outcome.exit) ∧
    ¬ ∃ ahead w1, NextRecord ahead (NewContentReader noFiles "f" "results") =
        Outcome.ret w1 (.error Err.eof) ∧ (GetError w1).2 ≠ none := by
  have h1 : ∀ ahead, NextRecord ahead (NewContentReader noFiles "f" "results") = Outcome.exit :=
    fun ahead => NewContentReader_exits noFiles "f" "results" [] false rfl ahead
  refine ⟨h1,
    fun ahead =>
      NewContentReader_exits (oneFile "f" keyOnlyDoc) "f" "results" [Err.malformed] false rfl ahead,
    fun ahead =>
      NewContentReader_exits (oneFile "f" numberElementDoc) "f" "results" [] false rfl ahead, ?_⟩
  rintro ⟨ahead, w1, h, -⟩
  rw [h1 ahead] at h
  cases h

/-- In a session whose goroutine fails, the failure is recorded and `run`
returns only when the locator returns `io.EOF`: then "results not found" is
added to the errors queue, `NextRecord` returns `io.EOF`, and `GetError` reports
the failure when the queue was empty.  When the file cannot be opened and when
the locator returns any other error, the first call ends with the exit of the
process; and whenever `run` ends in `log.Fatal` (as it does on an element that
fails to decode), no call returns `io.EOF`, whatever the interleaving. -/
theorem run_failure_exits_or_reports_not_found (w : World) (hw : Idle w) :
    (w.fs w.rr.filePath = none → ∀ ahead, NextRecord ahead w = Outcome.exit) ∧
    (∀ content e, w.fs w.rr.filePath = some content →
      (findDecoderTargetPosition (NewDecoder content) w.rr.arrayKey true).2 = some e →
      (e = Err.eof →
        ∀ ahead, ∃ w1, NextRecord ahead w = Outcome.ret w1 (.error Err.eof) ∧
          w1.rr.errorsQueue = w.rr.errorsQueue.AddError Err.resultsNotFound ∧
          (w.rr.errorsQueue.errs = [] → 0 < w.rr.errorsQueue.capacity →
            (GetError w1).2 = some Err.resultsNotFound)) ∧
      (e ≠ Err.eof → ∀ ahead, NextRecord ahead w = Outcome.exit)) ∧
    ((run w.fs w.rr).fatal = true →
      ∀ schedule ahead records w1 w2, drain schedule w = some (records, w1) →
        NextRecord ahead w1 ≠ Outcome.ret w2 (.error Err.eof)) := by
  refine ⟨fun hnone ahead => ?_, fun content e hsome hfind => ⟨fun he ahead => ?_,
    fun he ahead => ?_⟩, fun hf schedule ahead records w1 w2 hd =>
      session_never_ends w hw hf schedule ahead records w1 w2 hd⟩
  · have hr : run w.fs w.rr = { sent := [], errors := [], fatal := true, closed := false } := by
      simp only [run, hnone]
    exact session_exits w hw (by rw [hr]) (by rw [hr]) ahead
  · have hr : run w.fs w.rr =
        { sent := [], errors := [Err.resultsNotFound], fatal := false, closed := true } := by
      rcases hF : findDecoderTargetPosition (NewDecoder content) w.rr.arrayKey true with ⟨d, oe⟩
      rw [hF] at hfind
      simp only at hfind
      subst hfind; subst he
      simp only [run, hsome, hF, if_true]
    refine ⟨_, session_empty w hw (by rw [hr]) (by rw [hr]) ahead,
      by simp only [finished, afterRun, hr, addErrors], fun hempty hcap => ?_⟩
    simp [GetError, finished, afterRun, hr, addErrors, ErrorsQueue.AddError,
      ErrorsQueue.GetError, hempty, hcap]
  · have hr : run w.fs w.rr = { sent := [], errors := [e], fatal := true, closed := false } := by
      rcases hF : findDecoderTargetPosition (NewDecoder content) w.rr.arrayKey true with ⟨d, oe⟩
      rw [hF] at hfind
      simp only at hfind
      subst hfind
      simp only [run, hsome, hF, he, if_false]
    exact session_exits w hw (by rw [hr]) (by rw [hr]) ahead

/-- On the file `"results"` the locator returns `io.EOF`: the first call
returns `io.EOF` and "results not found" is in the errors queue. -/
theorem run_failure_exits_or_reports_not_found_witness :
    Idle (NewContentReader (oneFile "f" keyStringDoc) "f" "results") ∧
    ∃ w1, NextRecord [0, 0, 0] (NewContentReader (oneFile "f" keyStringDoc) "f" "results") =
        Outcome.ret w1 (.error Err.eof) ∧
      w1.rr.errorsQueue = (NewErrorsQueue 50000).AddError Err.resultsNotFound ∧
      ((NewErrorsQueue 50000).errs = [] → 0 < (NewErrorsQueue 50000).capacity →
        (GetError w1).2 = some Err.resultsNotFound) :=
  ⟨Idle_NewContentReader _ _ _,
    ((run_failure_exits_or_reports_not_found
      (NewContentReader (oneFile "f" keyStringDoc) "f" "results")
      (Idle_NewContentReader _ _ _)).2.1 keyStringDoc Err.eof rfl rfl).1 rfl [0, 0, 0]⟩

/-- C6: when the file cannot be opened, when the locator fails on `{"results"}`,
and when the element of `{"results":[1]}` fails to decode, `run` ends in
`log.Fatal` and does not close the data channel: the one operation of the
goroutine is the exit of the process, and no `NextRecord` returns `io.EOF`,
whatever the interleaving. -/
theorem failing_run_leaves_queue_open :
    (run noFiles (NewContentReader noFiles "f" "results").rr).closed = false ∧
    (run (oneFile "f" keyOnlyDoc)
      (NewContentReader (oneFile "f" keyOnlyDoc) "f" "results").rr).closed = false ∧
    (run (oneFile "f" numberElementDoc)
      (NewContentReader (oneFile "f" numberElementDoc) "f" "results").rr).closed = false ∧
    advance 0 (startTask (NewContentReader noFiles "f" "results")) = Outcome.exit ∧
    advance 0 (startTask (NewContentReader (oneFile "f" keyOnlyDoc) "f" "results")) =
      Outcome.exit ∧
    advance 0 (startTask (NewContentReader (oneFile "f" numberElementDoc) "f" "results")) =
      Outcome.exit ∧
    (∀ ahead w1, NextRecord ahead (NewContentReader noFiles "f" "results") ≠
      Outcome.ret w1 (.error Err.eof)) ∧
    (∀ ahead w1, NextRecord ahead (NewContentReader (oneFile "f" keyOnlyDoc) "f" "results") ≠
      Outcome.ret w1 (.error Err.eof)) ∧
    (∀ ahead w1, NextRecord ahead
      (NewContentReader (oneFile "f" numberElementDoc) "f" "results") ≠
        Outcome.ret w1 (.error Err.eof)) := by
  refine ⟨rfl, rfl, rfl, rfl, rfl, rfl, fun ahead w1 h => ?_, fun ahead w1 h => ?_,
    fun ahead w1 h => ?_⟩
  · rw [NewContentReader_exits noFiles "f" "results" [] false rfl ahead] at h
    cases h
  · rw [NewContentReader_exits (oneFile "f" keyOnlyDoc) "f" "results" [Err.malformed] false rfl
      ahead] at h
    cases h
  · rw [NewContentReader_exits (oneFile "f" numberElementDoc) "f" "results" [] false rfl
      ahead] at h
    cases h

/-- The data channel is closed exactly on the paths on which `run` returns (the
array is exhausted, or the locator returned `io.EOF` and "results not found" was
recorded); the calls of `NextRecord` then receive the records sent and observe
`io.EOF` on the closed channel, under every interleaving.  On the paths that end
in `log.Fatal` the channel is not closed. -/
theorem run_closes_queue_iff_it_returns (w : World) (hw : Idle w) :
    ((run w.fs w.rr).fatal = true → (run w.fs w.rr).closed = false) ∧
    ((run w.fs w.rr).fatal = false →
      (run w.fs w.rr).closed = true ∧
      ∀ schedule ahead, schedule.length = (run w.fs w.rr).sent.length →
        ∃ w1 w2, drain schedule w = some ((run w.fs w.rr).sent, w1) ∧
          NextRecord ahead w1 = Outcome.ret w2 (.error Err.eof) ∧
          (w2.chans w2.rr.dataChannel).closed = true) := by
  have hc := run_closed w.fs w.rr
  refine ⟨fun hf => by rw [hc, hf]; rfl, fun hf => ?_⟩
  have hcl : (run w.fs w.rr).closed = true := by rw [hc, hf]; rfl
  refine ⟨hcl, fun schedule ahead hlen => ?_⟩
  obtain ⟨w1, hd, hn⟩ := session_returns w hw hf schedule hlen
  exact ⟨w1, _, hd, hn ahead, by simp [finished, afterRun, setChan]⟩

/-- On the file `{"results":[{"a":1},{"a":2},{"a":3}]}` the goroutine returns and
closes the data channel. -/
theorem run_closes_queue_iff_it_returns_witness :
    Idle (NewContentReader (oneFile "f" (document "results" threeObjects)) "f" "results") ∧
    (run (oneFile "f" (document "results" threeObjects))
      (NewContentReader (oneFile "f" (document "results" threeObjects)) "f" "results").rr).closed
      = true :=
  ⟨Idle_NewContentReader _ _ _,
    ((run_closes_queue_iff_it_returns
      (NewContentReader (oneFile "f" (document "results" threeObjects)) "f" "results")
      (Idle_NewContentReader _ _ _)).2 rfl).1⟩

/-- C7: for every file `{KEY:[o1,...,on]}` that is left unchanged and every
reader with array key `KEY` between sessions, under every interleaving: when
the reader has received records and then `io.EOF`, the records are the maps of
`o1,...,on`, and `Reset` followed by `n` calls of `NextRecord` gives again
exactly these records, in the same order, and then `io.EOF`; and when the
numbers of the objects are within the range of `float64`, the first session
does deliver the maps of `o1,...,on` and then `io.EOF`, and so does the session
after `Reset`. -/
theorem Reset_replays_records (w : World) (objects : List (List (String × Json)))
    (records : List Value) (schedule schedule2 : List (List Nat)) (ahead ahead2 : List Nat)
    (hw : Idle w) (h : w.fs w.rr.filePath = some (document w.rr.arrayKey objects))
    (hlen2 : schedule2.length = objects.length) :
    (∀ w1 w2, drain schedule w = some (records, w1) →
      NextRecord ahead w1 = Outcome.ret w2 (.error Err.eof) →
      unmarshalObjects objects = some records ∧
      ∃ w3 w4, drain schedule2 (Reset w2) = some (records, w3) ∧
        NextRecord ahead2 w3 = Outcome.ret w4 (.error Err.eof)) ∧
    (unmarshalObjects objects = some records → schedule.length = objects.length →
      ∃ w1 w2 w3 w4, drain schedule w = some (records, w1) ∧
        NextRecord ahead w1 = Outcome.ret w2 (.error Err.eof) ∧
        drain schedule2 (Reset w2) = some (records, w3) ∧
        NextRecord ahead2 w3 = Outcome.ret w4 (.error Err.eof)) := by
  have hrun := run_document w.fs w.rr objects h
  have hrun2 : run (Reset (finished w)).fs (Reset (finished w)).rr = run w.fs w.rr :=
    run_congr w.fs w.rr _ rfl rfl
  have hreplay : (run w.fs w.rr).fatal = false → records = (run w.fs w.rr).sent →
      unmarshalObjects objects = some records →
      ∃ w3 w4, drain schedule2 (Reset (finished w)) = some (records, w3) ∧
        NextRecord ahead2 w3 = Outcome.ret w4 (.error Err.eof) := by
    intro hf hrec hu
    obtain ⟨w3, hd3, hn3⟩ := session_returns (Reset (finished w)) (Idle_Reset (finished w) rfl)
      (by rw [hrun2]; exact hf) schedule2
      (by rw [hrun2, ← hrec, hlen2, unmarshalObjects_length objects records hu])
    rw [hrun2, ← hrec] at hd3
    exact ⟨w3, _, hd3, hn3 ahead2⟩
  refine ⟨fun w1 w2 hd hn => ?_, fun hu hlen => ?_⟩
  · obtain ⟨hf, hrec, hw2⟩ := session_ended w hw schedule ahead records w1 w2 hd hn
    have hu : unmarshalObjects objects = some records := by
      cases hu : unmarshalObjects objects with
      | none =>
        have := runObjects_fatal objects hu
        rw [← hrun, hf] at this
        cases this
      | some rs =>
        rw [hrec, hrun, runObjects_of_unmarshalObjects objects rs hu]
    subst hw2
    exact ⟨hu, hreplay hf hrec hu⟩
  · have hr := runObjects_of_unmarshalObjects objects records hu
    rw [← hrun] at hr
    obtain ⟨⟨w1, hd, hn⟩, -⟩ := session_document w objects records hw h hu schedule hlen
    obtain ⟨w3, w4, hd3, hn3⟩ := hreplay (by rw [hr]) (by rw [hr]) hu
    exact ⟨w1, _, w3, w4, hd, hn ahead, hd3, hn3⟩

/-- Witness of C7: the file `{"results":[{"a":1},{"a":2},{"a":3}]}`, with the
goroutine running ahead of the caller in the first session and behind it in the
second. -/
theorem Reset_replays_records_witness :
    Idle (NewContentReader (oneFile "f" (document "results" threeObjects)) "f" "results") ∧
    unmarshalObjects threeObjects = some threeRecords ∧
    ∃ w1 w2 w3 w4, drain [[0, 0, 0, 0], [], []]
        (NewContentReader (oneFile "f" (document "results" threeObjects)) "f" "results") =
        some (threeRecords, w1) ∧
      NextRecord [] w1 = Outcome.ret w2 (.error Err.eof) ∧
      drain [[], [], []] (Reset w2) = some (threeRecords, w3) ∧
      NextRecord [] w3 = Outcome.ret w4 (.error Err.eof) :=
  ⟨Idle_NewContentReader _ _ _, rfl,
    (Reset_replays_records
      (NewContentReader (oneFile "f" (document "results" threeObjects)) "f" "results")
      threeObjects threeRecords [[0, 0, 0, 0], [], []] [[], [], []] [] []
      (Idle_NewContentReader _ _ _) rfl
      rfl).2 rfl rfl⟩

/-- C8: after a session on the file `f` has ended, `SetFilePath` installs a new
channel but leaves the fired start guard in place, whereas `Reset` installs a
new one: the next `NextRecord` starts no goroutine and waits forever on the new
channel instead of streaming the array of the file `g`, whatever the
interleaving. -/
theorem SetFilePath_keeps_fired_start_guard :
    ∃ w1, (∀ ahead, NextRecord ahead (NewContentReader twoFiles "f" "results") =
        Outcome.ret w1 (.error Err.eof)) ∧
      (SetFilePath w1 "g").rr.once = true ∧ (SetFilePath w1 "g").tasks = [] ∧
      (Reset w1).rr.once = false ∧
      ∀ ahead, NextRecord ahead (SetFilePath w1 "g") = Outcome.block :=
  ⟨finished (NewContentReader twoFiles "f" "results"),
    fun ahead => NewContentReader_empty twoFiles "f" "results" [] rfl ahead, rfl, rfl, rfl,
    fun ahead => NextRecord_no_task ahead _ rfl rfl rfl rfl⟩

/-- C9: on a new reader on the file `{"results":[{"a":1}]}`, `NextRecord`
returns the record `a: 1`, whatever the interleaving; after `IsEmpty` the data
channel, open before, is closed, and `NextRecord` does not return the record:
it returns `io.EOF`, or the process panics when the goroutine gets to send on
the closed channel before the receive. -/
theorem IsEmpty_closes_data_channel :
    (∀ ahead, (NextRecord ahead (NewContentReader twoFiles "g" "results")).value =
      some (.ok (Value.map [("a", .number 1)]))) ∧
    ((NewContentReader twoFiles "g" "results").chans
      (NewContentReader twoFiles "g" "results").rr.dataChannel).closed = false ∧
    ∃ w1, IsEmpty (NewContentReader twoFiles "g" "results") = Outcome.ret w1 (.ok false) ∧
      (w1.chans w1.rr.dataChannel).closed = true ∧
      (NextRecord [] w1).value = some (.error Err.eof) ∧
      (∀ ahead, NextRecord (0 :: ahead) w1 = Outcome.panic) ∧
      ∀ ahead, (NextRecord ahead w1).value = some (.error Err.eof) ∨
        NextRecord ahead w1 = Outcome.panic := by
  refine ⟨fun ahead => ?_, rfl, _, rfl, rfl, rfl, fun ahead => rfl, fun ahead => ?_⟩
  · obtain ⟨w1, h1⟩ := session_first (NewContentReader twoFiles "g" "results")
      (Idle_NewContentReader _ _ _) rfl (Value.map [("a", .number 1)]) [] rfl ahead
    rw [h1]
    rfl
  · induction ahead with
    | nil => exact Or.inl rfl
    | cons i ahead ih =>
      cases i with
      | zero => exact Or.inr rfl
      | succ i => exact ih

/-- C10, as stated, fails: a session on the file `"results"` records "results
not found"; after `Reset` the file holds `{"results":[{"a":1}]}` and the new
session streams it to `io.EOF`, yet `GetError` returns the error of the
previous session, whatever the interleaving. -/
theorem Reset_keeps_error_of_previous_session :
    ∃ w1, (∀ ahead, NextRecord ahead (NewContentReader (oneFile "f" keyStringDoc) "f"
        "results") = Outcome.ret w1 (.error Err.eof)) ∧
      ∀ a b, ∃ w2 w3,
        drain [a] (writeFile (Reset w1) "f" (document "results" [[("a", .num 1)]])) =
          some ([Value.map [("a", .number 1)]], w2) ∧
        NextRecord b w2 = Outcome.ret w3 (.error Err.eof) ∧
        (GetError w3).2 = some Err.resultsNotFound := by
  refine ⟨finished (NewContentReader (oneFile "f" keyStringDoc) "f" "results"),
    fun ahead => NewContentReader_empty (oneFile "f" keyStringDoc) "f" "results"
      [Err.resultsNotFound] rfl ahead, fun a b => ?_⟩
  have hw : Idle (writeFile (Reset (finished (NewContentReader (oneFile "f" keyStringDoc) "f"
      "results"))) "f" (document "results" [[("a", .num 1)]])) :=
    ⟨rfl, rfl, rfl, rfl, by decide⟩
  obtain ⟨w2, hd, hn⟩ := session_returns _ hw rfl [a] rfl
  exact ⟨w2, _, hd, hn b, rfl⟩

/-- C10, amended: the errors queue belongs to the reader and is shared by all
its sessions: `Reset` and `SetFilePath` leave it unchanged, so when the session
started after `Reset` streams a well-formed file to `io.EOF`, under whatever
interleaving, `GetError` returns what it would have returned before `Reset`:
the oldest error of the previous sessions that was not retrieved, and no error
only when none is pending. -/
theorem Reset_shares_errorsQueue (w : World) (newPath : String)
    (objects : List (List (String × Json))) (records : List Value) (schedule : List (List Nat))
    (ahead : List Nat) (ht : w.tasks = [])
    (h : w.fs w.rr.filePath = some (document w.rr.arrayKey objects))
    (hu : unmarshalObjects objects = some records) (hlen : schedule.length = objects.length) :
    (Reset w).rr.errorsQueue = w.rr.errorsQueue ∧
    (SetFilePath w newPath).rr.errorsQueue = w.rr.errorsQueue ∧
    ∃ w1 w2, drain schedule (Reset w) = some (records, w1) ∧
      NextRecord ahead w1 = Outcome.ret w2 (.error Err.eof) ∧
      (GetError w2).2 = (GetError w).2 := by
  refine ⟨rfl, ?_, ?_⟩
  · simp only [SetFilePath, Close]
    split_ifs <;> try rfl
    split <;> rfl
  · obtain ⟨⟨w1, hd, hn⟩, he⟩ := session_document (Reset w) objects records (Idle_Reset w ht) h
      hu schedule hlen
    refine ⟨w1, _, hd, hn ahead, ?_⟩
    simp only [GetError, he]
    rfl

/-- Witness of C10, amended: a reader with the pending error "results not
found" on the file `{"results":[{"a":1}]}`. -/
theorem Reset_shares_errorsQueue_witness :
    pendingErrorWorld.tasks = [] ∧
    (Reset pendingErrorWorld).rr.errorsQueue = pendingErrorWorld.rr.errorsQueue ∧
    (SetFilePath pendingErrorWorld "g").rr.errorsQueue = pendingErrorWorld.rr.errorsQueue ∧
    ∃ w1 w2, drain [[0, 0]] (Reset pendingErrorWorld) =
        some ([Value.map [("a", .number 1)]], w1) ∧
      NextRecord [] w1 = Outcome.ret w2 (.error Err.eof) ∧
      (GetError w2).2 = (GetError pendingErrorWorld).2 :=
  ⟨rfl, Reset_shares_errorsQueue pendingErrorWorld "g" [[("a", .num 1)]]
    [Value.map [("a", .number 1)]] [[0, 0]] [] rfl rfl rfl rfl⟩

/-! ## The claims on `Close`, the start guard, the locator and the queue -/

/-- C11: for every reader with a non-empty file path `p`, `Close` leaves no file
at `p`, leaves every other file, every reader field, the channels and the
goroutines as they are, so `GetFilePath` still returns `p`, and it returns no
error when the file existed; for a reader whose path is empty, `Close` returns
no error and changes nothing. -/
theorem Close_removes_file_and_keeps_reader (w : World) :
    (w.rr.filePath ≠ "" →
      (Close w).1.fs w.rr.filePath = none ∧
      (∀ p, p ≠ w.rr.filePath → (Close w).1.fs p = w.fs p) ∧
      (Close w).1.rr = w.rr ∧ GetFilePath (Close w).1 = w.rr.filePath ∧
      (Close w).1.chans = w.chans ∧ (Close w).1.tasks = w.tasks ∧
      (w.fs w.rr.filePath ≠ none → (Close w).2 = none)) ∧
    (w.rr.filePath = "" → Close w = (w, none)) := by
  refine ⟨fun hp => ?_, fun hp => by simp [Close, hp]⟩
  simp only [Close, hp, ne_eq, not_false_eq_true, if_true]
  cases hf : w.fs w.rr.filePath with
  | none => simp [hf, GetFilePath]
  | some c =>
    refine ⟨by simp, fun p hne => by simp [hne], rfl, rfl, rfl, rfl, fun _ => rfl⟩

/-- Witness of C11: a reader on the existing file `f`. -/
theorem Close_removes_file_and_keeps_reader_witness :
    (NewContentReader twoFiles "f" "results").rr.filePath ≠ "" ∧
    (Close (NewContentReader twoFiles "f" "results")).1.fs "f" = none ∧
    GetFilePath (Close (NewContentReader twoFiles "f" "results")).1 = "f" ∧
    (Close (NewContentReader twoFiles "f" "results")).2 = none :=
  ⟨by decide,
    ((Close_removes_file_and_keeps_reader (NewContentReader twoFiles "f" "results")).1
      (by decide)).1,
    ((Close_removes_file_and_keeps_reader (NewContentReader twoFiles "f" "results")).1
      (by decide)).2.2.2.1,
    ((Close_removes_file_and_keeps_reader (NewContentReader twoFiles "f" "results")).1
      (by decide)).2.2.2.2.2.2 (by decide)⟩

/-- C12: in a session, from construction or from `Reset`, exactly one goroutine
of `run` is started, by the first `NextRecord` and by no later one.  The
goroutines started are counted in the state: those alive and those that have
ended.  In every state that a schedule of start-guard, goroutine and consumer
actions reaches from the start of a session, one goroutine more has been
started if the start guard has fired and none otherwise, and the guard has
fired once the schedule holds a start; after one or more calls of `NextRecord`
that return, whatever the interleaving, exactly one more has been started.
From any state a call that returns has started one goroutine if it found the
guard not fired and none otherwise, and leaves the guard fired; once the guard
has fired no action starts another. -/
theorem start_guard_fires_once (schedule : List Action) (callSchedule : List (List Nat))
    (ahead : List Nat) (w : World) (fs : String → Option (List Lexeme))
    (filePath key : String) :
    (∀ w1, exec schedule (NewContentReader fs filePath key) = some w1 →
      goroutines w1 = (if w1.rr.once then 1 else 0) ∧
      (Action.start ∈ schedule → goroutines w1 = 1)) ∧
    (∀ w1, exec schedule (Reset w) = some w1 →
      goroutines w1 = goroutines (Reset w) + (if w1.rr.once then 1 else 0) ∧
      (Action.start ∈ schedule → goroutines w1 = goroutines (Reset w) + 1)) ∧
    (∀ w1, calls (ahead :: callSchedule) (NewContentReader fs filePath key) = some w1 →
      goroutines w1 = 1) ∧
    (∀ w1, calls (ahead :: callSchedule) (Reset w) = some w1 →
      goroutines w1 = goroutines (Reset w) + 1) ∧
    (∀ w1 r, NextRecord ahead w = Outcome.ret w1 r →
      goroutines w1 = goroutines w + (if w.rr.once then 0 else 1) ∧ w1.rr.once = true) ∧
    (∀ w1, w.rr.once = true → exec schedule w = some w1 → goroutines w1 = goroutines w) := by
  have hexec : ∀ (w0 w1 : World), w0.rr.once = false → exec schedule w0 = some w1 →
      goroutines w1 = goroutines w0 + (if w1.rr.once then 1 else 0) ∧
      (Action.start ∈ schedule → goroutines w1 = goroutines w0 + 1) := by
    intro w0 w1 ho h
    obtain ⟨h1, -, h3⟩ := exec_goroutines schedule w0 w1 h
    rw [ho] at h1
    have h4 : goroutines w1 = goroutines w0 + (if w1.rr.once then 1 else 0) := by
      rw [h1]
      cases w1.rr.once <;> simp
    exact ⟨h4, fun hm => by rw [h4, h3 hm]; rfl⟩
  have hcalls : ∀ (w0 w1 : World), w0.rr.once = false →
      calls (ahead :: callSchedule) w0 = some w1 → goroutines w1 = goroutines w0 + 1 := by
    intro w0 w1 ho h
    have h1 := calls_goroutines (ahead :: callSchedule) w0 w1 h
    rw [h1, ho]
    simp
  have hnew : goroutines (NewContentReader fs filePath key) = 0 := rfl
  refine ⟨fun w1 h => ?_, fun w1 h => hexec _ w1 rfl h, fun w1 h => ?_,
    fun w1 h => hcalls _ w1 rfl h, fun w1 r h => NextRecord_goroutines ahead w w1 r h,
    fun w1 ho h => ?_⟩
  · have := hexec _ w1 rfl h
    rw [hnew, Nat.zero_add, Nat.zero_add] at this
    exact this
  · have := hcalls _ w1 rfl h
    rw [hnew, Nat.zero_add] at this
    exact this
  · obtain ⟨h1, -, -⟩ := exec_goroutines schedule w w1 h
    rw [h1, ho]
    simp

/-- Witness of C12: on the file `{"results":[{"a":1},{"a":2},{"a":3}]}` five
calls of `NextRecord` return and leave one goroutine started, and five more calls
after `Reset` leave one more; a schedule with three starts reaches a state with
one goroutine started. -/
theorem start_guard_fires_once_witness :
    (∃ w1, calls [[], [0, 0, 0], [], [0], []]
        (NewContentReader (oneFile "f" (document "results" threeObjects)) "f" "results") =
        some w1 ∧
      goroutines w1 = 1 ∧
      ∃ w2, calls [[], [], [], [], []] (Reset w1) = some w2 ∧ goroutines w2 = 2) ∧
    ∃ w1, exec [Action.start, Action.produce 0, Action.start, Action.consume, Action.start]
        (NewContentReader (oneFile "f" (document "results" threeObjects)) "f" "results") =
        some w1 ∧
      goroutines w1 = 1 ∧ w1.tasks.length = 1 :=
  ⟨⟨_, rfl,
      (start_guard_fires_once [] [[0, 0, 0], [], [0], []] [] pendingErrorWorld
        (oneFile "f" (document "results" threeObjects)) "f" "results").2.2.1 _ rfl,
      _, rfl, rfl⟩,
    _, rfl, rfl, rfl⟩

/-- C13: the document `{"name":"results","results":[{"a":1}]}` maps the key
`results` to an array of objects; the third token, the string value of `name`,
equals the key, and `findDecoderTargetPosition` stops there: it skips the key
itself as if it were the bracket and returns without an error after four
tokens, in front of the colon, whereas the first array element starts after
five tokens. -/
theorem locator_matches_string_value :
    keyAsValueDoc =
      render (.obj [("name", .str "results"), ("results", .arr [.obj [("a", .num 1)]])]) ∧
    (readTokens 3 (NewDecoder keyAsValueDoc)).map Prod.fst =
      some [Token.delim .openObject, Token.str "name", Token.str "results"] ∧
    some (findDecoderTargetPosition (NewDecoder keyAsValueDoc) "results" true) =
      (readTokens 4 (NewDecoder keyAsValueDoc)).map (fun r => (r.2, none)) ∧
    (findDecoderTargetPosition (NewDecoder keyAsValueDoc) "results" true).1.input =
      .colon :: .lbrack :: (render (.obj [("a", .num 1)]) ++ [.rbrack, .rbrace]) ∧
    (readTokens 5 (NewDecoder keyAsValueDoc)).map (fun r => r.2.input) =
      some (render (.obj [("a", .num 1)]) ++ [.rbrack, .rbrace]) ∧
    (findDecoderTargetPosition (NewDecoder keyAsValueDoc) "results" true).1.input ≠
      render (.obj [("a", .num 1)]) ++ [.rbrack, .rbrace] := by
  refine ⟨rfl, by decide, by decide, by decide, by decide, by decide⟩

/-- C14: in every state that a schedule of goroutine starts, sends and receives
reaches, the records buffered in the data channel number at most its capacity,
which no action changes: at most 50000 after construction and after `Reset`, at
most 2 after `SetFilePath`, whatever the file holds. -/
theorem queue_occupancy_within_capacity (schedule : List Action) (w : World)
    (fs : String → Option (List Lexeme)) (filePath key newPath : String) :
    (∀ w1, exec schedule (NewContentReader fs filePath key) = some w1 →
      (w1.chans w1.rr.dataChannel).buf.length ≤ 50000) ∧
    (∀ w1, exec schedule (Reset w) = some w1 →
      (w1.chans w1.rr.dataChannel).buf.length ≤ 50000) ∧
    (∀ w1, exec schedule (SetFilePath w newPath) = some w1 →
      (w1.chans w1.rr.dataChannel).buf.length ≤ 2) ∧
    (∀ w1, exec schedule w = some w1 →
      (w.chans w.rr.dataChannel).buf.length ≤ (w.chans w.rr.dataChannel).capacity →
      (w1.chans w1.rr.dataChannel).buf.length ≤ (w1.chans w1.rr.dataChannel).capacity ∧
      (w1.chans w1.rr.dataChannel).capacity = (w.chans w.rr.dataChannel).capacity) := by
  refine ⟨fun w1 h => ?_, fun w1 h => ?_, fun w1 h => ?_, fun w1 h h0 =>
    exec_bounded schedule w w1 h h0⟩
  · have := exec_bounded schedule _ w1 h (Nat.zero_le _)
    rw [this.2] at this
    exact this.1
  · have := exec_bounded schedule (Reset w) w1 h (by simp [Reset, setChan, makeChan])
    rw [this.2] at this
    simpa [Reset, setChan, makeChan] using this.1
  · have := exec_bounded schedule (SetFilePath w newPath) w1 h
      (by simp [SetFilePath, setChan, makeChan])
    rw [this.2] at this
    simpa [SetFilePath, setChan, makeChan] using this.1

/-- Witness of C14: on the file `{"results":[{"a":1},{"a":2},{"a":3}]}` after
`SetFilePath`, the goroutine fills the two places of the buffer and its third
send waits; after one receive the buffer holds one record. -/
theorem queue_occupancy_within_capacity_witness :
    (exec [Action.start, Action.produce 0, Action.produce 0, Action.produce 0]
      (SetFilePath (NewContentReader (oneFile "f" (document "results" threeObjects)) ""
        "results") "f")).map (fun w1 => (w1.chans w1.rr.dataChannel).buf.length) = some 2 ∧
    ∃ w1, exec busySchedule
        (SetFilePath (NewContentReader (oneFile "f" (document "results" threeObjects)) ""
          "results") "f") = some w1 ∧
      (w1.chans w1.rr.dataChannel).buf.length = 1 ∧
      (w1.chans w1.rr.dataChannel).buf.length ≤ 2 :=
  ⟨rfl, _, rfl, rfl,
    (queue_occupancy_within_capacity busySchedule
      (NewContentReader (oneFile "f" (document "results" threeObjects)) "" "results")
      noFiles "f" "results" "f").2.2.1 _ rfl⟩

/-- C15: in the document `{"a":{"b":1},"results":[{"x":1}]}`
the first token equal to `results` is the array key, token 6, followed by the
opening bracket, yet `findDecoderTargetPosition` returns after five tokens, in
front of the brace that closes the value of `a`, and not after eight. -/
theorem locator_stops_at_nested_close :
    (readTokens 8 (NewDecoder nestedBeforeDoc)).map Prod.fst =
      some [Token.delim .openObject, Token.str "a", Token.delim .openObject, Token.str "b",
        Token.num 1, Token.delim .closeObject, Token.str "results", Token.delim .openArray] ∧
    some (findDecoderTargetPosition (NewDecoder nestedBeforeDoc) "results" true) =
      (readTokens 5 (NewDecoder nestedBeforeDoc)).map (fun r => (r.2, none)) ∧
    some (findDecoderTargetPosition (NewDecoder nestedBeforeDoc) "results" true) ≠
      (readTokens 8 (NewDecoder nestedBeforeDoc)).map (fun r => (r.2, none)) := by
  refine ⟨by decide, by decide, by decide⟩

/-- For every input whose first `i + 2` tokens can be read, whose
token `i` is the first token equal to the target string and is followed by the
opening bracket, and none of whose tokens before `i` closes an array or an
object, `findDecoderTargetPosition` on a fresh decoder returns no error and
leaves the decoder where reading exactly the first `i + 2` tokens leaves it. -/
theorem findDecoderTargetPosition_consumes_to_bracket (input : List Lexeme) (target : String)
    (i : Nat) (ts : List Token) (dec1 : Decoder)
    (h : readTokens (i + 2) (NewDecoder input) = some (ts, dec1))
    (hkey : ts[i]? = some (Token.str target))
    (hopen : ts[i + 1]? = some (Token.delim .openArray))
    (hfirst : ∀ j, j < i → ts[j]? ≠ some (Token.str target))
    (hflat : ∀ j, j < i → ts[j]? ≠ some (Token.delim .closeArray) ∧
      ts[j]? ≠ some (Token.delim .closeObject)) :
    findDecoderTargetPosition (NewDecoder input) target true = (dec1, none) ∧
    readTokens (i + 2) (NewDecoder input) = some (ts, dec1) ∧
    ts[i + 1]? = some (Token.delim .openArray) :=
  ⟨findDecoderTargetPosition_readTokens target i _ dec1 ts h hkey hfirst hflat, h, hopen⟩

/-- In `{"total":2,"results":[{"a":1}]}` the key is token 3 and the locator stops after five tokens, in front of the first
element. -/
theorem findDecoderTargetPosition_consumes_to_bracket_witness :
    readTokens 5 (NewDecoder scalarBeforeDoc) =
      some ([Token.delim .openObject, Token.str "total", Token.num 2, Token.str "results",
          Token.delim .openArray],
        ⟨render (.obj [("a", .num 1)]) ++ [.rbrack, .rbrace], .tokenArrayStart,
          [.tokenObjectValue, .tokenTopValue]⟩) ∧
    findDecoderTargetPosition (NewDecoder scalarBeforeDoc) "results" true =
      (⟨render (.obj [("a", .num 1)]) ++ [.rbrack, .rbrace], .tokenArrayStart,
        [.tokenObjectValue, .tokenTopValue]⟩, none) :=
  ⟨by decide,
    (findDecoderTargetPosition_consumes_to_bracket scalarBeforeDoc "results" 3
      [Token.delim .openObject, Token.str "total", Token.num 2, Token.str "results",
        Token.delim .openArray]
      ⟨render (.obj [("a", .num 1)]) ++ [.rbrack, .rbrace], .tokenArrayStart,
        [.tokenObjectValue, .tokenTopValue]⟩
      (by decide) (by decide) (by decide) (by decide) (by decide)).1⟩

end Content

namespace Utils

/-! ## `inPlaceRemoveDuplicate` -/

theorem take_set_self (l : List Int) (n : Nat) (v : Int) : (l.set n v).take n = l.take n :=
  List.ext_getElem? fun i => by
    rw [List.getElem?_take, List.getElem?_take]
    split
    · rw [List.getElem?_set_ne (by omega)]
    · rfl

theorem dedupLoop_spec (a : List Int) (ha : a.Pairwise (fun x y => x ≤ y)) (n : Nat) :
    ∀ (i j : Nat) (arr : List Int), arr.length = a.length → i + n = a.length → j < i →
      (∀ k, i ≤ k → arr[k]? = a[k]?) →
      (arr.take (j + 1)).Pairwise (fun x y => x < y) →
      (∀ x ∈ arr.take (j + 1), x ≤ arr.getD j 0) →
      (∀ x, x ∈ arr.take (j + 1) ↔ x ∈ a.take i) →
      arr[j]? = a[i - 1]? →
      (dedupLoop n i j arr).1 + 1 ≤ (dedupLoop n i j arr).2.length ∧
      ((dedupLoop n i j arr).2.take ((dedupLoop n i j arr).1 + 1)).Pairwise (fun x y => x < y) ∧
      ∀ x, x ∈ (dedupLoop n i j arr).2.take ((dedupLoop n i j arr).1 + 1) ↔ x ∈ a := by
  induction n with
  | zero =>
    intro i j arr hL hi hj hs hp hle hm hlast
    simp only [dedupLoop]
    refine ⟨by omega, hp, fun x => ?_⟩
    rw [hm x, List.take_of_length_le (by omega)]
  | succ n ih =>
    intro i j arr hL hi hj hs hp hle hm hlast
    have hiL : i < a.length := by omega
    have hai : a[i]? = some a[i] := List.getElem?_eq_getElem hiL
    have hari : arr[i]? = some a[i] := by rw [hs i (Nat.le_refl i), hai]
    have hi1 : i - 1 < a.length := by omega
    have harj : arr[j]? = some a[i - 1] := by rw [hlast, List.getElem?_eq_getElem hi1]
    have hmono : a[i - 1] ≤ a[i] := by
      have := List.pairwise_iff_getElem.mp ha (i - 1) i hi1 hiL (by omega)
      exact this
    have htake : a.take (i + 1) = a.take i ++ [a[i]] := by
      rw [List.take_succ, hai]; rfl
    simp only [dedupLoop, List.getD_eq_getElem?_getD, hari, harj, Option.getD_some]
    by_cases heq : a[i - 1] = a[i]
    · simp only [heq, if_true]
      refine ih (i + 1) j arr hL (by omega) (by omega) (fun k hk => hs k (by omega)) hp hle
        (fun x => ?_) (by rw [harj, heq, Nat.add_sub_cancel, hai])
      rw [htake, List.mem_append, ← hm x, List.mem_singleton]
      constructor
      · intro h; exact Or.inl h
      · rintro (h | h)
        · exact h
        · rw [h, ← heq]
          exact List.mem_iff_getElem?.mpr ⟨j, by rw [List.getElem?_take_of_succ, harj]⟩
    · simp only [heq, if_false]
      have hj1 : j + 1 < arr.length := by omega
      have hset : (arr.set (j + 1) a[i]).take (j + 1 + 1) = arr.take (j + 1) ++ [a[i]] := by
        rw [List.take_succ, List.getElem?_set_self hj1, take_set_self]
        rfl
      have hlt : ∀ x ∈ arr.take (j + 1), x < a[i] := by
        intro x hx
        have h1 := hle x hx
        simp only [List.getD_eq_getElem?_getD, harj, Option.getD_some] at h1
        omega
      refine ih (i + 1) (j + 1) (arr.set (j + 1) a[i]) (by simp [hL]) (by omega) (by omega)
        (fun k hk => ?_) ?_ (fun x hx => ?_) (fun x => ?_) ?_
      · rw [List.getElem?_set_ne (by omega)]
        exact hs k (by omega)
      · rw [hset, List.pairwise_append]
        exact ⟨hp, List.pairwise_singleton _ _, fun x hx y hy => by
          rw [List.mem_singleton.mp hy]; exact hlt x hx⟩
      · rw [hset, List.mem_append, List.mem_singleton] at hx
        simp only [List.getD_eq_getElem?_getD, List.getElem?_set_self hj1, Option.getD_some]
        rcases hx with hx | hx
        · exact le_of_lt (hlt x hx)
        · rw [hx]
      · rw [hset, htake, List.mem_append, List.mem_append, hm x]
      · rw [List.getElem?_set_self hj1, Nat.add_sub_cancel, hai]

theorem inPlaceRemoveDuplicate_spec (s : List Int) (h : s ≠ []) :
    ∃ out, inPlaceRemoveDuplicate s = some out ∧ out.Pairwise (fun x y => x < y) ∧
      ∀ x, x ∈ out ↔ x ∈ s := by
  have hsorted : (sortInts s).Pairwise (fun x y => x ≤ y) :=
    List.sorted_insertionSort (fun a b : Int => a ≤ b) s
  have hperm : List.Perm (sortInts s) s := List.perm_insertionSort (fun a b : Int => a ≤ b) s
  have hlen : (sortInts s).length = s.length := hperm.length_eq
  have hpos : 0 < (sortInts s).length := by
    rw [hlen]; exact List.length_pos.mpr h
  have h0 : (sortInts s)[0]? = some (sortInts s)[0] := List.getElem?_eq_getElem hpos
  obtain ⟨h1, h2, h3⟩ := dedupLoop_spec (sortInts s) hsorted ((sortInts s).length - 1) 1 0
    (sortInts s) rfl (by omega) (by omega) (fun k _ => rfl)
    (by rw [List.take_succ, h0]; simp)
    (by
      intro x hx
      rw [List.take_succ, h0] at hx
      simp only [List.take_zero, Option.toList_some, List.nil_append, List.mem_singleton] at hx
      simp [hx, h0])
    (fun x => Iff.rfl) rfl
  refine ⟨_, by simp only [inPlaceRemoveDuplicate, h1, if_true], h2, fun x => ?_⟩
  rw [h3 x]
  exact hperm.mem_iff
/-! ## Removing selected pairs keeps the parentheses balanced -/

theorem scanPattern_reverse (rest : List Nat) :
    ∀ (i : Nat) (ps : List Parentheses),
      (scanPattern rest i ps).reverse = scanStack rest i ps.reverse := by
  induction rest with
  | nil => intro i ps; rfl
  | cons v rest ih =>
    intro i ps
    simp only [scanPattern, scanStack]
    rw [ih]
    congr 1
    by_cases h40 : v = 40
    · subst h40
      simp [closeLast]
    · by_cases h41 : v = 41
      · subst h41
        simp [closeLast]
      · simp [h40, h41]

theorem removeLoop_eq_removeWith (p : ParenthesesSlice) (rest : List Nat) :
    ∀ i, removeLoop p rest i = removeWith (fun k => p.IsPresent k) rest i := by
  induction rest with
  | nil => intro i; rfl
  | cons b rest ih => intro i; simp only [removeLoop, removeWith, ih]

theorem removeWith_congr (present present2 : Nat → Bool) (rest : List Nat) :
    ∀ i, (∀ k, i ≤ k → present k = present2 k) →
      removeWith present rest i = removeWith present2 rest i := by
  induction rest with
  | nil => intro i _; rfl
  | cons b rest ih =>
    intro i h
    simp only [removeWith, h i (Nat.le_refl i), ih (i + 1) (fun k hk => h k (by omega))]

theorem balancedFrom_stringOfByte (b d : Nat) (out : List Nat) (h40 : b ≠ 40) (h41 : b ≠ 41) :
    balancedFrom d (stringOfByte b ++ out) = balancedFrom d out := by
  unfold stringOfByte
  split_ifs with hb
  · simp [balancedFrom, h40, h41]
  · have h1 : 192 + b / 64 ≠ 40 := by omega
    have h2 : 192 + b / 64 ≠ 41 := by omega
    have h3 : 128 + b % 64 ≠ 40 := by omega
    have h4 : 128 + b % 64 ≠ 41 := by omega
    simp [balancedFrom, h1, h2, h3, h4]

theorem presentStack_append_skip (sel : Nat → Bool) (i : Nat) (xs ys : List Parentheses)
    (h : ∀ e ∈ xs, e.OpenIndex ≠ i ∧ e.CloseIndex ≠ i) :
    presentStack sel (xs ++ ys) i = presentStack sel ys i := by
  induction xs with
  | nil => rfl
  | cons e xs ih =>
    have he := h e (List.mem_cons_self _ _)
    rw [List.cons_append, presentStack, ih (fun e he => h e (List.mem_cons_of_mem _ he))]
    simp [he.1, he.2]

theorem Fills_length (i : Nat) : ∀ (stack filled : List Parentheses),
    Fills i stack filled → filled.length = stack.length := by
  intro stack
  induction stack with
  | nil => intro filled h; cases filled with
    | nil => rfl
    | cons f fl => exact absurd h (by simp [Fills])
  | cons e stack ih => intro filled h; cases filled with
    | nil => exact absurd h (by simp [Fills])
    | cons f fl => simp only [Fills] at h; simp [ih fl h.2]

theorem Fills_mono (i : Nat) : ∀ (stack filled : List Parentheses),
    Fills (i + 1) stack filled → Fills i stack filled := by
  intro stack
  induction stack with
  | nil => intro filled h; cases filled with
    | nil => trivial
    | cons f fl => exact absurd h (by simp [Fills])
  | cons e stack ih => intro filled h; cases filled with
    | nil => exact absurd h (by simp [Fills])
    | cons f fl =>
      simp only [Fills] at h ⊢
      exact ⟨⟨h.1.1, h.1.2.1, fun h0 => ⟨by have := (h.1.2.2 h0).1; omega, (h.1.2.2 h0).2⟩⟩,
        ih fl h.2⟩

theorem Fills_no_hit (i : Nat) : ∀ (stack filled : List Parentheses),
    Fills (i + 1) stack filled → (∀ e ∈ stack, e.OpenIndex < i ∧ e.CloseIndex < i) →
    ∀ f ∈ filled, f.OpenIndex ≠ i ∧ f.CloseIndex ≠ i := by
  intro stack
  induction stack with
  | nil => intro filled h _ f hf; cases filled with
    | nil => simp at hf
    | cons f fl => exact absurd h (by simp [Fills])
  | cons e stack ih => intro filled h hinv f hf; cases filled with
    | nil => simp at hf
    | cons f0 fl =>
      simp only [Fills] at h
      rcases List.mem_cons.mp hf with rfl | hf
      · have he := hinv e (List.mem_cons_self _ _)
        obtain ⟨ho, hc, hu⟩ := h.1
        refine ⟨by omega, ?_⟩
        by_cases h0 : e.CloseIndex = 0
        · have := (hu h0).1; omega
        · rw [hc h0]; omega
      · exact ih fl h.2 (fun e he => hinv e (List.mem_cons_of_mem _ he)) f hf

theorem Fills_append (i : Nat) : ∀ (pre rest filled : List Parentheses),
    Fills i (pre ++ rest) filled →
    ∃ fpre frest, filled = fpre ++ frest ∧ Fills i pre fpre ∧ Fills i rest frest := by
  intro pre
  induction pre with
  | nil => intro rest filled h; exact ⟨[], filled, rfl, trivial, h⟩
  | cons e pre ih =>
    intro rest filled h
    cases filled with
    | nil => exact absurd h (by simp [Fills])
    | cons f fl =>
      simp only [List.cons_append, Fills] at h
      obtain ⟨fpre, frest, rfl, h1, h2⟩ := ih rest fl h.2
      exact ⟨f :: fpre, frest, rfl, ⟨h.1, h1⟩, h2⟩

theorem Fills_refl (i : Nat) : ∀ stack : List Parentheses, unclosed stack = 0 →
    Fills i stack stack := by
  intro stack
  induction stack with
  | nil => intro _; trivial
  | cons e stack ih =>
    intro h
    simp only [unclosed] at h
    have hc : e.CloseIndex ≠ 0 := by
      intro h0; simp [h0] at h
    simp only [hc, if_false, Nat.zero_add] at h
    exact ⟨⟨rfl, fun _ => rfl, fun h0 => absurd h0 hc⟩, ih h⟩

theorem unclosedKept_le (sel : Nat → Bool) : ∀ stack : List Parentheses,
    unclosedKept sel stack ≤ unclosed stack := by
  intro stack
  induction stack with
  | nil => exact Nat.le_refl _
  | cons e stack ih =>
    simp only [unclosedKept, unclosed]
    split_ifs with h1 h2 h2
    · omega
    · exact absurd h1.1 h2
    · omega
    · omega

theorem closeFirst_split (i : Nat) : ∀ stack : List Parentheses, 0 < unclosed stack →
    ∃ pre e0 below, stack = pre ++ e0 :: below ∧ (∀ e ∈ pre, e.CloseIndex ≠ 0) ∧
      e0.CloseIndex = 0 ∧
      closeFirst stack i = pre ++ { e0 with CloseIndex := i } :: below := by
  intro stack
  induction stack with
  | nil => intro h; simp [unclosed] at h
  | cons e stack ih =>
    intro h
    by_cases h0 : e.CloseIndex = 0
    · exact ⟨[], e, stack, rfl, by simp, h0, by simp [closeFirst, h0]⟩
    · simp only [unclosed, h0, if_false, Nat.zero_add] at h
      obtain ⟨pre, e0, below, rfl, hpre, he0, hcf⟩ := ih h
      refine ⟨e :: pre, e0, below, rfl, ?_, he0, by simp [closeFirst, h0, hcf]⟩
      intro x hx
      rcases List.mem_cons.mp hx with rfl | hx
      · exact h0
      · exact hpre x hx

theorem unclosed_append (xs ys : List Parentheses) :
    unclosed (xs ++ ys) = unclosed xs + unclosed ys := by
  induction xs with
  | nil => simp [unclosed]
  | cons e xs ih => rw [List.cons_append, unclosed, unclosed, ih]; omega

theorem unclosed_closed (xs : List Parentheses) (h : ∀ e ∈ xs, e.CloseIndex ≠ 0) :
    unclosed xs = 0 := by
  induction xs with
  | nil => rfl
  | cons e xs ih =>
    simp only [unclosed, h e (List.mem_cons_self _ _), if_false, Nat.zero_add]
    exact ih (fun e he => h e (List.mem_cons_of_mem _ he))

theorem unclosedKept_append_closed (sel : Nat → Bool) (xs ys : List Parentheses)
    (h : ∀ e ∈ xs, e.CloseIndex ≠ 0) :
    unclosedKept sel (xs ++ ys) = unclosedKept sel ys := by
  induction xs with
  | nil => rfl
  | cons e xs ih =>
    simp only [List.cons_append, unclosedKept, h e (List.mem_cons_self _ _), false_and, if_false,
      Nat.zero_add]
    exact ih (fun e he => h e (List.mem_cons_of_mem _ he))

theorem Fills_combine (i : Nat) : ∀ (pre fpre rest frest : List Parentheses),
    Fills i pre fpre → Fills i rest frest → Fills i (pre ++ rest) (fpre ++ frest) := by
  intro pre
  induction pre with
  | nil =>
    intro fpre rest frest h1 h2
    cases fpre with
    | nil => exact h2
    | cons f fl => exact absurd h1 (by simp [Fills])
  | cons e pre ih =>
    intro fpre rest frest h1 h2
    cases fpre with
    | nil => exact absurd h1 (by simp [Fills])
    | cons f fl =>
      simp only [Fills] at h1
      exact ⟨h1.1, ih fl rest frest h1.2 h2⟩

theorem presentStack_no_hit (sel : Nat → Bool) (i : Nat) (xs : List Parentheses)
    (h : ∀ e ∈ xs, e.OpenIndex ≠ i ∧ e.CloseIndex ≠ i) : presentStack sel xs i = false := by
  have := presentStack_append_skip sel i xs [] h
  rw [List.append_nil] at this
  rw [this]
  rfl

theorem scanStack_balanced (sel : Nat → Bool) (rest : List Nat) :
    ∀ (i : Nat) (stack : List Parentheses),
      (∀ e ∈ stack, e.OpenIndex < i ∧ e.CloseIndex < i) →
      balancedFrom (unclosed stack) rest = true →
      ∃ newer filled, scanStack rest i stack = newer ++ filled ∧ Fills i stack filled ∧
        (∀ e ∈ newer, i ≤ e.OpenIndex ∧ e.OpenIndex < e.CloseIndex) ∧
        balancedFrom (unclosedKept sel stack)
          (removeWith (presentStack sel (scanStack rest i stack)) rest i) = true := by
  induction rest with
  | nil =>
    intro i stack _ hb
    have hu : unclosed stack = 0 := by simpa [balancedFrom] using hb
    refine ⟨[], stack, rfl, Fills_refl i stack hu, by simp, ?_⟩
    have := unclosedKept_le sel stack
    simp only [removeWith, balancedFrom, beq_iff_eq]
    omega
  | cons v rest ih =>
    intro i stack hinv hb
    by_cases h40 : v = 40
    · subst h40
      have hscan : scanStack (40 :: rest) i stack =
          scanStack rest (i + 1) ({ OpenIndex := i, CloseIndex := 0 } :: stack) := by
        simp [scanStack]
      have hb1 : balancedFrom (unclosed ({ OpenIndex := i, CloseIndex := 0 } :: stack)) rest
          = true := by
        simp only [balancedFrom, if_true] at hb
        simp only [unclosed, if_true]
        rw [Nat.add_comm]; exact hb
      obtain ⟨newer, filled1, hF, hfill, hnew, hout⟩ :=
        ih (i + 1) ({ OpenIndex := i, CloseIndex := 0 } :: stack)
          (by
            intro e he
            rcases List.mem_cons.mp he with rfl | he
            · exact ⟨Nat.lt_succ_self _, Nat.succ_pos _⟩
            · have := hinv e he; omega) hb1
      cases filled1 with
      | nil => exact absurd hfill (by simp [Fills])
      | cons f0 filled =>
        simp only [Fills] at hfill
        obtain ⟨⟨hfo, -, hfu⟩, hfill2⟩ := hfill
        have hfc := hfu rfl
        simp only at hfo hfc
        have hlen := Fills_length (i + 1) stack filled hfill2
        have hpres : presentStack sel (scanStack rest (i + 1)
            ({ OpenIndex := i, CloseIndex := 0 } :: stack)) i = sel stack.length := by
          rw [hF, presentStack_append_skip sel i newer _ (fun e he => by
            have := hnew e he; omega)]
          rw [presentStack, presentStack_no_hit sel i filled
            (Fills_no_hit i stack filled hfill2 hinv), hlen]
          simp [hfo]
        refine ⟨newer ++ [f0], filled, by rw [hscan, hF]; simp, Fills_mono i stack filled hfill2,
          ?_, ?_⟩
        · intro e he
          rcases List.mem_append.mp he with he | he
          · have := hnew e he; omega
          · rw [List.mem_singleton.mp he]; omega
        · rw [hscan]
          simp only [removeWith, true_or, true_and, hpres]
          simp only [unclosedKept, true_and] at hout
          cases hs : sel stack.length with
          | true =>
            simp only [hs, if_true]
            simpa [hs] using hout
          | false =>
            simp only [hs, Bool.false_eq_true, if_false]
            have : stringOfByte 40 = [40] := by decide
            rw [this, List.singleton_append]
            simp only [balancedFrom, if_true]
            rw [Nat.add_comm]
            simpa [hs] using hout
    · by_cases h41 : v = 41
      · subst h41
        have hscan : scanStack (41 :: rest) i stack = scanStack rest (i + 1) (closeFirst stack i) := by
          simp [scanStack]
        have hpos : 0 < unclosed stack := by
          cases hu : unclosed stack with
          | zero => rw [hu] at hb; simp [balancedFrom] at hb
          | succ d => exact Nat.succ_pos d
        obtain ⟨pre, e0, below, hst, hpre, he0, hcf⟩ := closeFirst_split i stack hpos
        have he0inv : e0.OpenIndex < i := by
          have := hinv e0 (by rw [hst]; simp)
          exact this.1
        have hi0 : i ≠ 0 := by omega
        have hu : unclosed stack = unclosed below + 1 := by
          rw [hst, unclosed_append, unclosed_closed pre hpre, unclosed, he0]
          simp; omega
        have hu1 : unclosed (closeFirst stack i) = unclosed below := by
          rw [hcf, unclosed_append, unclosed_closed pre hpre, unclosed]
          simp [hi0]
        have hb1 : balancedFrom (unclosed (closeFirst stack i)) rest = true := by
          rw [hu] at hb
          simp only [balancedFrom, h40, if_false, if_true] at hb
          rw [hu1]; exact hb
        have hinvpre : ∀ e ∈ pre, e.OpenIndex < i ∧ e.CloseIndex < i := fun e he =>
          hinv e (by rw [hst]; exact List.mem_append_left _ he)
        have hinvbelow : ∀ e ∈ below, e.OpenIndex < i ∧ e.CloseIndex < i := fun e he =>
          hinv e (by rw [hst]; exact List.mem_append_right _ (List.mem_cons_of_mem _ he))
        obtain ⟨newer, filled1, hF, hfill, hnew, hout⟩ :=
          ih (i + 1) (closeFirst stack i)
            (by
              intro e he
              rw [hcf] at he
              rcases List.mem_append.mp he with he | he
              · have := hinvpre e he; omega
              · rcases List.mem_cons.mp he with rfl | he
                · exact ⟨by simp only; omega, by simp⟩
                · have := hinvbelow e he; omega) hb1
        rw [hcf] at hfill
        obtain ⟨fpre, frest, rfl, hfpre, hfrest⟩ := Fills_append (i + 1) pre _ filled1 hfill
        cases frest with
        | nil => exact absurd hfrest (by simp [Fills])
        | cons f0 fbelow =>
          simp only [Fills] at hfrest
          obtain ⟨⟨hfo, hfc, -⟩, hfbelow⟩ := hfrest
          have hfc1 : f0.CloseIndex = i := hfc hi0
          simp only at hfo
          have hlen := Fills_length (i + 1) below fbelow hfbelow
          have hpres : presentStack sel (scanStack rest (i + 1) (closeFirst stack i)) i
              = sel below.length := by
            rw [hF, presentStack_append_skip sel i newer _ (fun e he => by
              have := hnew e he; omega)]
            rw [presentStack_append_skip sel i fpre _
              (Fills_no_hit i pre fpre hfpre hinvpre)]
            rw [presentStack, presentStack_no_hit sel i fbelow
              (Fills_no_hit i below fbelow hfbelow hinvbelow), hlen]
            simp [hfc1]
          have hkept : unclosedKept sel stack =
              (if sel below.length = false then 1 else 0) + unclosedKept sel below := by
            rw [hst, unclosedKept_append_closed sel pre _ hpre, unclosedKept]
            simp [he0]
          have hkept1 : unclosedKept sel (closeFirst stack i) = unclosedKept sel below := by
            rw [hcf, unclosedKept_append_closed sel pre _ hpre, unclosedKept]
            simp [hi0]
          refine ⟨newer, fpre ++ f0 :: fbelow, by rw [hscan, hF], ?_, ?_, ?_⟩
          · rw [hst]
            refine Fills_combine i pre fpre _ _ (Fills_mono i pre fpre hfpre) ?_
            exact ⟨⟨hfo, fun h => absurd he0 h, fun _ => ⟨by omega, by omega⟩⟩,
              Fills_mono i below fbelow hfbelow⟩
          · intro e he
            have := hnew e he; omega
          · rw [hscan]
            simp only [removeWith, or_true, true_and, hpres]
            rw [hkept1] at hout
            rw [hkept]
            cases hs : sel below.length with
            | true =>
              simp only [if_true, Bool.true_eq_false, if_false, Nat.zero_add]
              exact hout
            | false =>
              simp only [Bool.false_eq_true, if_false, if_true]
              have : stringOfByte 41 = [41] := by decide
              rw [this, List.singleton_append, Nat.add_comm]
              simpa [balancedFrom] using hout
      · have hscan : scanStack (v :: rest) i stack = scanStack rest (i + 1) stack := by
          simp [scanStack, h40, h41]
        have hb1 : balancedFrom (unclosed stack) rest = true := by
          simpa [balancedFrom, h40, h41] using hb
        obtain ⟨newer, filled, hF, hfill, hnew, hout⟩ :=
          ih (i + 1) stack (fun e he => by have := hinv e he; omega) hb1
        refine ⟨newer, filled, by rw [hscan, hF], Fills_mono i stack filled hfill,
          fun e he => by have := hnew e he; omega, ?_⟩
        rw [hscan]
        simp only [removeWith, h40, h41, or_self, false_and, if_false]
        rw [balancedFrom_stringOfByte v _ _ h40 h41]
        exact hout

theorem getPlaceHoldersValue_spec (target : List Nat) :
    ∃ values, getPlaceHoldersValue target = some values ∧
      values.Pairwise (fun x y => x < y) ∧
      ∀ v, v ∈ values ↔ v ∈ placeholderNumbers (findPlaceholders target none) := by
  unfold getPlaceHoldersValue
  cases h : placeholderNumbers (findPlaceholders target none) with
  | nil => exact ⟨[], rfl, List.Pairwise.nil, fun v => Iff.rfl⟩
  | cons v vs =>
    obtain ⟨out, h1, h2, h3⟩ := inPlaceRemoveDuplicate_spec (v :: vs) (by simp)
    exact ⟨out, h1, h2, h3⟩

theorem IsPresent_cons (e : Parentheses) (r : List Parentheses) (i : Nat) :
    (ParenthesesSlice.mk (e :: r)).IsPresent i = true ↔
      (e.OpenIndex = i ∨ e.CloseIndex = i) ∨ (ParenthesesSlice.mk r).IsPresent i = true := by
  simp [ParenthesesSlice.IsPresent]

theorem Atoi_range (s : List Nat) (v : Int) (h : Atoi s = some v) :
    -9223372036854775808 ≤ v ∧ v ≤ 9223372036854775807 := by
  unfold Atoi at h
  simp only at h
  generalize (match s with | 43 :: r => r | 45 :: r => r | _ => s) = body at h
  cases body with
  | nil => cases h
  | cons b bs =>
    simp only at h
    cases hd : digitsValue (b :: bs) 0 with
    | none => rw [hd] at h; cases h
    | some n =>
      rw [hd] at h
      simp only at h
      generalize (if s.head? = some 45 then -(n : Int) else (n : Int)) = w at h
      by_cases hw : -9223372036854775808 ≤ w ∧ w ≤ 9223372036854775807
      · rw [if_pos hw] at h
        rw [← Option.some.inj h]; exact hw
      · rw [if_neg hw] at h
        cases h

theorem placeholderNumbers_range (ms : List (List Nat)) :
    ∀ v ∈ placeholderNumbers ms, -9223372036854775808 ≤ v ∧ v ≤ 9223372036854775807 := by
  induction ms with
  | nil => intro v hv; simp [placeholderNumbers] at hv
  | cons m rest ih =>
    intro v hv
    unfold placeholderNumbers at hv
    split at hv
    · next number hnum =>
      rcases List.mem_cons.mp hv with rfl | hv
      · exact Atoi_range m _ hnum
      · exact ih v hv
    · exact ih v hv

theorem wrapInt_of_range (x : Int) (h0 : -9223372036854775808 ≤ x)
    (h1 : x ≤ 9223372036854775807) : wrapInt x = x := by
  unfold wrapInt
  omega

theorem pickPlaceholders_spec (temp : List Parentheses) (values : List Int)
    (h : ∀ v ∈ values, 1 ≤ v ∧ v ≤ 9223372036854775807) :
    ∃ result, pickPlaceholders temp values = some result ∧
      ∀ i, (ParenthesesSlice.mk result).IsPresent i = true ↔
        ∃ v ∈ values, ∃ e, temp[(v - 1).toNat]? = some e ∧
          (e.OpenIndex = i ∨ e.CloseIndex = i) := by
  induction values with
  | nil => exact ⟨[], rfl, fun i => by simp [ParenthesesSlice.IsPresent]⟩
  | cons v vs ih =>
    obtain ⟨r, hr, hspec⟩ := ih (fun v hv => h v (List.mem_cons_of_mem _ hv))
    have hv := h v (List.mem_cons_self _ _)
    have hw : wrapInt (v - 1) = v - 1 := wrapInt_of_range _ (by omega) (by omega)
    by_cases hlen : (temp.length : Int) > v - 1
    · have hk : (v - 1).toNat < temp.length := by omega
      have hget : temp[(v - 1).toNat]? = some temp[(v - 1).toNat] := List.getElem?_eq_getElem hk
      refine ⟨temp[(v - 1).toNat] :: r, ?_, fun i => ?_⟩
      · have hneg : ¬ (v - 1 < 0) := by omega
        simp only [pickPlaceholders, hw, hlen, if_true, hneg, if_false, hr,
          List.getD_eq_getElem?_getD, hget, Option.getD_some]
      · rw [IsPresent_cons, hspec i]
        constructor
        · rintro (hhit | ⟨v2, hv2, e, he, hhit⟩)
          · exact ⟨v, List.mem_cons_self _ _, _, hget, hhit⟩
          · exact ⟨v2, List.mem_cons_of_mem _ hv2, e, he, hhit⟩
        · rintro ⟨v2, hv2, e, he, hhit⟩
          rcases List.mem_cons.mp hv2 with rfl | hv2
          · rw [hget] at he
            rw [Option.some.inj he]
            exact Or.inl hhit
          · exact Or.inr ⟨v2, hv2, e, he, hhit⟩
    · have hk : temp.length ≤ (v - 1).toNat := by omega
      have hget : temp[(v - 1).toNat]? = none := List.getElem?_eq_none hk
      refine ⟨r, by simp only [pickPlaceholders, hw, hlen, if_false, hr], fun i => ?_⟩
      rw [hspec i]
      constructor
      · rintro ⟨v2, hv2, e, he, hhit⟩
        exact ⟨v2, List.mem_cons_of_mem _ hv2, e, he, hhit⟩
      · rintro ⟨v2, hv2, e, he, hhit⟩
        rcases List.mem_cons.mp hv2 with rfl | hv2
        · rw [hget] at he; cases he
        · exact ⟨v2, hv2, e, he, hhit⟩

theorem presentStack_iff (sel : Nat → Bool) (i : Nat) (stack : List Parentheses) :
    presentStack sel stack i = true ↔
      ∃ k e, stack.reverse[k]? = some e ∧ sel k = true ∧
        (e.OpenIndex = i ∨ e.CloseIndex = i) := by
  induction stack with
  | nil => simp [presentStack]
  | cons e below ih =>
    simp only [presentStack, Bool.or_eq_true, Bool.and_eq_true, beq_iff_eq, ih,
      List.reverse_cons]
    constructor
    · rintro (⟨hs, hhit⟩ | ⟨k, e2, hk, hs, hhit⟩)
      · refine ⟨below.length, e, ?_, hs, hhit⟩
        rw [List.getElem?_append_right (by simp)]
        simp
      · refine ⟨k, e2, ?_, hs, hhit⟩
        have hlt : k < below.reverse.length := by
          by_contra hge
          rw [List.getElem?_eq_none (by omega)] at hk
          cases hk
        rw [List.getElem?_append_left hlt]
        exact hk
    · rintro ⟨k, e2, hk, hs, hhit⟩
      by_cases hlt : k < below.reverse.length
      · rw [List.getElem?_append_left hlt] at hk
        exact Or.inr ⟨k, e2, hk, hs, hhit⟩
      · rw [List.getElem?_append_right (by omega)] at hk
        have hk0 : k - below.reverse.length = 0 := by
          by_contra hne
          have hle : [e].length ≤ k - below.reverse.length := by
            simp only [List.length_singleton]; omega
          rw [List.getElem?_eq_none hle] at hk
          cases hk
        rw [hk0] at hk
        simp only [List.getElem?_cons_zero, Option.some.injEq] at hk
        subst hk
        have : k = below.length := by
          simp only [List.length_reverse] at hlt hk0
          omega
        subst this
        exact Or.inl ⟨hs, hhit⟩
/-! ## The scan finds the pairs matched by nesting -/

theorem fillStack_nil (i : Nat) (stack : List Parentheses) :
    ∀ d, fillStack [] i stack d = stack := by
  induction stack with
  | nil => intro d; rfl
  | cons e below ih =>
    intro d
    by_cases h0 : e.CloseIndex = 0
    · simp only [fillStack, h0, if_true, matchingClose, Option.getD_none, ih]
      cases e
      simp only at h0
      subst h0
      rfl
    · simp only [fillStack, h0, if_false, ih]

theorem fillStack_open (rest : List Nat) (i : Nat) (stack : List Parentheses) :
    ∀ d, fillStack (40 :: rest) i stack d = fillStack rest (i + 1) stack (d + 1) := by
  induction stack with
  | nil => intro d; rfl
  | cons e below ih =>
    intro d
    by_cases h0 : e.CloseIndex = 0
    · simp only [fillStack, h0, if_true, matchingClose, ih]
    · simp only [fillStack, h0, if_false, ih]

theorem fillStack_other (b : Nat) (h40 : b ≠ 40) (h41 : b ≠ 41) (rest : List Nat) (i : Nat)
    (stack : List Parentheses) :
    ∀ d, fillStack (b :: rest) i stack d = fillStack rest (i + 1) stack d := by
  induction stack with
  | nil => intro d; rfl
  | cons e below ih =>
    intro d
    by_cases h0 : e.CloseIndex = 0
    · simp only [fillStack, h0, if_true, matchingClose, h40, h41, if_false, ih]
    · simp only [fillStack, h0, if_false, ih]

theorem fillStack_close_succ (rest : List Nat) (i : Nat) (stack : List Parentheses) :
    ∀ d, fillStack (41 :: rest) i stack (d + 1) = fillStack rest (i + 1) stack d := by
  induction stack with
  | nil => intro d; rfl
  | cons e below ih =>
    intro d
    by_cases h0 : e.CloseIndex = 0
    · simp only [fillStack, h0, if_true, matchingClose, ih]
      simp
    · simp only [fillStack, h0, if_false, ih]

theorem fillStack_close (rest : List Nat) (i : Nat) (hi : i ≠ 0) (stack : List Parentheses) :
    fillStack (41 :: rest) i stack 0 = fillStack rest (i + 1) (closeFirst stack i) 0 := by
  induction stack with
  | nil => rfl
  | cons e below ih =>
    by_cases h0 : e.CloseIndex = 0
    · simp only [fillStack, closeFirst, h0, if_true, matchingClose, fillStack_close_succ]
      simp [hi]
    · simp only [fillStack, closeFirst, h0, if_false, ih]

theorem scanStack_eq (rest : List Nat) :
    ∀ (i : Nat) (stack : List Parentheses), (stack = [] ∨ i ≠ 0) →
      scanStack rest i stack = (allPairs rest i).reverse ++ fillStack rest i stack 0 := by
  induction rest with
  | nil =>
    intro i stack _
    simp only [scanStack, allPairs, List.reverse_nil, List.nil_append, fillStack_nil]
  | cons b rest ih =>
    intro i stack hi
    by_cases h40 : b = 40
    · subst h40
      have h41 : ¬ (40 = 41) := by decide
      simp only [scanStack, allPairs, if_true, h41, if_false]
      rw [ih (i + 1) _ (Or.inr (by omega)), fillStack_open]
      simp [fillStack]
    · by_cases h41 : b = 41
      · subst h41
        simp only [scanStack, allPairs, h40, if_false, if_true]
        rw [ih (i + 1) _ (Or.inr (by omega))]
        rcases hi with rfl | hi
        · rfl
        · rw [fillStack_close rest i hi]
      · simp only [scanStack, allPairs, h40, h41, if_false]
        rw [ih (i + 1) _ (Or.inr (by omega)), fillStack_other b h40 h41]

theorem scanPattern_eq_allPairs (pattern : List Nat) :
    scanPattern pattern 0 [] = allPairs pattern 0 := by
  have h := scanPattern_reverse pattern 0 []
  rw [List.reverse_nil, scanStack_eq pattern 0 [] (Or.inl rfl)] at h
  simp only [fillStack, List.append_nil] at h
  exact List.reverse_injective h

theorem matchingClose_spec (rest : List Nat) :
    ∀ (before : List Nat) (d c : Nat), matchingClose rest d before.length = some c →
      before.length ≤ c ∧ (before ++ rest)[c]? = some 41 := by
  induction rest with
  | nil => intro before d c h; simp [matchingClose] at h
  | cons b rest ih =>
    intro before d c h
    have hstep : ∀ d2, matchingClose rest d2 (before.length + 1) = some c →
        before.length ≤ c ∧ (before ++ b :: rest)[c]? = some 41 := by
      intro d2 h2
      have := ih (before ++ [b]) d2 c (by simpa using h2)
      simp only [List.length_append, List.length_singleton, List.append_assoc,
        List.singleton_append] at this
      exact ⟨by omega, this.2⟩
    by_cases h40 : b = 40
    · simp only [matchingClose, h40, if_true] at h
      exact hstep _ h
    · by_cases h41 : b = 41
      · cases d with
        | zero =>
          subst h41
          simp [matchingClose] at h
          subst h
          refine ⟨Nat.le_refl _, ?_⟩
          rw [List.getElem?_append_right (Nat.le_refl _)]
          simp
        | succ d =>
          simp only [matchingClose, h40, h41, if_false, if_true] at h
          exact hstep _ h
      · simp only [matchingClose, h40, h41, if_false] at h
        exact hstep _ h

theorem closedPairs_spec (rest : List Nat) :
    ∀ (before : List Nat) (p : Nat × Nat), p ∈ closedPairs rest before.length →
      (before ++ rest)[p.1]? = some 40 ∧ (before ++ rest)[p.2]? = some 41 := by
  induction rest with
  | nil => intro before p h; simp [closedPairs] at h
  | cons b rest ih =>
    intro before p h
    have hstep : p ∈ closedPairs rest (before.length + 1) →
        (before ++ b :: rest)[p.1]? = some 40 ∧ (before ++ b :: rest)[p.2]? = some 41 := by
      intro h2
      have := ih (before ++ [b]) p (by simpa using h2)
      simpa using this
    by_cases h40 : b = 40
    · simp only [closedPairs, h40, if_true] at h
      cases hm : matchingClose rest 0 (before.length + 1) with
      | none =>
        rw [hm] at h
        exact hstep h
      | some c =>
        rw [hm] at h
        rcases List.mem_cons.mp h with rfl | h
        · have := matchingClose_spec rest (before ++ [b]) 0 c (by simpa using hm)
          refine ⟨?_, by simpa using this.2⟩
          show (before ++ b :: rest)[before.length]? = some 40
          rw [List.getElem?_append_right (Nat.le_refl _)]
          simp [h40]
        · exact hstep h
    · simp only [closedPairs, h40, if_false] at h
      exact hstep h

theorem allPairs_closed (rest : List Nat) :
    ∀ i, (allPairs rest i).filter (fun p => decide (p.CloseIndex ≠ 0)) =
      (closedPairs rest i).map (fun p => { OpenIndex := p.1, CloseIndex := p.2 }) := by
  induction rest with
  | nil => intro i; rfl
  | cons b rest ih =>
    intro i
    by_cases h40 : b = 40
    · simp only [allPairs, closedPairs, h40, if_true]
      cases hm : matchingClose rest 0 (i + 1) with
      | none =>
        simp only [Option.getD_none, List.filter_cons, ne_eq, not_true_eq_false,
          decide_False, ih]
        rfl
      | some c =>
        have hc := (matchingClose_spec rest (List.replicate (i + 1) 0) 0 c
          (by simpa using hm)).1
        simp only [List.length_replicate] at hc
        have hne : c ≠ 0 := by omega
        simp only [Option.getD_some, List.filter_cons, ne_eq, hne, not_false_eq_true,
          decide_True, if_true, List.map_cons, ih]
    · simp only [allPairs, closedPairs, h40, if_false, ih]

/-! ## On a pattern of ASCII bytes the functions do what the specification says -/

theorem mem_pairPositions (pairs : List (Nat × Nat)) (ks : List Int) (i : Nat) :
    i ∈ pairPositions pairs ks ↔
      ∃ k ∈ ks, 1 ≤ k ∧ ∃ p, pairs[(k - 1).toNat]? = some p ∧ (p.1 = i ∨ p.2 = i) := by
  induction ks with
  | nil => simp [pairPositions]
  | cons k ks ih =>
    by_cases hk : 1 ≤ k ∧ k ≤ (pairs.length : Int)
    · have hlt : (k - 1).toNat < pairs.length := by omega
      have hget : pairs[(k - 1).toNat]? = some pairs[(k - 1).toNat] :=
        List.getElem?_eq_getElem hlt
      simp only [pairPositions, hk, and_self, if_true, hget, List.mem_cons, ih]
      constructor
      · rintro (h | h | ⟨k2, hk2, h⟩)
        · exact ⟨k, Or.inl rfl, hk.1, _, hget, Or.inl h.symm⟩
        · exact ⟨k, Or.inl rfl, hk.1, _, hget, Or.inr h.symm⟩
        · exact ⟨k2, Or.inr hk2, h⟩
      · rintro ⟨k2, hk2 | hk2, h1, p, hp, hhit⟩
        · subst hk2
          rw [hget] at hp
          rw [← Option.some.inj hp] at hhit
          rcases hhit with h | h
          · exact Or.inl h.symm
          · exact Or.inr (Or.inl h.symm)
        · exact Or.inr (Or.inr ⟨k2, hk2, h1, p, hp, hhit⟩)
    · simp only [pairPositions, hk, if_false, List.mem_cons, ih]
      constructor
      · rintro ⟨k2, hk2, h⟩
        exact ⟨k2, Or.inr hk2, h⟩
      · rintro ⟨k2, hk2 | hk2, h1, p, hp, hhit⟩
        · subst hk2
          have hge : pairs.length ≤ (k2 - 1).toNat := by omega
          rw [List.getElem?_eq_none hge] at hp
          cases hp
        · exact ⟨k2, hk2, h1, p, hp, hhit⟩

theorem removeLoop_ascii (p : ParenthesesSlice) (removed : List Nat)
    (hp : ∀ k, p.IsPresent k = true ↔ k ∈ removed) (rest : List Nat) :
    ∀ (before : List Nat), (∀ b ∈ rest, b < 128) →
      (∀ k ∈ removed, (before ++ rest)[k]? = some 40 ∨ (before ++ rest)[k]? = some 41) →
      removeLoop p rest before.length = deletePositions removed rest before.length := by
  induction rest with
  | nil => intro before _ _; rfl
  | cons b rest ih =>
    intro before ha hpar
    have hb : b < 128 := ha b (List.mem_cons_self _ _)
    have hrec := ih (before ++ [b]) (fun x hx => ha x (List.mem_cons_of_mem _ hx))
      (by simpa using hpar)
    simp only [List.length_append, List.length_singleton] at hrec
    by_cases hmem : before.length ∈ removed
    · have hbyte := hpar _ hmem
      simp only [List.getElem?_append_right (Nat.le_refl _), Nat.sub_self,
        List.getElem?_cons_zero, Option.some.injEq] at hbyte
      simp only [removeLoop, deletePositions, hbyte, (hp _).mpr hmem, and_self, if_true,
        hmem, hrec]
    · have hfalse : ¬ (p.IsPresent before.length = true) := fun h => hmem ((hp _).mp h)
      simp [removeLoop, deletePositions, hfalse, hmem, hrec, stringOfByte, hb]

theorem escapeLoop_ascii (p : ParenthesesSlice) (removed : List Nat)
    (hp : ∀ k, p.IsPresent k = true ↔ k ∈ removed) (rest : List Nat) :
    ∀ i, (∀ b ∈ rest, b < 128) →
      escapeLoop p rest i = escapeRemaining removed rest i := by
  induction rest with
  | nil => intro i _; rfl
  | cons b rest ih =>
    intro i ha
    have hb : b < 128 := ha b (List.mem_cons_self _ _)
    have hrec := ih (i + 1) (fun x hx => ha x (List.mem_cons_of_mem _ hx))
    by_cases hmem : i ∈ removed
    · have htrue : p.IsPresent i = true := (hp _).mpr hmem
      simp only [escapeLoop, escapeRemaining, htrue, Bool.true_eq_false, and_false, if_false,
        hmem, not_true_eq_false, hrec, stringOfByte, hb, if_true, List.singleton_append]
    · have hfalse : p.IsPresent i = false := by
        cases h : p.IsPresent i with
        | false => rfl
        | true => exact absurd ((hp _).mp h) hmem
      simp only [escapeLoop, escapeRemaining, hfalse, and_true, hmem, not_false_eq_true,
        hrec, stringOfByte, hb, if_true, List.singleton_append]

theorem getParenthesesIndex_spec (pattern target : List Nat)
    (hv : ∀ v ∈ placeholderNumbers (findPlaceholders target none), 1 ≤ v) :
    ∃ result, getParenthesesIndex pattern target = some result ∧
      ∀ k, (ParenthesesSlice.mk result).IsPresent k = true ↔
        k ∈ pairPositions (closedPairs pattern 0)
          (placeholderNumbers (findPlaceholders target none)) := by
  obtain ⟨values, hvals, -, hmem⟩ := getPlaceHoldersValue_spec target
  have hrange : ∀ v ∈ values, 1 ≤ v ∧ v ≤ 9223372036854775807 := fun v h =>
    ⟨hv v ((hmem v).mp h), (placeholderNumbers_range _ v ((hmem v).mp h)).2⟩
  have htemp : (scanPattern pattern 0 []).filter (fun p => decide (p.CloseIndex ≠ 0)) =
      (closedPairs pattern 0).map (fun p => { OpenIndex := p.1, CloseIndex := p.2 }) := by
    rw [scanPattern_eq_allPairs, allPairs_closed]
  obtain ⟨result, hpick, hpres⟩ := pickPlaceholders_spec
    ((closedPairs pattern 0).map (fun p => { OpenIndex := p.1, CloseIndex := p.2 })) values hrange
  refine ⟨result, by simp only [getParenthesesIndex, hvals, htemp, hpick], fun k => ?_⟩
  rw [hpres k, mem_pairPositions]
  constructor
  · rintro ⟨v, hvmem, e, he, hhit⟩
    rw [List.getElem?_map] at he
    cases hq : (closedPairs pattern 0)[(v - 1).toNat]? with
    | none => rw [hq] at he; cases he
    | some q =>
      rw [hq] at he
      simp only [Option.map_some'] at he
      rw [← Option.some.inj he] at hhit
      exact ⟨v, (hmem v).mp hvmem, (hrange v hvmem).1, q, hq, hhit⟩
  · rintro ⟨v, hvmem, -, q, hq, hhit⟩
    refine ⟨v, (hmem v).mpr hvmem, { OpenIndex := q.1, CloseIndex := q.2 }, ?_, hhit⟩
    rw [List.getElem?_map, hq]
    rfl

theorem pairPositions_parentheses (pattern : List Nat) (ks : List Int) :
    ∀ k ∈ pairPositions (closedPairs pattern 0) ks,
      pattern[k]? = some 40 ∨ pattern[k]? = some 41 := by
  intro k hk
  obtain ⟨v, -, -, p, hp, hhit⟩ := (mem_pairPositions _ _ _).mp hk
  have hmem : p ∈ closedPairs pattern 0 := List.mem_iff_getElem?.mpr ⟨_, hp⟩
  have := closedPairs_spec pattern [] p hmem
  simp only [List.nil_append] at this
  rcases hhit with h | h
  · rw [← h]; exact Or.inl this.1
  · rw [← h]; exact Or.inr this.2

/-- On a pattern of ASCII bytes, with a target whose placeholder numbers are all
at least 1, `RemovePlaceholderParentheses` returns the pattern without the two
parentheses of each pair that has a placeholder, and `AddEscapingParentheses`
returns the pattern with a backslash before each other parenthesis. -/
theorem placeholder_parentheses_on_ascii (pattern target : List Nat)
    (ha : ∀ b ∈ pattern, b < 128)
    (hv : ∀ v ∈ placeholderNumbers (findPlaceholders target none), 1 ≤ v) :
    RemovePlaceholderParentheses pattern target =
      some (deletePositions (pairPositions (closedPairs pattern 0)
        (placeholderNumbers (findPlaceholders target none))) pattern 0) ∧
    AddEscapingParentheses pattern target =
      some (escapeRemaining (pairPositions (closedPairs pattern 0)
        (placeholderNumbers (findPlaceholders target none))) pattern 0) := by
  obtain ⟨result, hget, hpres⟩ := getParenthesesIndex_spec pattern target hv
  constructor
  · simp only [RemovePlaceholderParentheses, hget]
    have := removeLoop_ascii { Parentheses := result } _ hpres pattern [] ha
      (by simpa using pairPositions_parentheses pattern _)
    simp only [List.length_nil] at this
    rw [this]
  · simp only [AddEscapingParentheses, hget]
    rw [escapeLoop_ascii { Parentheses := result } _ hpres pattern 0 ha]

/-! ## The claims on the placeholder parentheses -/

/-- C16: on the pattern `é`, the two bytes 195 and 169, with a target without
placeholders, `RemovePlaceholderParentheses` and `AddEscapingParentheses` return
the four bytes 195, 131, 194, 169, where the specification has the pattern
itself: each byte from 128 on is replaced by the two bytes of `string(b)`, so
the pattern is not kept byte for byte.  On the ASCII pattern `((a)(b))c(` with
the target `x{2}y{3}` they return `(ab)c(` and `\((a)(b)\)c\(`, as the
specification has it. -/
theorem byte_conversion_rewrites_pattern :
    RemovePlaceholderParentheses [195, 169] [] = some [195, 131, 194, 169] ∧
    deletePositions (pairPositions (closedPairs [195, 169] 0)
      (placeholderNumbers (findPlaceholders [] none))) [195, 169] 0 = [195, 169] ∧
    AddEscapingParentheses [195, 169] [] = some [195, 131, 194, 169] ∧
    escapeRemaining (pairPositions (closedPairs [195, 169] 0)
      (placeholderNumbers (findPlaceholders [] none))) [195, 169] 0 = [195, 169] ∧
    closedPairs (ascii "((a)(b))c(") 0 = [(0, 7), (1, 3), (4, 6)] ∧
    RemovePlaceholderParentheses (ascii "((a)(b))c(") (ascii "x{2}y{3}") =
      some (ascii "(ab)c(") ∧
    AddEscapingParentheses (ascii "((a)(b))c(") (ascii "x{2}y{3}") =
      some (ascii "\\((a)(b)\\)c\\(") := by
  refine ⟨by decide, by decide, by decide, by decide, by decide, by decide, by decide⟩

/-- C17: with the target `{0}`, and with the target `{-1}`, the index `v-1` of
`temp[v-1]` in `getParenthesesIndex` is below zero although `len(temp) > v-1`
holds, so `RemovePlaceholderParentheses` and `AddEscapingParentheses` panic, on
the pattern `a` and on the pattern `(a)`. -/
theorem placeholder_zero_panics :
    getPlaceHoldersValue (ascii "{0}") = some [0] ∧
    getPlaceHoldersValue (ascii "{-1}") = some [-1] ∧
    RemovePlaceholderParentheses (ascii "a") (ascii "{0}") = none ∧
    AddEscapingParentheses (ascii "a") (ascii "{0}") = none ∧
    RemovePlaceholderParentheses (ascii "(a)") (ascii "{-1}") = none ∧
    AddEscapingParentheses (ascii "(a)") (ascii "{-1}") = none := by
  refine ⟨by decide, by decide, by decide, by decide, by decide, by decide⟩

/-- C18: for every pattern with balanced parentheses and every target whose
placeholder numbers are all at least 1, `RemovePlaceholderParentheses` returns
a string, and its parentheses are balanced. -/
theorem RemovePlaceholderParentheses_keeps_balance (pattern target : List Nat)
    (hb : Balanced pattern)
    (hv : ∀ v ∈ placeholderNumbers (findPlaceholders target none), 1 ≤ v) :
    ∃ out, RemovePlaceholderParentheses pattern target = some out ∧ Balanced out := by
  obtain ⟨values, hvals, -, hmem⟩ := getPlaceHoldersValue_spec target
  have hge : ∀ v ∈ values, 1 ≤ v := fun v h => hv v ((hmem v).mp h)
  have hrange : ∀ v ∈ values, 1 ≤ v ∧ v ≤ 9223372036854775807 := fun v h =>
    ⟨hge v h, (placeholderNumbers_range _ v ((hmem v).mp h)).2⟩
  obtain ⟨newer, filled, hF, hfill, hnew, hout⟩ :=
    scanStack_balanced (fun k => decide (((k : Int) + 1) ∈ values)) pattern 0 [] (by simp) hb
  have hfilled : filled = [] := by
    cases filled with
    | nil => rfl
    | cons f fl => exact absurd hfill (by simp [Fills])
  subst hfilled
  rw [List.append_nil] at hF
  have hrev : (scanPattern pattern 0 []).reverse = newer := by
    rw [scanPattern_reverse]; exact hF
  have hclosed : ∀ e ∈ scanPattern pattern 0 [], e.CloseIndex ≠ 0 := by
    intro e he
    have := hnew e (by rw [← hrev]; exact List.mem_reverse.mpr he)
    omega
  have htemp : (scanPattern pattern 0 []).filter (fun p => decide (p.CloseIndex ≠ 0)) =
      scanPattern pattern 0 [] :=
    List.filter_eq_self.mpr (fun e he => by simpa using hclosed e he)
  obtain ⟨result, hpick, hpres⟩ := pickPlaceholders_spec (scanPattern pattern 0 []) values hrange
  have hget : getParenthesesIndex pattern target = some result := by
    simp only [getParenthesesIndex, hvals, htemp, hpick]
  refine ⟨removeLoop { Parentheses := result } pattern 0, by
    simp only [RemovePlaceholderParentheses, hget], ?_⟩
  have hcongr : ∀ k, (ParenthesesSlice.mk result).IsPresent k =
      presentStack (fun k => decide (((k : Int) + 1) ∈ values)) (scanStack pattern 0 []) k := by
    intro k
    rw [Bool.eq_iff_iff, hpres k, presentStack_iff, hF, ← hrev, List.reverse_reverse]
    constructor
    · rintro ⟨v, hvmem, e, he, hhit⟩
      have h1 := hge v hvmem
      refine ⟨(v - 1).toNat, e, he, ?_, hhit⟩
      have : (((v - 1).toNat : Nat) : Int) + 1 = v := by omega
      rw [decide_eq_true_eq, this]
      exact hvmem
    · rintro ⟨j, e, he, hs, hhit⟩
      simp only [decide_eq_true_eq] at hs
      refine ⟨(j : Int) + 1, hs, e, ?_, hhit⟩
      have : ((j : Int) + 1 - 1).toNat = j := by omega
      rw [this]; exact he
  unfold Balanced
  rw [removeLoop_eq_removeWith,
    removeWith_congr _ _ pattern 0 (fun k _ => hcongr k)]
  exact hout

/-- Witness of C18: the pattern `((a)(b))c` with the target `x{2}y{3}`. -/
theorem RemovePlaceholderParentheses_keeps_balance_witness :
    Balanced (ascii "((a)(b))c") ∧
    (∀ v ∈ placeholderNumbers (findPlaceholders (ascii "x{2}y{3}") none), 1 ≤ v) ∧
    ∃ out, RemovePlaceholderParentheses (ascii "((a)(b))c") (ascii "x{2}y{3}") = some out ∧
      Balanced out :=
  ⟨by decide, by decide,
    RemovePlaceholderParentheses_keeps_balance (ascii "((a)(b))c") (ascii "x{2}y{3}")
      (by decide) (by decide)⟩

/-- C19: for every non-empty slice `s` of integers, `inPlaceRemoveDuplicate`
leaves a slice that is strictly increasing, so holds no value twice, and that
holds exactly the values of `s`. -/
theorem inPlaceRemoveDuplicate_sorts_and_dedups (s : List Int) (h : s ≠ []) :
    ∃ out, inPlaceRemoveDuplicate s = some out ∧ out.Pairwise (fun x y => x < y) ∧
      out.Nodup ∧ ∀ x, x ∈ out ↔ x ∈ s := by
  obtain ⟨out, h1, h2, h3⟩ := inPlaceRemoveDuplicate_spec s h
  exact ⟨out, h1, h2, h2.imp (fun hxy => ne_of_lt hxy), h3⟩

/-- Witness of C19: the slice 3, 1, 3, 2, 2, -5 becomes -5, 1, 2, 3. -/
theorem inPlaceRemoveDuplicate_sorts_and_dedups_witness :
    inPlaceRemoveDuplicate [3, 1, 3, 2, 2, -5] = some [-5, 1, 2, 3] ∧
    ∃ out, inPlaceRemoveDuplicate [3, 1, 3, 2, 2, -5] = some out ∧
      out.Pairwise (fun x y => x < y) ∧ out.Nodup ∧
      ∀ x, x ∈ out ↔ x ∈ ([3, 1, 3, 2, 2, -5] : List Int) :=
  ⟨by decide, inPlaceRemoveDuplicate_sorts_and_dedups [3, 1, 3, 2, 2, -5] (by decide)⟩

end Utils
